import Mathlib

/-!
Verification of the codex-graph AST-to-graph ingestion engine.

This file shallowly embeds the data model and the operations of the
repository (the identity and hashing helpers, the tree collector, the
batched postgres persistence pipeline, the in-memory reference backend,
the file-record persistence, the pagination cursor codec and the
read-only query guard) as executable Lean definitions, and proves or
refutes the frozen specification claims about them.

Bytes are modelled as `List Nat` (each entry a byte value), Python
strings as Lean `String`, dictionaries as association lists.
-/

namespace CodexGraph

/-- 2^32, the modulus for 32-bit words. -/
def w32M : Nat := 4294967296

/-- Addition modulo 2^32. -/
def wadd (a b : Nat) : Nat := (a + b) % w32M

/-- Right rotation of a 32-bit word. -/
def rotr (n x : Nat) : Nat := (x >>> n) ||| ((x % 2 ^ n) <<< (32 - n))

/-- Bitwise xor of three words. -/
def xor3 (a b c : Nat) : Nat := Nat.xor (Nat.xor a b) c

/-- SHA-256 small sigma 0. -/
def ssig0 (x : Nat) : Nat := xor3 (rotr 7 x) (rotr 18 x) (x >>> 3)

/-- SHA-256 small sigma 1. -/
def ssig1 (x : Nat) : Nat := xor3 (rotr 17 x) (rotr 19 x) (x >>> 10)

/-- SHA-256 big sigma 0. -/
def bsig0 (x : Nat) : Nat := xor3 (rotr 2 x) (rotr 13 x) (rotr 22 x)

/-- SHA-256 big sigma 1. -/
def bsig1 (x : Nat) : Nat := xor3 (rotr 6 x) (rotr 11 x) (rotr 25 x)

/-- SHA-256 choose function. -/
def chF (x y z : Nat) : Nat := Nat.xor (Nat.land x y) (Nat.land (Nat.xor x w32M.pred) z)

/-- SHA-256 majority function. -/
def majF (x y z : Nat) : Nat := xor3 (Nat.land x y) (Nat.land x z) (Nat.land y z)

/-- The 64 SHA-256 round constants. -/
def shaK : List Nat :=
  [1116352408, 1899447441, 3049323471, 3921009573, 961987163, 1508970993,
   2453635748, 2870763221, 3624381080, 310598401, 607225278, 1426881987,
   1925078388, 2162078206, 2614888103, 3248222580, 3835390401, 4022224774,
   264347078, 604807628, 770255983, 1249150122, 1555081692, 1996064986,
   2554220882, 2821834349, 2952996808, 3210313671, 3336571891, 3584528711,
   113926993, 338241895, 666307205, 773529912, 1294757372, 1396182291,
   1695183700, 1986661051, 2177026350, 2456956037, 2730485921, 2820302411,
   3259730800, 3345764771, 3516065817, 3600352804, 4094571909, 275423344,
   430227734, 506948616, 659060556, 883997877, 958139571, 1322822218,
   1537002063, 1747873779, 1955562222, 2024104815, 2227730452, 2361852424,
   2428436474, 2756734187, 3204031479, 3329325298]

/-- The SHA-256 initial hash value. -/
def shaH0 : List Nat :=
  [1779033703, 3144134277, 1013904242, 2773480762, 1359893119, 2600822924, 528734635, 1541459225]

/-- Pad a byte message to a multiple of 64 bytes (0x80, zeros, 64-bit big-endian length). -/
def shaPad (msg : List Nat) : List Nat :=
  let l := msg.length
  let k := (119 - l % 64) % 64
  let bits := 8 * l
  msg ++ [0x80] ++ List.replicate k 0 ++
    [bits >>> 56 % 256, bits >>> 48 % 256, bits >>> 40 % 256, bits >>> 32 % 256,
     bits >>> 24 % 256, bits >>> 16 % 256, bits >>> 8 % 256, bits % 256]

/-- Group a byte list into big-endian 32-bit words. -/
def toWords : List Nat → List Nat
  | b0 :: b1 :: b2 :: b3 :: rest => (((b0 * 256 + b1) * 256 + b2) * 256 + b3) :: toWords rest
  | _ => []

/-- Extend 16 words into the 64-word SHA-256 message schedule. -/
def shaSchedule (ws : List Nat) : List Nat :=
  (List.range 48).foldl
    (fun w _ =>
      let n := w.length
      let nw := (ssig1 (w.getD (n - 2) 0) + w.getD (n - 7) 0 +
                 ssig0 (w.getD (n - 15) 0) + w.getD (n - 16) 0) % w32M
      w ++ [nw])
    ws

/-- One SHA-256 compression round. -/
def shaRound (st : List Nat) (kw : Nat × Nat) : List Nat :=
  match st with
  | [a, b, c, d, e, f, g, h] =>
    let t1 := (h + bsig1 e + chF e f g + kw.1 + kw.2) % w32M
    let t2 := (bsig0 a + majF a b c) % w32M
    [(t1 + t2) % w32M, a, b, c, (d + t1) % w32M, e, f, g]
  | other => other

/-- Compress one 64-byte block into the running hash state. -/
def shaCompress (hs : List Nat) (block : List Nat) : List Nat :=
  let w := shaSchedule (toWords block)
  let fin := (shaK.zip w).foldl shaRound hs
  (hs.zip fin).map (fun p => wadd p.1 p.2)

/-- SHA-256 of a byte list, as a list of 32 digest bytes. -/
def sha256 (msg : List Nat) : List Nat :=
  let padded := shaPad msg
  let nb := padded.length / 64
  let fin := (List.range nb).foldl
    (fun hs i => shaCompress hs ((padded.drop (64 * i)).take 64)) shaH0
  fin.flatMap (fun w => [w >>> 24 % 256, w >>> 16 % 256, w >>> 8 % 256, w % 256])

/-- A hexadecimal digit character (lowercase), as produced by Python `hexdigest`. -/
def hexDigit (n : Nat) : Char :=
  if n < 10 then Char.ofNat (48 + n) else Char.ofNat (87 + n)

/-- Hex-encode a byte list into a lowercase string. -/
def hexOfBytes (bs : List Nat) : String :=
  String.mk (bs.flatMap (fun b => [hexDigit (b / 16 % 16), hexDigit (b % 16)]))

/-- `hashlib.sha256(bytes).hexdigest()`: the lowercase hex digest of a byte list. -/
def sha256hex (msg : List Nat) : String := hexOfBytes (sha256 msg)

/-! ## UTF-8 encoding and decoding (Python `str.encode` / `bytes.decode`) -/

/-- UTF-8 encoding of a single character. -/
def utf8EncodeChar (c : Char) : List Nat :=
  let n := c.toNat
  if n < 0x80 then [n]
  else if n < 0x800 then [0xC0 + n / 64, 0x80 + n % 64]
  else if n < 0x10000 then [0xE0 + n / 4096, 0x80 + n / 64 % 64, 0x80 + n % 64]
  else [0xF0 + n / 262144, 0x80 + n / 4096 % 64, 0x80 + n / 64 % 64, 0x80 + n % 64]

/-- UTF-8 encoding of a character list. -/
def utf8EncodeList (cs : List Char) : List Nat := cs.flatMap utf8EncodeChar

/-- Python `s.encode("utf-8")`. -/
def utf8Encode (s : String) : List Nat := utf8EncodeList s.data

/-- Is a byte a UTF-8 continuation byte (0x80..0xBF)? -/
def utf8Cont (b : Nat) : Bool := 0x80 ≤ b && b ≤ 0xBF

/-- One step of strict UTF-8 decoding: the first scalar value and the
remaining bytes, `none` on any invalid, overlong, surrogate or
out-of-range sequence. -/
def utf8DecodeStep : List Nat → Option (Char × List Nat)
  | [] => none
  | b0 :: rest =>
    if b0 < 0x80 then some (Char.ofNat b0, rest)
    else if 0xC2 ≤ b0 && b0 ≤ 0xDF then
      match rest with
      | b1 :: rest2 =>
        if utf8Cont b1 then some (Char.ofNat ((b0 - 0xC0) * 64 + (b1 - 0x80)), rest2)
        else none
      | [] => none
    else if 0xE0 ≤ b0 && b0 ≤ 0xEF then
      match rest with
      | b1 :: b2 :: rest3 =>
        if (if b0 = 0xE0 then (0xA0:Nat) else 0x80) ≤ b1 &&
            b1 ≤ (if b0 = 0xED then (0x9F:Nat) else 0xBF) && utf8Cont b2 then
          some (Char.ofNat ((b0 - 0xE0) * 4096 + (b1 - 0x80) * 64 + (b2 - 0x80)), rest3)
        else none
      | _ => none
    else if 0xF0 ≤ b0 && b0 ≤ 0xF4 then
      match rest with
      | b1 :: b2 :: b3 :: rest4 =>
        if (if b0 = 0xF0 then (0x90:Nat) else 0x80) ≤ b1 &&
            b1 ≤ (if b0 = 0xF4 then (0x8F:Nat) else 0xBF) && utf8Cont b2 && utf8Cont b3 then
          some (Char.ofNat ((b0 - 0xF0) * 262144 + (b1 - 0x80) * 4096 + (b2 - 0x80) * 64 +
            (b3 - 0x80)), rest4)
        else none
      | _ => none
    else none

/-- The strict decoding loop; each step consumes at least one byte, so a
fuel of the byte count never runs out. -/
def utf8DecodeLoop : Nat → List Nat → Option (List Char)
  | _, [] => some []
  | 0, _ :: _ => none
  | fuel + 1, b :: bs =>
    match utf8DecodeStep (b :: bs) with
    | none => none
    | some (c, rest) => (utf8DecodeLoop fuel rest).map (fun cs => c :: cs)

/-- Strict UTF-8 decoding (Python `bytes.decode("utf-8")`). -/
def utf8DecodeStrictList (bs : List Nat) : Option (List Char) :=
  utf8DecodeLoop bs.length bs

/-- The Unicode replacement character U+FFFD. -/
def replChar : Char := Char.ofNat 0xFFFD

/-- UTF-8 decoding with Python `errors="replace"`: each maximal invalid
subpart is replaced by U+FFFD. -/
def utf8DecodeReplaceList : List Nat → List Char
  | [] => []
  | b0 :: rest =>
    if b0 < 0x80 then Char.ofNat b0 :: utf8DecodeReplaceList rest
    else if 0xC2 ≤ b0 && b0 ≤ 0xDF then
      match rest with
      | b1 :: rest2 =>
        if utf8Cont b1 then Char.ofNat ((b0 - 0xC0) * 64 + (b1 - 0x80)) :: utf8DecodeReplaceList rest2
        else replChar :: utf8DecodeReplaceList (b1 :: rest2)
      | [] => [replChar]
    else if 0xE0 ≤ b0 && b0 ≤ 0xEF then
      let lo1 : Nat := if b0 = 0xE0 then 0xA0 else 0x80
      let hi1 : Nat := if b0 = 0xED then 0x9F else 0xBF
      match rest with
      | b1 :: b2 :: rest3 =>
        if lo1 ≤ b1 && b1 ≤ hi1 then
          if utf8Cont b2 then
            Char.ofNat ((b0 - 0xE0) * 4096 + (b1 - 0x80) * 64 + (b2 - 0x80)) :: utf8DecodeReplaceList rest3
          else replChar :: utf8DecodeReplaceList (b2 :: rest3)
        else replChar :: utf8DecodeReplaceList (b1 :: b2 :: rest3)
      | [b1] =>
        if lo1 ≤ b1 && b1 ≤ hi1 then [replChar] else [replChar, replChar]
      | [] => [replChar]
    else if 0xF0 ≤ b0 && b0 ≤ 0xF4 then
      let lo1 : Nat := if b0 = 0xF0 then 0x90 else 0x80
      let hi1 : Nat := if b0 = 0xF4 then 0x8F else 0xBF
      match rest with
      | b1 :: b2 :: b3 :: rest4 =>
        if lo1 ≤ b1 && b1 ≤ hi1 then
          if utf8Cont b2 then
            if utf8Cont b3 then
              Char.ofNat ((b0 - 0xF0) * 262144 + (b1 - 0x80) * 4096 + (b2 - 0x80) * 64 + (b3 - 0x80)) ::
                utf8DecodeReplaceList rest4
            else replChar :: utf8DecodeReplaceList (b3 :: rest4)
          else replChar :: utf8DecodeReplaceList (b2 :: b3 :: rest4)
        else replChar :: utf8DecodeReplaceList (b1 :: b2 :: b3 :: rest4)
      | [b1, b2] =>
        if lo1 ≤ b1 && b1 ≤ hi1 then
          if utf8Cont b2 then [replChar] else [replChar, replChar]
        else replChar :: utf8DecodeReplaceList [b1, b2]
      | [b1] =>
        if lo1 ≤ b1 && b1 ≤ hi1 then [replChar] else replChar :: utf8DecodeReplaceList [b1]
      | [] => [replChar]
    else replChar :: utf8DecodeReplaceList rest

/-- The universal-newline translation of Python's text layer, applied by
`open`/`read_text` with the default `newline=None`: each `\r\n` pair and
each lone `\r` becomes `\n`. -/
def univNewlines : List Char → List Char
  | [] => []
  | '\r' :: '\n' :: rest => '\n' :: univNewlines rest
  | '\r' :: rest => '\n' :: univNewlines rest
  | c :: rest => c :: univNewlines rest

/-- Python `path.read_text(encoding="utf-8")` — a strict UTF-8 decode read
through the text layer, which translates newlines — with the repository's
`except UnicodeDecodeError` fallback to
`bytes.decode("utf-8", errors="replace")`, which decodes the raw bytes
directly and performs no newline translation. -/
def readContentPy (bs : List Nat) : String :=
  match utf8DecodeStrictList bs with
  | some cs => String.mk (univNewlines cs)
  | none => String.mk (utf8DecodeReplaceList bs)

/-! ## Identity and hashing helpers (`db/helpers.py`) -/

/-- `make_span_key`: colon-joined concatenation of file uuid, node type and byte span. -/
def make_span_key (file_uuid ntype : String) (start_byte end_byte : Nat) : String :=
  file_uuid ++ ":" ++ ntype ++ ":" ++ toString start_byte ++ ":" ++ toString end_byte

/-- The framed byte string hashed by `compute_shape_hash`:
`T|` (bytes 84, 124), the node type bytes, `|S|` (124, 83, 124), the raw
source slice, and for each child hash `|C|` (124, 67, 124) followed by the
child hash bytes. -/
def frameBytes (tb sb : List Nat) (cbs : List (List Nat)) : List Nat :=
  [84, 124] ++ tb ++ [124, 83, 124] ++ sb ++ cbs.flatMap (fun cb => [124, 67, 124] ++ cb)

/-- `compute_shape_hash`: hex SHA-256 of the framed encoding of node type,
source slice and ordered child hashes (sequential `h.update` calls hash the
concatenation of their arguments). -/
def compute_shape_hash (node_type : String) (source_slice : List Nat) (child_hashes : List String) : String :=
  sha256hex (frameBytes (utf8Encode node_type) source_slice (child_hashes.map utf8Encode))

/-- Python byte-slice `b[s:e]` for non-negative bounds. -/
def pySlice (b : List Nat) (s e : Nat) : List Nat := (b.drop s).take (e - s)

/-! ## The AST model (`models.py`) -/

/-- A tree-sitter point (row, column). -/
structure Position where
  row : Nat
  column : Nat
deriving DecidableEq, Repr

/-- The recursive `AstNode` pydantic model: type, byte range, row/column
range and ordered children (`None` is modelled as the empty list, which
Python's `if n.children:` treats identically). -/
inductive Ast where
  | mk (type : String) (start_byte end_byte : Nat) (start_point end_point : Position)
      (children : List Ast)

/-- The node type of an AST node. -/
def Ast.nodeType : Ast → String
  | .mk t _ _ _ _ _ => t

/-- The start byte of an AST node. -/
def Ast.startByte : Ast → Nat
  | .mk _ sb _ _ _ _ => sb

/-- The end byte of an AST node. -/
def Ast.endByte : Ast → Nat
  | .mk _ _ eb _ _ _ => eb

/-- The children of an AST node. -/
def Ast.childList : Ast → List Ast
  | .mk _ _ _ _ _ cs => cs

/-- The `FileAst` model: file uuid, language, root node, and the optional
raw source bytes carried alongside. -/
structure FileAst where
  file_uuid : String
  language : String
  ast : Ast
  source_bytes : Option (List Nat)

/-! ## The tree collector (`_collect_ast_data`, postgres.py) -/

/-- The property dictionary of one collected AST node. -/
structure NodeProps where
  file_uuid : String
  type : String
  start_byte : Nat
  end_byte : Nat
  start_row : Nat
  start_col : Nat
  end_row : Nat
  end_col : Nat
  span_key : String
  shape_hash : String
deriving DecidableEq, Repr

/-- The three parallel arrays accumulated by `_collect_ast_data`. -/
structure CollectAcc where
  nodes : List NodeProps
  edges : List (Nat × Nat × Nat)
  occurrences : List (Nat × Nat × Nat)
deriving DecidableEq, Repr

mutual
/-- The inner `_walk` of `_collect_ast_data`: visits children first, then
appends the parent's property dict, its child edges (with `child_order`
from `enumerate`) and its occurrence; returns the node's index and shape hash. -/
def collectWalk (fu : String) (src : List Nat) : Ast → CollectAcc → CollectAcc × Nat × String
  | .mk t sb eb sp ep cs, acc =>
    let r := collectChildren fu src cs acc
    let acc1 := r.1
    let childIdx := r.2.1
    let childShapes := r.2.2
    let sk := make_span_key fu t sb eb
    let sh := compute_shape_hash t (pySlice src sb eb) childShapes
    let idx := acc1.nodes.length
    let props : NodeProps := ⟨fu, t, sb, eb, sp.row, sp.column, ep.row, ep.column, sk, sh⟩
    (⟨acc1.nodes ++ [props],
      acc1.edges ++ childIdx.enum.map (fun p => (idx, p.2, p.1)),
      acc1.occurrences ++ [(idx, sb, eb)]⟩, idx, sh)

/-- The child loop of `_walk`: collects child indices always and child
shapes only when truthy (non-empty), in order. -/
def collectChildren (fu : String) (src : List Nat) :
    List Ast → CollectAcc → CollectAcc × List Nat × List String
  | [], acc => (acc, [], [])
  | c :: rest, acc =>
    let r1 := collectWalk fu src c acc
    let r2 := collectChildren fu src rest r1.1
    (r2.1, r1.2.1 :: r2.2.1, if r1.2.2 = "" then r2.2.2 else r1.2.2 :: r2.2.2)
end

/-- `_collect_ast_data(node, file_uuid, source_bytes)`: the three flat arrays. -/
def collect_ast_data (node : Ast) (file_uuid : String) (source_bytes : List Nat) : CollectAcc :=
  (collectWalk file_uuid source_bytes node ⟨[], [], []⟩).1

/-! ## Spec-side characterization of the collector (for the ordering claim).
These definitions follow the spec's words (post-order, children before the
parent, `child_order = 0..N-1` in tree order) and are proved equal to the
collector. -/

mutual
/-- The number of nodes of a tree. -/
def treeSize : Ast → Nat
  | .mk _ _ _ _ _ cs => treeSizeList cs + 1

/-- The number of nodes of a forest. -/
def treeSizeList : List Ast → Nat
  | [] => 0
  | c :: rest => treeSize c + treeSizeList rest
end

mutual
/-- The recursive shape hash of a subtree, computed directly. -/
def shapeHashSpec (src : List Nat) : Ast → String
  | .mk t sb eb _ _ cs => compute_shape_hash t (pySlice src sb eb) (shapeShapes src cs)

/-- The truthy shape hashes of a forest, in order. -/
def shapeShapes (src : List Nat) : List Ast → List String
  | [] => []
  | c :: rest =>
    let h := shapeHashSpec src c
    let hs := shapeShapes src rest
    if h = "" then hs else h :: hs
end

mutual
/-- The post-order node property list of a tree. -/
def specNodes (fu : String) (src : List Nat) : Ast → List NodeProps
  | .mk t sb eb sp ep cs =>
    specNodesList fu src cs ++
      [⟨fu, t, sb, eb, sp.row, sp.column, ep.row, ep.column, make_span_key fu t sb eb,
        shapeHashSpec src (.mk t sb eb sp ep cs)⟩]

/-- The post-order node property list of a forest. -/
def specNodesList (fu : String) (src : List Nat) : List Ast → List NodeProps
  | [] => []
  | c :: rest => specNodes fu src c ++ specNodesList fu src rest
end

mutual
/-- The post-order indices of the roots of a forest laid out from `base`. -/
def childRootIdx (base : Nat) : List Ast → List Nat
  | [] => []
  | c :: rest => (base + treeSize c - 1) :: childRootIdx (base + treeSize c) rest

/-- The edge triples `(parent_index, child_index, child_order)` of a tree
laid out post-order from `base`. -/
def specEdges (base : Nat) : Ast → List (Nat × Nat × Nat)
  | .mk _ _ _ _ _ cs =>
    specEdgesList base cs ++
      (childRootIdx base cs).enum.map (fun p => (base + treeSizeList cs, p.2, p.1))

/-- The edge triples of a forest laid out post-order from `base`. -/
def specEdgesList (base : Nat) : List Ast → List (Nat × Nat × Nat)
  | [] => []
  | c :: rest => specEdges base c ++ specEdgesList (base + treeSize c) rest
end

mutual
/-- The occurrence triples `(node_index, start_byte, end_byte)` of a tree
laid out post-order from `base`. -/
def specOccs (base : Nat) : Ast → List (Nat × Nat × Nat)
  | .mk _ sb eb _ _ cs => specOccsList base cs ++ [(base + treeSizeList cs, sb, eb)]

/-- The occurrence triples of a forest laid out post-order from `base`. -/
def specOccsList (base : Nat) : List Ast → List (Nat × Nat × Nat)
  | [] => []
  | c :: rest => specOccs base c ++ specOccsList (base + treeSize c) rest
end

/-! ## Python dict as an association list (insert replaces, lookup finds first) -/

/-- Python dict assignment `d[k] = v`: replace in place when the key is
present, otherwise append. -/
def dictInsert {α β : Type} [DecidableEq α] (d : List (α × β)) (k : α) (v : β) : List (α × β) :=
  if d.any (fun p => p.1 = k) then d.map (fun p => if p.1 = k then (k, v) else p)
  else d ++ [(k, v)]

/-- Python dict lookup `d.get(k)`. -/
def dictGet {α β : Type} [DecidableEq α] (d : List (α × β)) (k : α) : Option β :=
  (d.find? (fun p => p.1 = k)).map (fun p => p.2)

/-! ## The AGE property-graph state and the batched persistence pipeline
(`_persist_file_ast_to_age`, postgres.py) -/

/-- One `AstNode` vertex of the AGE graph. -/
structure AgeAstVertex where
  vid : Nat
  props : NodeProps
deriving DecidableEq, Repr

/-- One `FileVersion` vertex of the AGE graph. -/
structure AgeFileVersion where
  vid : Nat
  commit_id : String
  file_uuid : String
  path : String
  language : String
  ts : String
  author : String
  branch : String
deriving DecidableEq, Repr

/-- One `OCCURS_IN` edge with its MERGE key properties. -/
structure AgeOccurs where
  node_id : Nat
  fv_id : Nat
  commit_id : String
  file_uuid : String
  start_byte : Nat
  end_byte : Nat
deriving DecidableEq, Repr

/-- The graph-side state: vertices, `PARENT_OF` / `OCCURS_IN` /
`NEXT_VERSION` edges, the relational `ast_edge_guard` table and the vertex
id counter. -/
structure AgeState where
  astNodes : List AgeAstVertex
  fileVersions : List AgeFileVersion
  guardRows : List (Nat × Nat × Nat)
  parentEdges : List (Nat × Nat × Nat)
  occursEdges : List AgeOccurs
  nextVersionEdges : List (Nat × Nat)
  nextId : Nat
deriving DecidableEq, Repr

/-- Persistence errors surfaced by the pipeline: the `ast_edge_guard`
unique violation on `(parent_id, child_index)`. -/
inductive PgError where
  | guardUniqueViolation
deriving DecidableEq, Repr

/-- `_batch_lookup_spans`: the span_key → vertex id dict built from all
batches (each row assigns, so for a duplicated span_key the last matching
vertex in scan order wins). -/
def lookupSpans (st : AgeState) (keys : List String) : List (String × Nat) :=
  (st.astNodes.filter (fun v => keys.contains v.props.span_key)).foldl
    (fun d v => dictInsert d v.props.span_key v.vid) []

/-- `_batch_create_nodes`: CREATE one `AstNode` vertex per property dict,
returning the fresh ids in order. -/
def createNodes (st : AgeState) (ps : List NodeProps) : AgeState × List Nat :=
  ps.foldl
    (fun r p =>
      ({r.1 with astNodes := r.1.astNodes ++ [⟨r.1.nextId, p⟩], nextId := r.1.nextId + 1},
       r.2 ++ [r.1.nextId]))
    (st, [])

/-- One row of `_batch_edge_guard`: `INSERT .. ON CONFLICT (parent_id,
child_id) DO NOTHING`; a conflict on the `(parent_id, child_index)` unique
constraint is an error. -/
def guardInsertRow (rows : List (Nat × Nat × Nat)) (t : Nat × Nat × Nat) :
    Except PgError (List (Nat × Nat × Nat)) :=
  if rows.any (fun r => r.1 = t.1 && r.2.1 = t.2.1) then .ok rows
  else if rows.any (fun r => r.1 = t.1 && r.2.2 = t.2.2) then .error .guardUniqueViolation
  else .ok (rows ++ [t])

/-- `_batch_edge_guard` over all triples. -/
def guardInsertAll (rows : List (Nat × Nat × Nat)) (ts : List (Nat × Nat × Nat)) :
    Except PgError (List (Nat × Nat × Nat)) :=
  ts.foldlM guardInsertRow rows

/-- One `MERGE (p)-[r:PARENT_OF]->(c) SET r.child_index` of
`_batch_parent_edges`. -/
def mergeParentEdge (edges : List (Nat × Nat × Nat)) (t : Nat × Nat × Nat) :
    List (Nat × Nat × Nat) :=
  if edges.any (fun e => e.1 = t.1 && e.2.1 = t.2.1) then
    edges.map (fun e => if e.1 = t.1 && e.2.1 = t.2.1 then (e.1, e.2.1, t.2.2) else e)
  else edges ++ [t]

/-- `_batch_parent_edges` over all triples. -/
def mergeParentAll (edges : List (Nat × Nat × Nat)) (ts : List (Nat × Nat × Nat)) :
    List (Nat × Nat × Nat) :=
  ts.foldl mergeParentEdge edges

/-- One `MERGE (n)-[r:OCCURS_IN {commit_id, file_uuid, start_byte,
end_byte}]->(fv)` of `_batch_occurs_edges`. -/
def mergeOccursEdge (edges : List AgeOccurs) (o : AgeOccurs) : List AgeOccurs :=
  if edges.contains o then edges else edges ++ [o]

/-- `_batch_occurs_edges` over all occurrence tuples. -/
def mergeOccursAll (edges : List AgeOccurs) (os : List AgeOccurs) : List AgeOccurs :=
  os.foldl mergeOccursEdge edges

/-- The `MERGE (fv:FileVersion {commit_id, file_uuid, path}) SET
fv.language, fv.ts, fv.author, fv.branch RETURN id(fv)` statement: update
every match (create when absent) and return the first row's id. -/
def mergeFileVersion (st : AgeState) (commit fu path lang ts author branch : String) :
    AgeState × Nat :=
  match st.fileVersions.find? (fun f => f.commit_id = commit && f.file_uuid = fu && f.path = path) with
  | some f =>
    ({st with fileVersions :=
        (st.fileVersions.map (fun g =>
          if g.commit_id = commit && g.file_uuid = fu && g.path = path then
            {g with language := lang, ts := ts, author := author, branch := branch}
          else g))},
     f.vid)
  | none =>
    ({st with
        fileVersions := st.fileVersions ++ [⟨st.nextId, commit, fu, path, lang, ts, author, branch⟩],
        nextId := st.nextId + 1},
     st.nextId)

/-- The `MATCH (prev:FileVersion {commit_id, path}) .. MERGE
(prev)-[:NEXT_VERSION]->(cur)` statement: one MERGE per matched previous
version, a no-op when none matches. -/
def linkPrevVersion (st : AgeState) (prevCommit path : String) (curId : Nat) : AgeState :=
  {st with nextVersionEdges :=
    ((st.fileVersions.filter (fun f => f.commit_id = prevCommit && f.path = path)).foldl
      (fun es f => if es.contains (f.vid, curId) then es else es ++ [(f.vid, curId)])
      st.nextVersionEdges)}

/-- The partition of collected nodes into known (span_key hit) and new
(span_key miss), mirroring the `for i, props in enumerate(node_props)` loop:
returns (new indices, new props, index → existing id assignments). -/
def partitionNodes (d : List (String × Nat)) :
    Nat → List NodeProps → List Nat × List NodeProps × List (Nat × Nat)
  | _, [] => ([], [], [])
  | i, p :: rest =>
    let r := partitionNodes d (i + 1) rest
    match dictGet d p.span_key with
    | some vid => (r.1, r.2.1, (i, vid) :: r.2.2)
    | none => (i :: r.1, p :: r.2.1, r.2.2)

/-- Look up a collector index in the resolved `index_to_age_id` map. -/
def lookupIdx (m : List (Nat × Nat)) (i : Nat) : Nat :=
  ((m.find? (fun p => p.1 = i)).map (fun p => p.2)).getD 0

/-- The git metadata record returned by `get_git_commit_info`. -/
structure GitCommitInfo where
  commit_id : String
  author : String
  timestamp : String
  branch : String
deriving DecidableEq, Repr

/-- `_persist_file_ast_to_age`: the transactional persistence phase of one
ingest. `gitInfo` is the (optional) result of the git helper, `now` the
current ISO timestamp used as fallback, `prevCommitLookup` the result of
`get_previous_commit_for_file`, and `diskBytes` the file's bytes read when
`fa.source_bytes` is absent. -/
def persist_file_ast_to_age (gitInfo : Option GitCommitInfo) (now : String)
    (prevCommitLookup : Option String) (fa : FileAst) (diskBytes : List Nat)
    (file_path : String) (st : AgeState) : Except PgError AgeState :=
  let commit_id := match gitInfo with | some g => g.commit_id | none => "local"
  let author := match gitInfo with | some g => g.author | none => "local"
  let ts_iso := match gitInfo with | some g => g.timestamp | none => now
  let branch := match gitInfo with | some g => g.branch | none => "local"
  let source_bytes := fa.source_bytes.getD diskBytes
  let col := collect_ast_data fa.ast fa.file_uuid source_bytes
  let fvr := mergeFileVersion st commit_id fa.file_uuid file_path fa.language ts_iso author branch
  let st1 := fvr.1
  let fvid := fvr.2
  let prev_commit : Option String := if commit_id ≠ "local" then prevCommitLookup else none
  let st2 := match prev_commit with
    | some pc => linkPrevVersion st1 pc file_path fvid
    | none => st1
  let spanToId := lookupSpans st2 (col.nodes.map (fun p => p.span_key))
  let part := partitionNodes spanToId 0 col.nodes
  let newIndices := part.1
  let newProps := part.2.1
  let cr := createNodes st2 newProps
  let st3 := cr.1
  let idxMap := part.2.2 ++ newIndices.zip cr.2
  let ageEdges := col.edges.map (fun e => (lookupIdx idxMap e.1, lookupIdx idxMap e.2.1, e.2.2))
  match guardInsertAll st3.guardRows ageEdges with
  | .error e => .error e
  | .ok rows =>
    let st4 := {st3 with guardRows := rows,
                         parentEdges := mergeParentAll st3.parentEdges ageEdges}
    let ageOccs := col.occurrences.map
      (fun o => AgeOccurs.mk (lookupIdx idxMap o.1) fvid commit_id fa.file_uuid o.2.1 o.2.2)
    .ok {st4 with occursEdges := mergeOccursAll st4.occursEdges ageOccs}

/-- The empty AGE graph. -/
def AgeState.empty : AgeState := ⟨[], [], [], [], [], [], 1⟩

/-! ## The in-memory reference backend (`memory.py`) -/

/-- `InMemoryFileRecord` (timestamps modelled as strings). -/
structure InMemoryFileRecord where
  file_id : String
  name : String
  full_path : String
  suffix : String
  content : String
  content_hash : String
  created : String
  last_modified : String
deriving DecidableEq, Repr

/-- `InMemoryFileVersion` (note: no branch field in this backend). -/
structure InMemoryFileVersion where
  version_id : Nat
  commit_id : String
  file_uuid : String
  path : String
  language : String
  timestamp : String
  author : String
deriving DecidableEq, Repr

/-- `InMemoryAstNode`. -/
structure InMemoryAstNode where
  node_id : Nat
  file_uuid : String
  node_type : String
  start_byte : Nat
  end_byte : Nat
  start_row : Nat
  start_col : Nat
  end_row : Nat
  end_col : Nat
  span_key : String
  shape_hash : String
deriving DecidableEq, Repr

/-- `InMemoryOccurrence`. -/
structure InMemoryOccurrence where
  node_id : Nat
  file_version_id : Nat
  commit_id : String
  file_uuid : String
  start_byte : Nat
  end_byte : Nat
deriving DecidableEq, Repr

/-- The whole mutable state of `InMemoryGraphDatabase` (dicts as
association lists, the `parent_edges` set as a deduplicated list). -/
structure MemState where
  files : List (String × InMemoryFileRecord)
  files_by_path_hash : List ((String × String) × String)
  file_versions : List InMemoryFileVersion
  ast_nodes : List (Nat × InMemoryAstNode)
  ast_nodes_by_span : List (String × Nat)
  ast_nodes_by_shape : List (String × Nat)
  parent_edges : List (Nat × Nat × Nat)
  occurrences : List InMemoryOccurrence
  next_node_id : Nat
  next_file_version_id : Nat
deriving DecidableEq, Repr

/-- A freshly constructed `InMemoryGraphDatabase`. -/
def MemState.empty : MemState := ⟨[], [], [], [], [], [], [], [], 1, 1⟩

/-- Insert a triple into the `parent_edges` set. -/
def setInsertTriple (s : List (Nat × Nat × Nat)) (t : Nat × Nat × Nat) : List (Nat × Nat × Nat) :=
  if s.contains t then s else s ++ [t]

mutual
/-- `InMemoryGraphDatabase._ingest_node`: children first, then resolve the
node by span_key, falling back to shape_hash, creating it only when both
miss; add ordered parent edges and the occurrence. Returns the updated
state, the appended occurrence list, the node id and the shape hash. -/
def memIngestNode (fu : String) (src : List Nat) :
    Ast → MemState → List (Nat × Nat × Nat) →
      MemState × List (Nat × Nat × Nat) × Nat × String
  | .mk t sb eb sp ep cs, st, occ =>
    let r := memIngestChildren fu src cs st occ
    let st1 := r.1
    let occ1 := r.2.1
    let childIds := r.2.2.1
    let childShapes := r.2.2.2
    let span_key := make_span_key fu t sb eb
    let shape_hash := compute_shape_hash t (pySlice src sb eb) childShapes
    let found :=
      match dictGet st1.ast_nodes_by_span span_key with
      | some nid => some nid
      | none => dictGet st1.ast_nodes_by_shape shape_hash
    let r2 : MemState × Nat :=
      match found with
      | some nid => (st1, nid)
      | none =>
        let nid := st1.next_node_id
        ({st1 with
            ast_nodes := dictInsert st1.ast_nodes nid
              ⟨nid, fu, t, sb, eb, sp.row, sp.column, ep.row, ep.column, span_key, shape_hash⟩,
            ast_nodes_by_span := dictInsert st1.ast_nodes_by_span span_key nid,
            ast_nodes_by_shape := dictInsert st1.ast_nodes_by_shape shape_hash nid,
            next_node_id := nid + 1},
         nid)
    let st2 := r2.1
    let nid := r2.2
    let pe := childIds.enum.foldl (fun s p => setInsertTriple s (nid, p.2, p.1)) st2.parent_edges
    let st3 := {st2 with parent_edges := pe}
    (st3, occ1 ++ [(nid, sb, eb)], nid, shape_hash)

/-- The child loop of `_ingest_node`: ids and shapes are both appended
unconditionally, in order. -/
def memIngestChildren (fu : String) (src : List Nat) :
    List Ast → MemState → List (Nat × Nat × Nat) →
      MemState × List (Nat × Nat × Nat) × List Nat × List String
  | [], st, occ => (st, occ, [], [])
  | c :: rest, st, occ =>
    let r1 := memIngestNode fu src c st occ
    let r2 := memIngestChildren fu src rest r1.1 r1.2.1
    (r2.1, r2.2.1, r1.2.2.1 :: r2.2.2.1, r1.2.2.2 :: r2.2.2.2)
end

/-- `InMemoryGraphDatabase.persist_file_ast`: append a fresh
`InMemoryFileVersion` (no MERGE), ingest the tree recursively reading the
bytes from disk, then append one occurrence row per collected occurrence. -/
def mem_persist_file_ast (gitInfo : Option GitCommitInfo) (now : String) (fa : FileAst)
    (diskBytes : List Nat) (file_path : String) (st : MemState) : MemState :=
  let commit_id := match gitInfo with | some g => g.commit_id | none => "local"
  let author := match gitInfo with | some g => g.author | none => "local"
  let ts_iso := match gitInfo with | some g => g.timestamp | none => now
  let fvId := st.next_file_version_id
  let st1 := {st with
    file_versions := st.file_versions ++
      [⟨fvId, commit_id, fa.file_uuid, file_path, fa.language, ts_iso, author⟩],
    next_file_version_id := fvId + 1}
  let r := memIngestNode fa.file_uuid diskBytes fa.ast st1 []
  let st2 := r.1
  let occ := r.2.1
  let occRows : List InMemoryOccurrence :=
    occ.map (fun o => ⟨o.1, fvId, commit_id, fa.file_uuid, o.2.1, o.2.2⟩)
  {st2 with occurrences := st2.occurrences ++ occRows}

/-- `InMemoryGraphDatabase.persist_file`: decode the bytes (strict UTF-8
with replace fallback), hash the re-encoded text, dedup on
`(full_path, content_hash)`, otherwise insert a fresh record. -/
def mem_persist_file (st : MemState) (full_path name suffix : String) (bytes : List Nat)
    (created last_modified fresh_uuid : String) : MemState × String :=
  let content := readContentPy bytes
  let content_hash := sha256hex (utf8Encode content)
  match dictGet st.files_by_path_hash (full_path, content_hash) with
  | some fid => (st, fid)
  | none =>
    ({st with
        files := dictInsert st.files fresh_uuid
          ⟨fresh_uuid, name, full_path, suffix, content, content_hash, created, last_modified⟩,
        files_by_path_hash :=
          dictInsert st.files_by_path_hash (full_path, content_hash) fresh_uuid},
     fresh_uuid)

/-! ## File-record persistence, postgres side (`_persist_file`) -/

/-- One row of the relational `files` table. -/
structure PgFileRow where
  id : String
  name : String
  full_path : String
  suffix : String
  content : String
  content_hash : String
  created : String
  last_modified : String
deriving DecidableEq, Repr

/-- `_persist_file`: decode the bytes (strict UTF-8 with replace
fallback), hash the re-encoded text, `SELECT .. WHERE full_path = .. AND
content_hash = .. LIMIT 1` for dedup, otherwise INSERT a fresh row. -/
def pg_persist_file (rows : List PgFileRow) (full_path name suffix : String) (bytes : List Nat)
    (created last_modified fresh_uuid : String) : List PgFileRow × String :=
  let content := readContentPy bytes
  let content_hash := sha256hex (utf8Encode content)
  match rows.find? (fun r => r.full_path = full_path && r.content_hash = content_hash) with
  | some r => (rows, r.id)
  | none =>
    (rows ++ [⟨fresh_uuid, name, full_path, suffix, content, content_hash, created, last_modified⟩],
     fresh_uuid)

/-! ## URL-safe base64 (`base64.urlsafe_b64encode` / `urlsafe_b64decode`) -/

/-- The URL-safe base64 alphabet character for a 6-bit value. -/
def b64Char (n : Nat) : Char :=
  if n < 26 then Char.ofNat (65 + n)
  else if n < 52 then Char.ofNat (97 + (n - 26))
  else if n < 62 then Char.ofNat (48 + (n - 52))
  else if n = 62 then '-' else '_'

/-- `base64.urlsafe_b64encode`: 3-byte groups to 4 characters, padded with `=`. -/
def b64EncodeList : List Nat → List Char
  | [] => []
  | [b0] => [b64Char (b0 / 4), b64Char (b0 % 4 * 16), '=', '=']
  | [b0, b1] => [b64Char (b0 / 4), b64Char (b0 % 4 * 16 + b1 / 16), b64Char (b1 % 16 * 4), '=']
  | b0 :: b1 :: b2 :: rest =>
    b64Char (b0 / 4) :: b64Char (b0 % 4 * 16 + b1 / 16) ::
      b64Char (b1 % 16 * 4 + b2 / 64) :: b64Char (b2 % 64) :: b64EncodeList rest

/-- The 6-bit value of a standard-alphabet base64 character, `none` for
characters outside the alphabet. -/
def b64Val (c : Char) : Option Nat :=
  let n := c.toNat
  if 65 ≤ n && n ≤ 90 then some (n - 65)
  else if 97 ≤ n && n ≤ 122 then some (n - 97 + 26)
  else if 48 ≤ n && n ≤ 57 then some (n - 48 + 52)
  else if c = '+' then some 62
  else if c = '/' then some 63
  else none

/-- `urlsafe_b64decode`'s alphabet translation `-` → `+`, `_` → `/`. -/
def b64UrlTranslate (c : Char) : Char :=
  if c = '-' then '+' else if c = '_' then '/' else c

/-- The decoding loop of legacy `binascii.a2b_base64`
(`strict_mode=False`), over characters already restricted to the base64
alphabet plus `=`. The state is the position inside the current
four-character quad (`quad_pos`), the bits carried over from the previous
data character (`leftchar`) and the number of `=` seen in the current quad
(`pads`). A data character at quad positions 1–3 emits one byte and resets
`pads`; a `=` at quad positions 0–1 is ignored; a `=` at positions 2–3
increments `pads` and, once `quad_pos + pads` reaches 4, ends the data
successfully (anything after is ignored); input that ends in the middle of
a quad is a padding error (`none`). -/
def b64Loop : List Char → Nat → Nat → Nat → Option (List Nat)
  | [], 0, _, _ => some []
  | [], _, _, _ => none
  | c :: rest, quad_pos, leftchar, pads =>
    if c = '=' then
      if quad_pos < 2 then b64Loop rest quad_pos leftchar pads
      else if 4 ≤ quad_pos + (pads + 1) then some []
      else b64Loop rest quad_pos leftchar (pads + 1)
    else
      match b64Val c with
      | none => b64Loop rest quad_pos leftchar pads
      | some v =>
        match quad_pos with
        | 0 => b64Loop rest 1 v 0
        | 1 => (b64Loop rest 2 (v % 16) 0).map (fun bs => (leftchar * 4 + v / 16) :: bs)
        | 2 => (b64Loop rest 3 (v % 4) 0).map (fun bs => (leftchar * 16 + v / 4) :: bs)
        | _ => (b64Loop rest 0 0 0).map (fun bs => (leftchar * 64 + v) :: bs)

/-- `base64.urlsafe_b64decode` with the default `validate=False`:
translate the URL-safe alphabet, discard characters outside the alphabet
and `=` (the legacy loop skips them without touching its state), then run
the decoding loop; `none` models `binascii.Error`. -/
def b64DecodeUrlsafe (cs : List Char) : Option (List Nat) :=
  b64Loop ((cs.map b64UrlTranslate).filter (fun c => (b64Val c).isSome || c = '=')) 0 0 0

/-! ## JSON (`json.dumps` with compact separators / `json.loads`) -/

/-- A JSON value; numbers keep their source lexeme (only their Python
`str()` image is ever consumed, and no claim depends on float formatting). -/
inductive JsonValue where
  | jnull
  | jbool (b : Bool)
  | jnum (lexeme : List Char)
  | jstr (s : List Char)
  | jarr (items : List JsonValue)
  | jobj (fields : List (List Char × JsonValue))

/-- Is the JSON value an object (a Python dict after `json.loads`)? -/
def JsonValue.isObj : JsonValue → Bool
  | .jobj _ => true
  | _ => false

/-- A lowercase hex digit, as in CPython's `\uXXXX` escapes. -/
def hex4 (n : Nat) : List Char :=
  [hexDigit (n / 4096 % 16), hexDigit (n / 256 % 16), hexDigit (n / 16 % 16), hexDigit (n % 16)]

/-- CPython `json.dumps` (default `ensure_ascii=True`) escaping of one
character: short escapes for quote, backslash and the five control
characters, `\uXXXX` for every other character outside 0x20..0x7e (as a
surrogate pair above 0xFFFF), the character itself otherwise. -/
def escChar (c : Char) : List Char :=
  let n := c.toNat
  if c = '"' then ['\\', '"']
  else if c = '\\' then ['\\', '\\']
  else if n = 8 then ['\\', 'b']
  else if n = 9 then ['\\', 't']
  else if n = 10 then ['\\', 'n']
  else if n = 12 then ['\\', 'f']
  else if n = 13 then ['\\', 'r']
  else if 0x20 ≤ n && n ≤ 0x7e then [c]
  else if n < 0x10000 then '\\' :: 'u' :: hex4 n
  else
    ('\\' :: 'u' :: hex4 (0xD800 + (n - 0x10000) / 0x400)) ++
      ('\\' :: 'u' :: hex4 (0xDC00 + (n - 0x10000) % 0x400))

/-- `json.dumps` escaping of a whole string (without the quotes). -/
def escList (s : List Char) : List Char := s.flatMap escChar

/-- `json.dumps({"s": sort_value, "i": id_value}, separators=(",", ":"))`. -/
def jsonDumpsCursor (s i : List Char) : List Char :=
  Char.ofNat 123 :: '"' :: 's' :: '"' :: ':' :: '"' :: escList s ++
    ['"', ',', '"', 'i', '"', ':', '"'] ++ escList i ++ ['"', Char.ofNat 125]

/-- JSON whitespace skipping. -/
def jsonWs (cs : List Char) : List Char :=
  cs.dropWhile (fun c => c = ' ' || c = '\t' || c = '\n' || c = '\r')

/-- The value of a hex digit character. -/
def hexVal (c : Char) : Option Nat :=
  let n := c.toNat
  if 48 ≤ n && n ≤ 57 then some (n - 48)
  else if 97 ≤ n && n ≤ 102 then some (n - 97 + 10)
  else if 65 ≤ n && n ≤ 70 then some (n - 65 + 10)
  else none

/-- Parse four hex digits. -/
def parseHex4 : List Char → Option (Nat × List Char)
  | c0 :: c1 :: c2 :: c3 :: rest =>
    match hexVal c0, hexVal c1, hexVal c2, hexVal c3 with
    | some v0, some v1, some v2, some v3 => some (v0 * 4096 + v1 * 256 + v2 * 16 + v3, rest)
    | _, _, _, _ => none
  | _ => none

/-- Parse the body of a JSON string (after the opening quote), fueled.
Surrogate pairs in `\u` escapes are combined; a lone surrogate (which
Python would keep as-is in its string type) is mapped to U+FFFD, the
nearest representable value. -/
def parseJsonString : Nat → List Char → Option (List Char × List Char)
  | 0, _ => none
  | fuel + 1, cs =>
    match cs with
    | [] => none
    | '"' :: rest => some ([], rest)
    | '\\' :: e :: rest =>
      let cont : Char → List Char → Option (List Char × List Char) := fun c r =>
        (parseJsonString fuel r).map (fun p => (c :: p.1, p.2))
      if e = '"' then cont '"' rest
      else if e = '\\' then cont '\\' rest
      else if e = '/' then cont '/' rest
      else if e = 'b' then cont (Char.ofNat 8) rest
      else if e = 'f' then cont (Char.ofNat 12) rest
      else if e = 'n' then cont (Char.ofNat 10) rest
      else if e = 'r' then cont (Char.ofNat 13) rest
      else if e = 't' then cont (Char.ofNat 9) rest
      else if e = 'u' then
        match parseHex4 rest with
        | none => none
        | some (v, rest1) =>
          if 0xD800 ≤ v && v ≤ 0xDBFF then
            match rest1 with
            | '\\' :: 'u' :: rest2 =>
              match parseHex4 rest2 with
              | some (w, rest3) =>
                if 0xDC00 ≤ w && w ≤ 0xDFFF then
                  cont (Char.ofNat (0x10000 + (v - 0xD800) * 0x400 + (w - 0xDC00))) rest3
                else cont replChar rest1
              | none => cont replChar rest1
            | _ => cont replChar rest1
          else if 0xDC00 ≤ v && v ≤ 0xDFFF then cont replChar rest1
          else cont (Char.ofNat v) rest1
      else none
    | c :: rest => if c.toNat < 0x20 then none else
        (parseJsonString fuel rest).map (fun p => (c :: p.1, p.2))

/-- Parse a JSON number lexeme (sign, integer part, optional fraction and
exponent), returning the consumed characters. -/
def parseJsonNumber (cs : List Char) : Option (List Char × List Char) :=
  let isD : Char → Bool := fun c => 48 ≤ c.toNat && c.toNat ≤ 57
  let sign : List Char × List Char :=
    match cs with
    | '-' :: r => (['-'], r)
    | _ => ([], cs)
  let intPart : Option (List Char × List Char) :=
    match sign.2 with
    | '0' :: r => some (['0'], r)
    | c :: r =>
      if 49 ≤ c.toNat && c.toNat ≤ 57 then
        some (c :: r.takeWhile isD, r.dropWhile isD)
      else none
    | [] => none
  match intPart with
  | none => none
  | some (ip, rest1) =>
    let frac : Option (List Char × List Char) :=
      match rest1 with
      | '.' :: r =>
        match r.takeWhile isD with
        | [] => none
        | ds => some ('.' :: ds, r.dropWhile isD)
      | _ => some ([], rest1)
    match frac with
    | none => none
    | some (fp, rest2) =>
      let expo : Option (List Char × List Char) :=
        match rest2 with
        | c :: r =>
          if c = 'e' || c = 'E' then
            let se : List Char × List Char :=
              match r with
              | '+' :: r2 => (['+'], r2)
              | '-' :: r2 => (['-'], r2)
              | _ => ([], r)
            match se.2.takeWhile isD with
            | [] => none
            | ds => some (c :: se.1 ++ ds, se.2.dropWhile isD)
          else some ([], rest2)
        | [] => some ([], rest2)
      match expo with
      | none => none
      | some (ep, rest3) => some (sign.1 ++ ip ++ fp ++ ep, rest3)

mutual
/-- Parse one JSON value (fueled recursive-descent, as `json.loads`). -/
def parseJsonValue : Nat → List Char → Option (JsonValue × List Char)
  | 0, _ => none
  | fuel + 1, cs =>
    let cs1 := jsonWs cs
    match cs1 with
    | [] => none
    | 'n' :: 'u' :: 'l' :: 'l' :: r => some (.jnull, r)
    | 't' :: 'r' :: 'u' :: 'e' :: r => some (.jbool true, r)
    | 'f' :: 'a' :: 'l' :: 's' :: 'e' :: r => some (.jbool false, r)
    | 'N' :: 'a' :: 'N' :: r => some (.jnum ['N', 'a', 'N'], r)
    | 'I' :: 'n' :: 'f' :: 'i' :: 'n' :: 'i' :: 't' :: 'y' :: r =>
      some (.jnum ('I' :: "nfinity".data), r)
    | '-' :: 'I' :: 'n' :: 'f' :: 'i' :: 'n' :: 'i' :: 't' :: 'y' :: r =>
      some (.jnum ('-' :: 'I' :: "nfinity".data), r)
    | '"' :: r => (parseJsonString fuel r).map (fun p => (.jstr p.1, p.2))
    | '[' :: r => (parseJsonArrayRest fuel r).map (fun p => (.jarr p.1, p.2))
    | c :: r =>
      if c = Char.ofNat 123 then (parseJsonObjRest fuel r).map (fun p => (.jobj p.1, p.2))
      else (parseJsonNumber cs1).map (fun p => (.jnum p.1, p.2))

/-- Parse the items of a JSON array after `[`. -/
def parseJsonArrayRest : Nat → List Char → Option (List JsonValue × List Char)
  | 0, _ => none
  | fuel + 1, cs =>
    let cs1 := jsonWs cs
    if cs1.head? = some ']' then some ([], cs1.tail)
    else
      match parseJsonValue fuel cs1 with
      | none => none
      | some (v, r1) =>
        match parseJsonArrayTail fuel r1 with
        | none => none
        | some (vs, r2) => some (v :: vs, r2)

/-- Parse `, value`* `]` after an array item. -/
def parseJsonArrayTail : Nat → List Char → Option (List JsonValue × List Char)
  | 0, _ => none
  | fuel + 1, cs =>
    match jsonWs cs with
    | ']' :: r => some ([], r)
    | ',' :: r =>
      match parseJsonValue fuel r with
      | none => none
      | some (v, r1) =>
        match parseJsonArrayTail fuel r1 with
        | none => none
        | some (vs, r2) => some (v :: vs, r2)
    | _ => none

/-- Parse the members of a JSON object after the opening brace. -/
def parseJsonObjRest : Nat → List Char → Option (List (List Char × JsonValue) × List Char)
  | 0, _ => none
  | fuel + 1, cs =>
    let cs1 := jsonWs cs
    if cs1.head? = some (Char.ofNat 125) then some ([], cs1.tail)
    else
      match parseJsonMember fuel cs1 with
      | none => none
      | some (kv, r1) =>
        match parseJsonObjTail fuel r1 with
        | none => none
        | some (kvs, r2) => some (kv :: kvs, r2)

/-- Parse one `"key": value` member. -/
def parseJsonMember : Nat → List Char → Option ((List Char × JsonValue) × List Char)
  | 0, _ => none
  | fuel + 1, cs =>
    match jsonWs cs with
    | '"' :: r =>
      match parseJsonString fuel r with
      | none => none
      | some (k, r1) =>
        match jsonWs r1 with
        | ':' :: r2 =>
          match parseJsonValue fuel r2 with
          | none => none
          | some (v, r3) => some ((k, v), r3)
        | _ => none
    | _ => none

/-- Parse `, member`* and the closing brace after an object member. -/
def parseJsonObjTail : Nat → List Char → Option (List (List Char × JsonValue) × List Char)
  | 0, _ => none
  | fuel + 1, cs =>
    match jsonWs cs with
    | ',' :: r =>
      match parseJsonMember fuel r with
      | none => none
      | some (kv, r1) =>
        match parseJsonObjTail fuel r1 with
        | none => none
        | some (kvs, r2) => some (kv :: kvs, r2)
    | c :: r => if c = Char.ofNat 125 then some ([], r) else none
    | [] => none
end

/-- `json.loads`: parse one value and require only whitespace after it. -/
def jsonLoads (cs : List Char) : Option JsonValue :=
  match parseJsonValue (2 * cs.length + 8) cs with
  | none => none
  | some (v, rest) => if jsonWs rest = [] then some v else none

/-- Python dict lookup on a parsed JSON object: for duplicated keys the
last member wins (as in the dict built by `json.loads`). -/
def objLookup (fields : List (List Char × JsonValue)) (k : List Char) : Option JsonValue :=
  (fields.reverse.find? (fun f => f.1 = k)).map (fun f => f.2)

/-- Python `str()` of a JSON-decoded value, as applied by `decode_cursor`
(strings pass through; the container and float images are approximations
never relied upon by any claim). -/
def pyStr : JsonValue → String
  | .jstr s => String.mk s
  | .jnum l => String.mk l
  | .jnull => "None"
  | .jbool true => "True"
  | .jbool false => "False"
  | .jarr _ => ""
  | .jobj _ => ""

/-! ## The pagination cursor codec (`api/pagination.py`) -/

/-- `encode_cursor(sort_value, id_value)`: URL-safe base64 of the compact
JSON payload. -/
def encode_cursor (s i : String) : String :=
  String.mk (b64EncodeList (utf8EncodeList (jsonDumpsCursor s.data i.data)))

/-- The outcome of `decode_cursor`: a decoded pair, the
`InvalidCursorError` raised from the caught `(ValueError, KeyError,
UnicodeDecodeError)`, or an uncaught `TypeError` escaping the function. -/
inductive CursorResult where
  | ok (s i : String)
  | invalidCursor
  | typeErr
deriving DecidableEq, Repr

/-- `decode_cursor(cursor)`: base64-decode (binascii errors are
`ValueError`s, caught), UTF-8 decode (strict; `UnicodeDecodeError` caught),
`json.loads` (`ValueError` caught), then subscript the payload with
`"s"` and `"i"`: a missing key is a caught `KeyError`, but subscripting a
non-dict payload raises an uncaught `TypeError`. -/
def decode_cursor (cursor : String) : CursorResult :=
  match b64DecodeUrlsafe cursor.data with
  | none => .invalidCursor
  | some bytes =>
    match utf8DecodeStrictList bytes with
    | none => .invalidCursor
    | some text =>
      match jsonLoads text with
      | none => .invalidCursor
      | some (.jobj fields) =>
        match objLookup fields ['s'] with
        | none => .invalidCursor
        | some vs =>
          match objLookup fields ['i'] with
          | none => .invalidCursor
          | some vi => .ok (pyStr vs) (pyStr vi)
      | some _ => .typeErr

/-! ## The read-only query guard (`api/routes/cypher.py`) -/

/-- The write-classified keywords of `_WRITE_PATTERN`, uppercase. -/
def writeKeywords : List (List Char) :=
  ["CREATE", "SET", "DELETE", "DETACH", "MERGE", "REMOVE", "DROP", "ALTER"].map String.data

/-- An ASCII regex word character: letter, digit or underscore. Python's
`\w` is Unicode-aware, so this models it faithfully only on ASCII text;
`wordCharPy` below extends it at the non-ASCII code point used by the
counterexample. -/
def wordChar (c : Char) : Bool := c.isAlphanum || c = '_'

/-- Does the keyword match at position `i` of `q` with `\b` boundaries on
both sides, case-insensitively? ASCII model: faithful to the Python regex
only on ASCII queries (see `matchKwAtPy`). -/
def matchKwAt (q : List Char) (i : Nat) (kw : List Char) : Bool :=
  ((q.drop i).take kw.length).map Char.toUpper = kw &&
    (i = 0 || !wordChar (q.getD (i - 1) ' ')) &&
    (i + kw.length = q.length || !wordChar (q.getD (i + kw.length) ' '))

/-- `_WRITE_PATTERN.search(query)` over the ASCII word-character model:
scan every position for any keyword. -/
def writePatternSearch (q : List Char) : Bool :=
  (List.range q.length).any (fun i => writeKeywords.any (fun kw => matchKwAt q i kw))

/-- The outcome of the `/query/cypher` endpoint. -/
inductive CypherOutcome where
  | rejected400
  | executed (q : String)
deriving DecidableEq, Repr

/-- The `cypher` route: reject with HTTP 400 before touching the database
when the write pattern matches, otherwise pass the query through. -/
def cypher_route (q : String) : CypherOutcome :=
  if writePatternSearch q.data then .rejected400 else .executed q

/-- The spec-side reading of the guard: the query contains one of the
write keywords as a whole word (any letter case) somewhere. -/
def containsWriteWord (q : List Char) : Prop :=
  ∃ pre w post, q = pre ++ w ++ post ∧ w.map Char.toUpper ∈ writeKeywords ∧
    (pre = [] ∨ ∃ c, pre.getLast? = some c ∧ wordChar c = false) ∧
    (post = [] ∨ ∃ c, post.head? = some c ∧ wordChar c = false)

/-- The fragment of Python's Unicode-aware `\w` needed here: on ASCII it
is letter, digit or underscore, and it also holds of `é` (U+00E9), which
CPython's `\w` matches (`"é".isalnum()` is true) but the ASCII `wordChar`
does not. -/
def wordCharPy (c : Char) : Bool := c.isAlphanum || c = '_' || c = 'é'

/-- `matchKwAt` with the Unicode-extended word-character predicate: the
keywords are all ASCII uppercase, so case-insensitive matching of the
keyword itself is unaffected, only the `\b` boundary tests change. -/
def matchKwAtPy (q : List Char) (i : Nat) (kw : List Char) : Bool :=
  ((q.drop i).take kw.length).map Char.toUpper = kw &&
    (i = 0 || !wordCharPy (q.getD (i - 1) ' ')) &&
    (i + kw.length = q.length || !wordCharPy (q.getD (i + kw.length) ' '))

/-- `_WRITE_PATTERN.search(query)` with the Unicode-extended `\b`. -/
def writePatternSearchPy (q : List Char) : Bool :=
  (List.range q.length).any (fun i => writeKeywords.any (fun kw => matchKwAtPy q i kw))

/-- The `cypher` route over the Unicode-extended guard. -/
def cypher_routePy (q : String) : CypherOutcome :=
  if writePatternSearchPy q.data then .rejected400 else .executed q

/-! ## Concrete instances used by counterexamples and witnesses -/

/-- A leaf node of type `t` spanning bytes 0..1. -/
def leafT : Ast := .mk "t" 0 1 ⟨0, 0⟩ ⟨0, 1⟩ []

/-- The leaf tree ingested for file uuid `u0` with source byte `x`. -/
def faA : FileAst := ⟨"u0", "python", leafT, some [120]⟩

/-- The same leaf tree ingested for another file uuid `u1`. -/
def faB : FileAst := ⟨"u1", "python", leafT, some [120]⟩

/-- A tree whose root and single child share the same (type, span). -/
def dupSpanTree : Ast := .mk "t" 0 1 ⟨0, 0⟩ ⟨0, 1⟩ [leafT]

/-- The duplicated-span tree as a `FileAst`. -/
def faDup : FileAst := ⟨"u", "python", dupSpanTree, some [120]⟩

/-- A root with two structurally identical siblings (`x` at bytes 0..1 and
2..3 of the source `x x`). -/
def twinTree : Ast :=
  .mk "r" 0 3 ⟨0, 0⟩ ⟨0, 3⟩ [.mk "t" 0 1 ⟨0, 0⟩ ⟨0, 1⟩ [], .mk "t" 2 3 ⟨0, 2⟩ ⟨0, 3⟩ []]

/-- The twin-sibling tree as a `FileAst`. -/
def faTwin : FileAst := ⟨"u", "python", twinTree, some [120, 32, 120]⟩

/-- The vertices created by `createNodes` from a given starting id. -/
def createdVertices (startId : Nat) : List NodeProps → List AgeAstVertex
  | [] => []
  | p :: rest => ⟨startId, p⟩ :: createdVertices (startId + 1) rest

/-- The structural content a shape hash depends on: node type, source
slice and the child shapes, in order. -/
inductive ShapeTree where
  | mk (t : String) (slice : List Nat) (cs : List ShapeTree)

mutual
/-- The shape hash as a function of the structural content alone. -/
def hashOfShape : ShapeTree → String
  | .mk t slice cs => compute_shape_hash t slice (hashOfShapeList cs)

/-- The truthy child hashes of a shape list. -/
def hashOfShapeList : List ShapeTree → List String
  | [] => []
  | s :: rest =>
    let h := hashOfShape s
    let hs := hashOfShapeList rest
    if h = "" then hs else h :: hs
end

mutual
/-- The structural content of a subtree under given source bytes. -/
def shapeOf (src : List Nat) : Ast → ShapeTree
  | .mk t sb eb _ _ cs => .mk t (pySlice src sb eb) (shapeOfList src cs)

/-- The structural content of a forest. -/
def shapeOfList (src : List Nat) : List Ast → List ShapeTree
  | [] => []
  | c :: rest => shapeOf src c :: shapeOfList src rest
end

/-- The commit id used by the persistence phase. -/
def fallbackCommit (g : Option GitCommitInfo) : String :=
  match g with
  | some x => x.commit_id
  | none => "local"

/-- The author used by the persistence phase. -/
def fallbackAuthor (g : Option GitCommitInfo) : String :=
  match g with
  | some x => x.author
  | none => "local"

/-- The timestamp used by the persistence phase. -/
def fallbackTs (g : Option GitCommitInfo) (now : String) : String :=
  match g with
  | some x => x.timestamp
  | none => now

/-- The branch used by the persistence phase. -/
def fallbackBranch (g : Option GitCommitInfo) : String :=
  match g with
  | some x => x.branch
  | none => "local"

/-- Stage a of the transaction: the FileVersion MERGE. -/
def persistStageFV (g : Option GitCommitInfo) (now : String) (fa : FileAst) (path : String)
    (st : AgeState) : AgeState × Nat :=
  mergeFileVersion st (fallbackCommit g) fa.file_uuid path fa.language (fallbackTs g now)
    (fallbackAuthor g) (fallbackBranch g)

/-- Stage b: the NEXT_VERSION link. -/
def persistStageLink (g : Option GitCommitInfo) (pc : Option String) (path : String)
    (r : AgeState × Nat) : AgeState :=
  match (if fallbackCommit g ≠ "local" then pc else none) with
  | some pcv => linkPrevVersion r.1 pcv path r.2
  | none => r.1

/-- Stages c-e: span lookup, partition and creation; returns the state and
the resolved index → vertex id map. -/
def persistStageNodes (fa : FileAst) (db : List Nat) (st2 : AgeState) :
    AgeState × List (Nat × Nat) :=
  let col := collect_ast_data fa.ast fa.file_uuid (fa.source_bytes.getD db)
  let spanToId := lookupSpans st2 (col.nodes.map (fun p => p.span_key))
  let part := partitionNodes spanToId 0 col.nodes
  let cr := createNodes st2 part.2.1
  (cr.1, part.2.2 ++ part.1.zip cr.2)

/-- All stages up to node creation: the final pre-edge state, the resolved
index → id map and the FileVersion id. -/
def persistStages (g : Option GitCommitInfo) (now : String) (pc : Option String) (fa : FileAst)
    (db : List Nat) (path : String) (st : AgeState) : AgeState × List (Nat × Nat) × Nat :=
  let r := persistStageFV g now fa path st
  let nr := persistStageNodes fa db (persistStageLink g pc path r)
  (nr.1, nr.2, r.2)

/-- The guard / PARENT_OF edge triples resolved through the index map. -/
def persistEdgesOf (fa : FileAst) (db : List Nat) (m : List (Nat × Nat)) :
    List (Nat × Nat × Nat) :=
  (collect_ast_data fa.ast fa.file_uuid (fa.source_bytes.getD db)).edges.map
    (fun e => (lookupIdx m e.1, lookupIdx m e.2.1, e.2.2))

/-- The OCCURS_IN merge tuples resolved through the index map. -/
def persistOccsOf (g : Option GitCommitInfo) (fa : FileAst) (db : List Nat)
    (m : List (Nat × Nat)) (fvid : Nat) : List AgeOccurs :=
  (collect_ast_data fa.ast fa.file_uuid (fa.source_bytes.getD db)).occurrences.map
    (fun o => AgeOccurs.mk (lookupIdx m o.1) fvid (fallbackCommit g) fa.file_uuid o.2.1 o.2.2)

/-- Two ingests of the same leaf subtree under different file uuids
(claim C1): the second span_key misses while the shape_hash matches. -/
def c1Run : Except PgError AgeState :=
  (persist_file_ast_to_age none "t0" none faA [] "a.py" AgeState.empty).bind
    (persist_file_ast_to_age none "t1" none faB [] "b.py")

/-- One ingest of the duplicated-span tree into the empty graph (claim C3). -/
def c3Run : Except PgError AgeState :=
  persist_file_ast_to_age none "t0" none faDup [] "d.py" AgeState.empty

/-- One in-memory ingest of the twin-sibling tree (claim C5). -/
def c5MemState : MemState :=
  mem_persist_file_ast none "t0" faTwin [120, 32, 120] "w.py" MemState.empty

/-- One postgres ingest of the twin-sibling tree (claim C5, amended). -/
def c5PgRun : Except PgError AgeState :=
  persist_file_ast_to_age none "t0" none faTwin [] "w.py" AgeState.empty

/-- The state produced by `c5PgRun`. -/
def c5PgState : AgeState :=
  match c5PgRun with
  | .ok s => s
  | .error _ => AgeState.empty

/-- One in-memory ingest of the leaf file (claim C2). -/
def c2MemOnce : MemState := mem_persist_file_ast none "t0" faA [120] "a.py" MemState.empty

/-- The same in-memory ingest repeated (claim C2). -/
def c2MemTwice : MemState := mem_persist_file_ast none "t0" faA [120] "a.py" c2MemOnce

/-- One postgres ingest of the leaf file into the empty graph (claim C2). -/
def c2PgOnce : Except PgError AgeState :=
  persist_file_ast_to_age none "t0" none faA [] "a.py" AgeState.empty

/-- The state produced by `c2PgOnce`. -/
def c2PgState : AgeState :=
  match c2PgOnce with
  | .ok s => s
  | .error _ => AgeState.empty

/-- A state holding one AstNode reachable only by shape (claim C1 witness). -/
def c1ShapeOnlyState : MemState :=
  {MemState.empty with
    ast_nodes_by_shape := [(compute_shape_hash "t" [120] [], 5)]}

/-- A concrete ingest outside a git repository (claim C7). -/
def c7Run : Except PgError AgeState :=
  persist_file_ast_to_age none "2026-01-01T00:00:00+00:00" none faA [] "a.py" AgeState.empty

/-- The state produced by `c7Run`. -/
def c7ResultState : AgeState :=
  match c7Run with
  | .ok s => s
  | .error _ => AgeState.empty

/-! # Theorems -/

/-! ## UTF-8 round trip -/

theorem utf8DecodeStep_encodeChar (c : Char) (rest : List Nat) :
    utf8DecodeStep (utf8EncodeChar c ++ rest) = some (c, rest) := by
  have hval : c.toNat < 0xd800 ∨ (0xdfff < c.toNat ∧ c.toNat < 0x110000) := c.valid
  have hofnat : Char.ofNat c.toNat = c := Char.ofNat_toNat c
  rcases Nat.lt_or_ge c.toNat 0x80 with h1 | h1
  · simp only [utf8EncodeChar, if_pos h1, List.cons_append, List.nil_append, utf8DecodeStep,
      if_pos h1, hofnat]
  · rcases Nat.lt_or_ge c.toNat 0x800 with h2 | h2
    · have e2 : (0xC2 ≤ 0xC0 + c.toNat / 64 && 0xC0 + c.toNat / 64 ≤ 0xDF) = true := by
        simp only [Bool.and_eq_true, decide_eq_true_eq]
        omega
      have e3 : utf8Cont (0x80 + c.toNat % 64) = true := by
        simp only [utf8Cont, Bool.and_eq_true, decide_eq_true_eq]
        omega
      have e4 : (0xC0 + c.toNat / 64 - 0xC0) * 64 + (0x80 + c.toNat % 64 - 0x80) = c.toNat := by
        omega
      simp only [utf8EncodeChar, if_neg (by omega : ¬ c.toNat < 0x80), if_pos h2,
        List.cons_append, List.nil_append, utf8DecodeStep,
        if_neg (by omega : ¬ 0xC0 + c.toNat / 64 < 0x80), e2, if_pos rfl, e3, if_pos rfl, e4,
        hofnat, if_true]
    · rcases Nat.lt_or_ge c.toNat 0x10000 with h3 | h3
      · have hsur : c.toNat < 0xd800 ∨ 0xdfff < c.toNat := by omega
        have e2 : (0xC2 ≤ 0xE0 + c.toNat / 4096 && 0xE0 + c.toNat / 4096 ≤ 0xDF) = false := by
          simp only [Bool.and_eq_false_iff, decide_eq_false_iff_not]
          omega
        have e3 : (0xE0 ≤ 0xE0 + c.toNat / 4096 && 0xE0 + c.toNat / 4096 ≤ 0xEF) = true := by
          simp only [Bool.and_eq_true, decide_eq_true_eq]
          omega
        have e5 : ((if 0xE0 + c.toNat / 4096 = 0xE0 then (0xA0:Nat) else 0x80) ≤
              0x80 + c.toNat / 64 % 64 &&
            (0x80 + c.toNat / 64 % 64 ≤ (if 0xE0 + c.toNat / 4096 = 0xED then (0x9F:Nat) else 0xBF) &&
            utf8Cont (0x80 + c.toNat % 64))) = true := by
          simp only [utf8Cont, Bool.and_eq_true, decide_eq_true_eq]
          refine ⟨?_, ?_, by omega⟩
          · split <;> omega
          · split <;> omega
        have e6 : (0xE0 + c.toNat / 4096 - 0xE0) * 4096 + (0x80 + c.toNat / 64 % 64 - 0x80) * 64 +
            (0x80 + c.toNat % 64 - 0x80) = c.toNat := by
          omega
        simp only [utf8EncodeChar, if_neg (by omega : ¬ c.toNat < 0x80),
          if_neg (by omega : ¬ c.toNat < 0x800), if_pos h3, List.cons_append, List.nil_append,
          utf8DecodeStep, if_neg (by omega : ¬ 0xE0 + c.toNat / 4096 < 0x80), e2,
          Bool.false_eq_true, if_false, e3, if_pos rfl, Bool.and_assoc, e5, e6, hofnat, if_true]
      · have e2 : (0xC2 ≤ 0xF0 + c.toNat / 262144 && 0xF0 + c.toNat / 262144 ≤ 0xDF) = false := by
          simp only [Bool.and_eq_false_iff, decide_eq_false_iff_not]
          omega
        have e3 : (0xE0 ≤ 0xF0 + c.toNat / 262144 && 0xF0 + c.toNat / 262144 ≤ 0xEF) = false := by
          simp only [Bool.and_eq_false_iff, decide_eq_false_iff_not]
          omega
        have e4 : (0xF0 ≤ 0xF0 + c.toNat / 262144 && 0xF0 + c.toNat / 262144 ≤ 0xF4) = true := by
          simp only [Bool.and_eq_true, decide_eq_true_eq]
          omega
        have e5 : ((if 0xF0 + c.toNat / 262144 = 0xF0 then (0x90:Nat) else 0x80) ≤
              0x80 + c.toNat / 4096 % 64 &&
            (0x80 + c.toNat / 4096 % 64 ≤
              (if 0xF0 + c.toNat / 262144 = 0xF4 then (0x8F:Nat) else 0xBF) &&
            (utf8Cont (0x80 + c.toNat / 64 % 64) && utf8Cont (0x80 + c.toNat % 64)))) = true := by
          simp only [utf8Cont, Bool.and_eq_true, decide_eq_true_eq]
          refine ⟨?_, ?_, by omega, by omega⟩
          · split <;> omega
          · split <;> omega
        have e6 : (0xF0 + c.toNat / 262144 - 0xF0) * 262144 +
            (0x80 + c.toNat / 4096 % 64 - 0x80) * 4096 +
            (0x80 + c.toNat / 64 % 64 - 0x80) * 64 + (0x80 + c.toNat % 64 - 0x80) = c.toNat := by
          omega
        simp only [utf8EncodeChar, if_neg (by omega : ¬ c.toNat < 0x80),
          if_neg (by omega : ¬ c.toNat < 0x800), if_neg (by omega : ¬ c.toNat < 0x10000),
          List.cons_append, List.nil_append, utf8DecodeStep,
          if_neg (by omega : ¬ 0xF0 + c.toNat / 262144 < 0x80), e2, Bool.false_eq_true, if_false,
          e3, e4, if_pos rfl, Bool.and_assoc, e5, e6, hofnat, if_true]

theorem utf8EncodeChar_ne_nil (c : Char) : utf8EncodeChar c ≠ [] := by
  simp only [utf8EncodeChar]
  split
  · simp
  · split
    · simp
    · split <;> simp

theorem utf8DecodeLoop_encodeChar (f : Nat) (c : Char) (rest : List Nat) :
    utf8DecodeLoop (f + 1) (utf8EncodeChar c ++ rest) =
      (utf8DecodeLoop f rest).map (fun cs => c :: cs) := by
  rcases he : utf8EncodeChar c with _ | ⟨b, tl⟩
  · exact absurd he (utf8EncodeChar_ne_nil c)
  · have hstep := utf8DecodeStep_encodeChar c rest
    rw [he] at hstep
    simp only [List.cons_append] at hstep ⊢
    simp only [utf8DecodeLoop, hstep]

theorem utf8DecodeLoop_encode (cs : List Char) (f : Nat) (rest : List Nat) :
    utf8DecodeLoop (cs.length + f) (utf8EncodeList cs ++ rest) =
      (utf8DecodeLoop f rest).map (fun tail => cs ++ tail) := by
  induction cs generalizing f with
  | nil =>
    simp only [utf8EncodeList, List.flatMap_nil, List.nil_append, List.length_nil, Nat.zero_add]
    cases utf8DecodeLoop f rest <;> simp
  | cons c cs ih =>
    have henc : utf8EncodeList (c :: cs) = utf8EncodeChar c ++ utf8EncodeList cs := by
      simp [utf8EncodeList]
    have hlen : (c :: cs).length + f = (cs.length + f) + 1 := by
      simp [List.length_cons]
      omega
    rw [henc, hlen, List.append_assoc, utf8DecodeLoop_encodeChar, ih]
    cases utf8DecodeLoop f rest <;> simp

theorem utf8EncodeList_length_ge (cs : List Char) : cs.length ≤ (utf8EncodeList cs).length := by
  induction cs with
  | nil => simp [utf8EncodeList]
  | cons c cs ih =>
    have henc : utf8EncodeList (c :: cs) = utf8EncodeChar c ++ utf8EncodeList cs := by
      simp [utf8EncodeList]
    have h1 : 1 ≤ (utf8EncodeChar c).length := by
      rcases he : utf8EncodeChar c with _ | ⟨b, tl⟩
      · exact absurd he (utf8EncodeChar_ne_nil c)
      · simp
    rw [henc]
    simp only [List.length_append, List.length_cons]
    omega

theorem utf8DecodeLoop_nil (n : Nat) : utf8DecodeLoop n [] = some [] := by
  cases n <;> rfl

theorem utf8_decode_encode (cs : List Char) :
    utf8DecodeStrictList (utf8EncodeList cs) = some cs := by
  have hge := utf8EncodeList_length_ge cs
  have key := utf8DecodeLoop_encode cs ((utf8EncodeList cs).length - cs.length) []
  rw [List.append_nil, utf8DecodeLoop_nil] at key
  have hf : cs.length + ((utf8EncodeList cs).length - cs.length) = (utf8EncodeList cs).length := by
    omega
  rw [hf] at key
  simpa [utf8DecodeStrictList] using key

theorem utf8EncodeList_injective (a b : List Char) (h : utf8EncodeList a = utf8EncodeList b) :
    a = b := by
  have ha := utf8_decode_encode a
  have hb := utf8_decode_encode b
  rw [h, hb] at ha
  exact (Option.some_injective _ ha).symm

theorem utf8Encode_injective (a b : String) (h : utf8Encode a = utf8Encode b) : a = b := by
  have hd := utf8EncodeList_injective a.data b.data h
  cases a
  cases b
  simp only at hd
  rw [hd]

/-! ## Characterization of the collector by the spec-side post-order functions -/

theorem treeSize_pos : ∀ n : Ast, 1 ≤ treeSize n
  | .mk _ _ _ _ _ cs => by simp [treeSize]

mutual
theorem specNodes_length (fu : String) (src : List Nat) :
    ∀ n : Ast, (specNodes fu src n).length = treeSize n
  | .mk t sb eb sp ep cs => by
    simp [specNodes, treeSize, specNodesList_length fu src cs]

theorem specNodesList_length (fu : String) (src : List Nat) :
    ∀ l : List Ast, (specNodesList fu src l).length = treeSizeList l
  | [] => by simp [specNodesList, treeSizeList]
  | c :: rest => by
    simp [specNodesList, treeSizeList, specNodes_length fu src c,
      specNodesList_length fu src rest]
end

mutual
theorem collectWalk_spec (fu : String) (src : List Nat) :
    ∀ (n : Ast) (acc : CollectAcc),
      collectWalk fu src n acc =
        (⟨acc.nodes ++ specNodes fu src n,
          acc.edges ++ specEdges acc.nodes.length n,
          acc.occurrences ++ specOccs acc.nodes.length n⟩,
         acc.nodes.length + treeSizeList n.childList, shapeHashSpec src n)
  | .mk t sb eb sp ep cs, acc => by
    have hch := collectChildren_spec fu src cs acc
    have hlen : (acc.nodes ++ specNodesList fu src cs).length =
        acc.nodes.length + treeSizeList cs := by
      simp [specNodesList_length fu src cs]
    simp only [collectWalk, hch, hlen, Ast.childList, specNodes, specEdges, specOccs,
      shapeHashSpec, List.append_assoc]

theorem collectChildren_spec (fu : String) (src : List Nat) :
    ∀ (l : List Ast) (acc : CollectAcc),
      collectChildren fu src l acc =
        (⟨acc.nodes ++ specNodesList fu src l,
          acc.edges ++ specEdgesList acc.nodes.length l,
          acc.occurrences ++ specOccsList acc.nodes.length l⟩,
         childRootIdx acc.nodes.length l, shapeShapes src l)
  | [], acc => by
    simp [collectChildren, specNodesList, specEdgesList, specOccsList, childRootIdx, shapeShapes]
  | c :: rest, acc => by
    have h1 := collectWalk_spec fu src c acc
    have h2 := collectChildren_spec fu src rest
      ⟨acc.nodes ++ specNodes fu src c,
        acc.edges ++ specEdges acc.nodes.length c,
        acc.occurrences ++ specOccs acc.nodes.length c⟩
    have hlen : (acc.nodes ++ specNodes fu src c).length = acc.nodes.length + treeSize c := by
      simp [specNodes_length fu src c]
    have hroot : acc.nodes.length + treeSizeList c.childList =
        acc.nodes.length + treeSize c - 1 := by
      rcases c with ⟨t, sb, eb, sp, ep, ccs⟩
      simp only [Ast.childList, treeSize]
      omega
    simp only [collectChildren, h1, h2, hlen, hroot, specNodesList, specEdgesList, specOccsList,
      childRootIdx, shapeShapes, List.append_assoc]
end

theorem collect_ast_data_spec (node : Ast) (fu : String) (src : List Nat) :
    collect_ast_data node fu src =
      ⟨specNodes fu src node, specEdges 0 node, specOccs 0 node⟩ := by
  have h := collectWalk_spec fu src node ⟨[], [], []⟩
  simp only [collect_ast_data, h, List.nil_append, List.length_nil]

theorem snd_mem_of_mem_enum {α : Type} {l : List α} {q : Nat × α} (h : q ∈ l.enum) : q.2 ∈ l := by
  have : q.2 ∈ l.enum.map Prod.snd := List.mem_map_of_mem Prod.snd h
  simpa [List.enum_map_snd] using this

theorem childRootIdx_bounds (base : Nat) (l : List Ast) :
    ∀ x ∈ childRootIdx base l, base ≤ x ∧ x < base + treeSizeList l := by
  induction l generalizing base with
  | nil => simp [childRootIdx]
  | cons c rest ih =>
    intro x hx
    simp only [childRootIdx, List.mem_cons] at hx
    have hpos := treeSize_pos c
    rcases hx with hx | hx
    · subst hx
      simp only [treeSizeList]
      omega
    · have := ih (base + treeSize c) x hx
      simp only [treeSizeList]
      omega

mutual
theorem specEdges_bounds (base : Nat) :
    ∀ (n : Ast), ∀ e ∈ specEdges base n,
      base ≤ e.2.1 ∧ e.2.1 < e.1 ∧ e.1 < base + treeSize n
  | .mk t sb eb sp ep cs => by
    intro e he
    simp only [specEdges, List.mem_append, List.mem_map] at he
    rcases he with he | ⟨q, hq, rfl⟩
    · have h := specEdgesList_bounds base cs e he
      simp only [treeSize]
      omega
    · have hq' : q.2 ∈ childRootIdx base cs := snd_mem_of_mem_enum hq
      have hb := childRootIdx_bounds base cs q.2 hq'
      simp only [treeSize]
      omega

theorem specEdgesList_bounds (base : Nat) :
    ∀ (l : List Ast), ∀ e ∈ specEdgesList base l,
      base ≤ e.2.1 ∧ e.2.1 < e.1 ∧ e.1 < base + treeSizeList l
  | [] => by simp [specEdgesList]
  | c :: rest => by
    intro e he
    simp only [specEdgesList, List.mem_append] at he
    have hpos := treeSize_pos c
    rcases he with he | he
    · have h := specEdges_bounds base c e he
      simp only [treeSizeList]
      omega
    · have h := specEdgesList_bounds (base + treeSize c) rest e he
      simp only [treeSizeList]
      omega
end

mutual
theorem specEdges_orders (base : Nat) :
    ∀ (n : Ast) (p : Nat),
      ((specEdges base n).filter (fun e => e.1 = p)).map (fun e => e.2.2) =
        List.range (((specEdges base n).filter (fun e => e.1 = p)).length)
  | .mk t sb eb sp ep cs, p => by
    by_cases hp : p = base + treeSizeList cs
    · have hL : (specEdgesList base cs).filter (fun e => decide (e.1 = p)) = [] := by
        rw [List.filter_eq_nil_iff]
        intro e he
        have hb := specEdgesList_bounds base cs e he
        simp only [decide_eq_true_eq]
        omega
      have hB : ((childRootIdx base cs).enum.map
            (fun q => (base + treeSizeList cs, q.2, q.1))).filter (fun e => decide (e.1 = p)) =
          (childRootIdx base cs).enum.map (fun q => (base + treeSizeList cs, q.2, q.1)) := by
        rw [List.filter_eq_self]
        intro e he
        simp only [List.mem_map] at he
        rcases he with ⟨q, _, rfl⟩
        simp [hp]
      show (((specEdgesList base cs) ++ _).filter _).map _ = _
      rw [specEdges, List.filter_append, hL, hB, List.nil_append, List.map_map]
      have hm : ((fun e => e.2.2) ∘ fun q => ((base + treeSizeList cs : Nat), q.2, q.1)) =
          Prod.fst (α := Nat) (β := Nat) := by
        funext q
        rfl
      rw [hm, List.enum_map_fst, List.length_map, List.enum_length]
    · have hB : ((childRootIdx base cs).enum.map
            (fun q => (base + treeSizeList cs, q.2, q.1))).filter (fun e => decide (e.1 = p)) =
          [] := by
        rw [List.filter_eq_nil_iff]
        intro e he
        simp only [List.mem_map] at he
        rcases he with ⟨q, _, rfl⟩
        simp only [decide_eq_true_eq]
        omega
      rw [specEdges, List.filter_append, hB, List.append_nil]
      exact specEdgesList_orders base cs p

theorem specEdgesList_orders (base : Nat) :
    ∀ (l : List Ast) (p : Nat),
      ((specEdgesList base l).filter (fun e => e.1 = p)).map (fun e => e.2.2) =
        List.range (((specEdgesList base l).filter (fun e => e.1 = p)).length)
  | [], _ => by simp [specEdgesList]
  | c :: rest, p => by
    by_cases hp : p < base + treeSize c
    · have hR : (specEdgesList (base + treeSize c) rest).filter (fun e => decide (e.1 = p)) = [] := by
        rw [List.filter_eq_nil_iff]
        intro e he
        have hb := specEdgesList_bounds (base + treeSize c) rest e he
        simp only [decide_eq_true_eq]
        omega
      rw [specEdgesList, List.filter_append, hR, List.append_nil]
      exact specEdges_orders base c p
    · have hL : (specEdges base c).filter (fun e => decide (e.1 = p)) = [] := by
        rw [List.filter_eq_nil_iff]
        intro e he
        have hb := specEdges_bounds base c e he
        simp only [decide_eq_true_eq]
        omega
      rw [specEdgesList, List.filter_append, hL, List.nil_append]
      exact specEdgesList_orders (base + treeSize c) rest p
end

/-- C6: For every input tree, file_uuid and source bytes, `_collect_ast_data`
emits nodes in post-order — the collector's output equals the spec-side
post-order layout (`specNodes`/`specEdges`/`specOccs`, in which every parent
is laid out after its children's blocks and its edge block lists the child
root indices in original tree order with `child_order = 0..N-1`); moreover
every edge's child index is strictly less than its parent index, every
parent index is a valid index of `nodes`, and for every parent index the
`child_order` values appearing in `edges`, in order, are exactly
`0..N-1`. -/
theorem C6_collector_postorder (node : Ast) (fu : String) (src : List Nat) :
    collect_ast_data node fu src =
      ⟨specNodes fu src node, specEdges 0 node, specOccs 0 node⟩ ∧
    (∀ e ∈ (collect_ast_data node fu src).edges,
      e.2.1 < e.1 ∧ e.1 < (collect_ast_data node fu src).nodes.length) ∧
    (∀ p, (((collect_ast_data node fu src).edges.filter (fun e => e.1 = p)).map
        (fun e => e.2.2)) =
      List.range (((collect_ast_data node fu src).edges.filter (fun e => e.1 = p)).length)) := by
  have hspec := collect_ast_data_spec node fu src
  refine ⟨hspec, ?_, ?_⟩
  · intro e he
    rw [hspec] at he
    have hb := specEdges_bounds 0 node e he
    rw [hspec]
    simp only
    rw [specNodes_length fu src node]
    omega
  · intro p
    rw [hspec]
    exact specEdges_orders 0 node p

/-! ## The shape-hash framing (claim C4) -/

theorem pipeCancel (a : List Nat) (r1 : List Nat) :
    ∀ (b r2 : List Nat), (124:Nat) ∉ a → (124:Nat) ∉ b →
      a ++ 124 :: r1 = b ++ 124 :: r2 → a = b ∧ r1 = r2 := by
  induction a generalizing r1 with
  | nil =>
    intro b r2 _ hb h
    cases b with
    | nil => simpa using h
    | cons y ys =>
      simp only [List.nil_append, List.cons_append, List.cons.injEq] at h
      exact absurd (h.1 ▸ List.mem_cons_self y ys) (by simpa [← h.1] using hb)
  | cons x xs ih =>
    intro b r2 ha hb h
    cases b with
    | nil =>
      simp only [List.cons_append, List.nil_append, List.cons.injEq] at h
      exact absurd (h.1 ▸ List.mem_cons_self x xs) (by simpa [h.1] using ha)
    | cons y ys =>
      simp only [List.cons_append, List.cons.injEq] at h
      have := ih r1 ys r2 (by simp at ha; exact ha.2) (by simp at hb; exact hb.2) h.2
      exact ⟨by simp [h.1, this.1], this.2⟩

theorem pipeCancelTail (a : List Nat) (r1 : List Nat) :
    ∀ (b r2 : List Nat), (124:Nat) ∉ a → (124:Nat) ∉ b →
      (r1 = [] ∨ ∃ t, r1 = 124 :: t) → (r2 = [] ∨ ∃ t, r2 = 124 :: t) →
      a ++ r1 = b ++ r2 → a = b ∧ r1 = r2 := by
  induction a generalizing r1 with
  | nil =>
    intro b r2 _ hb h1 _ h
    cases b with
    | nil => simpa using h
    | cons y ys =>
      simp only [List.nil_append, List.cons_append] at h
      rcases h1 with h1 | ⟨t, rfl⟩
      · rw [h1] at h
        exact absurd h.symm (by simp)
      · simp only [List.cons.injEq] at h
        exact absurd (h.1 ▸ List.mem_cons_self y ys) (by simpa [← h.1] using hb)
  | cons x xs ih =>
    intro b r2 ha hb h1 h2 h
    cases b with
    | nil =>
      simp only [List.cons_append, List.nil_append] at h
      rcases h2 with h2 | ⟨t, rfl⟩
      · rw [h2] at h
        exact absurd h (by simp)
      · simp only [List.cons.injEq] at h
        exact absurd (h.1 ▸ List.mem_cons_self x xs) (by simpa [h.1] using ha)
    | cons y ys =>
      simp only [List.cons_append, List.cons.injEq] at h
      have := ih r1 ys r2 (by simp at ha; exact ha.2) (by simp at hb; exact hb.2) h1 h2 h.2
      exact ⟨by simp [h.1, this.1], this.2⟩

theorem childJoin_form (cbs : List (List Nat)) :
    cbs.flatMap (fun cb => [124, 67, 124] ++ cb) = [] ∨
      ∃ t, cbs.flatMap (fun cb => [124, 67, 124] ++ cb) = 124 :: t := by
  cases cbs with
  | nil => left; rfl
  | cons c rest =>
    right
    exact ⟨67 :: 124 :: (c ++ rest.flatMap (fun cb => [124, 67, 124] ++ cb)), by simp⟩

theorem childJoin_inj (cb1 : List (List Nat)) :
    ∀ (cb2 : List (List Nat)), (∀ c ∈ cb1, (124:Nat) ∉ c) → (∀ c ∈ cb2, (124:Nat) ∉ c) →
      cb1.flatMap (fun cb => [124, 67, 124] ++ cb) = cb2.flatMap (fun cb => [124, 67, 124] ++ cb) →
      cb1 = cb2 := by
  induction cb1 with
  | nil =>
    intro cb2 _ _ h
    cases cb2 with
    | nil => rfl
    | cons c rest => exact absurd h.symm (by simp)
  | cons c1 rest1 ih =>
    intro cb2 h1 h2 h
    cases cb2 with
    | nil => exact absurd h (by simp)
    | cons c2 rest2 =>
      simp only [List.flatMap_cons, List.cons_append, List.append_assoc, List.nil_append,
        List.cons.injEq] at h
      have hcore := h.2.2.2
      have hc := pipeCancelTail c1 (rest1.flatMap (fun cb => [124, 67, 124] ++ cb)) c2
        (rest2.flatMap (fun cb => [124, 67, 124] ++ cb))
        (h1 c1 (by simp)) (h2 c2 (by simp)) (childJoin_form rest1) (childJoin_form rest2) hcore
      have hrest := ih rest2 (fun c hc => h1 c (by simp [hc])) (fun c hc => h2 c (by simp [hc]))
        hc.2
      rw [hc.1, hrest]

theorem frame_inj (tb1 tb2 sb1 sb2 : List Nat) (cb1 cb2 : List (List Nat))
    (ht1 : (124:Nat) ∉ tb1) (ht2 : (124:Nat) ∉ tb2)
    (hs1 : (124:Nat) ∉ sb1) (hs2 : (124:Nat) ∉ sb2)
    (hc1 : ∀ c ∈ cb1, (124:Nat) ∉ c) (hc2 : ∀ c ∈ cb2, (124:Nat) ∉ c)
    (h : frameBytes tb1 sb1 cb1 = frameBytes tb2 sb2 cb2) :
    tb1 = tb2 ∧ sb1 = sb2 ∧ cb1 = cb2 := by
  simp only [frameBytes, List.cons_append, List.nil_append, List.cons.injEq,
    List.append_assoc] at h
  have h1 := h.2.2
  have ht := pipeCancel tb1 (83 :: 124 :: (sb1 ++ cb1.flatMap (fun cb => [124, 67, 124] ++ cb)))
    tb2 (83 :: 124 :: (sb2 ++ cb2.flatMap (fun cb => [124, 67, 124] ++ cb))) ht1 ht2
    (by simpa [List.append_assoc] using h1)
  have h2 := ht.2
  simp only [List.cons.injEq] at h2
  have hs := pipeCancelTail sb1 (cb1.flatMap (fun cb => [124, 67, 124] ++ cb))
    sb2 (cb2.flatMap (fun cb => [124, 67, 124] ++ cb)) hs1 hs2
    (childJoin_form cb1) (childJoin_form cb2) h2.2.2
  exact ⟨ht.1, hs.1, childJoin_inj cb1 cb2 hc1 hc2 hs.2⟩

theorem mapUtf8_inj (cs1 : List String) :
    ∀ cs2 : List String, cs1.map utf8Encode = cs2.map utf8Encode → cs1 = cs2 := by
  induction cs1 with
  | nil =>
    intro cs2 h
    cases cs2 with
    | nil => rfl
    | cons c r => exact absurd h (by simp)
  | cons c1 r1 ih =>
    intro cs2 h
    cases cs2 with
    | nil => exact absurd h (by simp)
    | cons c2 r2 =>
      simp only [List.map_cons, List.cons.injEq] at h
      rw [utf8Encode_injective c1 c2 h.1, ih r2 h.2]

/-- C4 counterexample: the framing is not collision-free for arbitrary
inputs — the distinct inputs `("x|S|y", "z", [])` and `("x", "y|S|z", [])`
produce the same framed byte string, hence the same digest. -/
theorem C4_counterexample :
    frameBytes (utf8Encode "x|S|y") [122] [] = frameBytes (utf8Encode "x") [121, 124, 83, 124, 122] [] ∧
    compute_shape_hash "x|S|y" [122] [] = compute_shape_hash "x" [121, 124, 83, 124, 122] [] ∧
    ("x|S|y" ≠ "x" ∨ ([122] : List Nat) ≠ [121, 124, 83, 124, 122]) := by
  refine ⟨by decide, by rfl, Or.inl (by decide)⟩

/-- C4 (amended): `compute_shape_hash` is the hex SHA-256 of the framed
byte string `T|` + type bytes + `|S|` + slice + (`|C|` + child hash)*, and
the framing is collision-free on inputs whose node type and source slice
contain no `|` (byte 124) — the hex child digests never contain `|` — so
for such inputs equal frames force equal (type, slice, child list)
triples. -/
theorem C4_amended :
    (∀ (t : String) (s : List Nat) (cs : List String),
      compute_shape_hash t s cs = sha256hex (frameBytes (utf8Encode t) s (cs.map utf8Encode))) ∧
    (∀ (t1 t2 : String) (s1 s2 : List Nat) (cs1 cs2 : List String),
      (124:Nat) ∉ utf8Encode t1 → (124:Nat) ∉ utf8Encode t2 →
      (124:Nat) ∉ s1 → (124:Nat) ∉ s2 →
      (∀ c ∈ cs1, (124:Nat) ∉ utf8Encode c) → (∀ c ∈ cs2, (124:Nat) ∉ utf8Encode c) →
      frameBytes (utf8Encode t1) s1 (cs1.map utf8Encode) =
        frameBytes (utf8Encode t2) s2 (cs2.map utf8Encode) →
      t1 = t2 ∧ s1 = s2 ∧ cs1 = cs2) := by
  refine ⟨fun _ _ _ => rfl, ?_⟩
  intro t1 t2 s1 s2 cs1 cs2 ht1 ht2 hs1 hs2 hc1 hc2 h
  have hcb1 : ∀ c ∈ cs1.map utf8Encode, (124:Nat) ∉ c := by
    intro c hc
    rcases List.mem_map.mp hc with ⟨x, hx, rfl⟩
    exact hc1 x hx
  have hcb2 : ∀ c ∈ cs2.map utf8Encode, (124:Nat) ∉ c := by
    intro c hc
    rcases List.mem_map.mp hc with ⟨x, hx, rfl⟩
    exact hc2 x hx
  have := frame_inj (utf8Encode t1) (utf8Encode t2) s1 s2 (cs1.map utf8Encode)
    (cs2.map utf8Encode) ht1 ht2 hs1 hs2 hcb1 hcb2 h
  exact ⟨utf8Encode_injective t1 t2 this.1, this.2.1, mapUtf8_inj cs1 cs2 this.2.2⟩

/-- Witness for the amended C4 at a concrete input. -/
theorem C4_amended_witness :
    ((124:Nat) ∉ utf8Encode "a") ∧
    ("a" = "a" ∧ ([98] : List Nat) = [98] ∧
      (["ff"] : List String) = ["ff"]) := by
  refine ⟨by decide, C4_amended.2 "a" "a" [98] [98] ["ff"] ["ff"] (by decide) (by decide)
    (by decide) (by decide) (by decide) (by decide) rfl⟩

/-! ## The read-only query guard (claim C9) -/

theorem writeKeywords_ne_nil : ∀ kw ∈ writeKeywords, kw ≠ [] := by decide

theorem writePatternSearch_iff (q : List Char) :
    writePatternSearch q = true ↔ containsWriteWord q := by
  constructor
  · intro h
    simp only [writePatternSearch, List.any_eq_true, List.mem_range] at h
    rcases h with ⟨i, hi, kw, hkw, hm⟩
    simp only [matchKwAt, Bool.and_eq_true, Bool.or_eq_true, decide_eq_true_eq,
      Bool.not_eq_true'] at hm
    have hA := hm.1.1
    have hlen : i + kw.length ≤ q.length := by
      have := congrArg List.length hA
      simp only [List.length_map, List.length_take, List.length_drop] at this
      omega
    refine ⟨q.take i, (q.drop i).take kw.length, q.drop (i + kw.length), ?_, ?_, ?_, ?_⟩
    · conv_lhs => rw [← List.take_append_drop i q]
      rw [List.append_assoc, List.append_cancel_left_eq]
      conv_lhs => rw [← List.take_append_drop kw.length (q.drop i)]
      rw [List.append_cancel_left_eq, List.drop_drop]
      try congr 1
      try omega
    · rw [hA]
      exact hkw
    · by_cases hi0 : i = 0
      · left
        simp [hi0]
      · right
        have hw : wordChar (q.getD (i - 1) ' ') = false := by
          rcases hm.1.2 with h0 | hw
          · exact absurd h0 hi0
          · exact hw
        refine ⟨q.getD (i - 1) ' ', ?_, hw⟩
        have hlt : i - 1 < i := by omega
        have hlt2 : i - 1 < q.length := by omega
        rw [List.getLast?_eq_getElem?, List.length_take]
        have hmin : min i q.length = i := by omega
        rw [hmin, List.getElem?_take, if_pos hlt, List.getElem?_eq_getElem hlt2,
          List.getD_eq_getElem?_getD, List.getElem?_eq_getElem hlt2]
        rfl
    · by_cases hend : i + kw.length = q.length
      · left
        rw [hend, List.drop_length]
      · right
        have hw : wordChar (q.getD (i + kw.length) ' ') = false := by
          rcases hm.2 with h0 | hw
          · exact absurd h0 hend
          · exact hw
        refine ⟨q.getD (i + kw.length) ' ', ?_, hw⟩
        have hlt : i + kw.length < q.length := by omega
        rw [List.head?_eq_getElem?, List.getElem?_drop, Nat.add_zero,
          List.getElem?_eq_getElem hlt, List.getD_eq_getElem?_getD,
          List.getElem?_eq_getElem hlt]
        rfl
  · rintro ⟨pre, w, post, rfl, hkw, hpre, hpost⟩
    simp only [writePatternSearch, List.any_eq_true, List.mem_range]
    have hwne : w ≠ [] := by
      intro hw
      subst hw
      exact writeKeywords_ne_nil _ hkw rfl
    have hwlen : 0 < w.length := List.length_pos.mpr hwne
    refine ⟨pre.length, by simp; omega, w.map Char.toUpper, hkw, ?_⟩
    simp only [matchKwAt, Bool.and_eq_true, Bool.or_eq_true, decide_eq_true_eq,
      Bool.not_eq_true']
    have hdrop : (pre ++ (w ++ post)).drop pre.length = w ++ post := List.drop_left pre (w ++ post)
    refine ⟨⟨?_, ?_⟩, ?_⟩
    · rw [List.append_assoc, hdrop, List.length_map, List.take_left]
    · rcases hpre with h0 | ⟨c, hc, hw⟩
      · left
        simp [h0]
      · right
        have hpne : pre ≠ [] := by
          intro h
          rw [h] at hc
          simp at hc
        have hplen : 0 < pre.length := List.length_pos.mpr hpne
        have hidx : pre.length - 1 < pre.length := by omega
        have hgv : (pre ++ (w ++ post)).getD (pre.length - 1) ' ' = c := by
          rw [List.getD_eq_getElem?_getD, List.getElem?_append_left hidx,
            ← List.getLast?_eq_getElem?, hc]
          rfl
        rw [List.append_assoc, hgv]
        exact hw
    · rcases hpost with h0 | ⟨c, hc, hw⟩
      · left
        subst h0
        simp [List.length_map]
        try omega
      · right
        have hgv : (pre ++ (w ++ post)).getD (pre.length + w.length) ' ' = c := by
          rw [List.getD_eq_getElem?_getD,
            List.getElem?_append_right (by omega : pre.length ≤ pre.length + w.length)]
          have h1 : pre.length + w.length - pre.length = w.length := by omega
          rw [h1, List.getElem?_append_right (Nat.le_refl w.length)]
          have h2 : w.length - w.length = 0 := by omega
          rw [h2, ← List.head?_eq_getElem?, hc]
          rfl
        simp only [List.length_map]
        rw [List.append_assoc, hgv]
        exact hw

theorem wordCharPy_ascii (c : Char) (h : c.toNat < 128) : wordCharPy c = wordChar c := by
  have hne : c ≠ 'é' := by
    intro he
    rw [he] at h
    exact absurd h (by decide)
  simp [wordCharPy, wordChar, hne]

theorem getD_ascii (q : List Char) (h : ∀ c ∈ q, c.toNat < 128) (j : Nat) :
    (q.getD j ' ').toNat < 128 := by
  induction q generalizing j with
  | nil => exact (by decide : (' ' : Char).toNat < 128)
  | cons c rest ih =>
    cases j with
    | zero => simpa using h c (by simp)
    | succ j => simpa using ih (fun x hx => h x (by simp [hx])) j

theorem matchKwAtPy_ascii (q : List Char) (h : ∀ c ∈ q, c.toNat < 128) (i : Nat)
    (kw : List Char) : matchKwAtPy q i kw = matchKwAt q i kw := by
  rw [matchKwAtPy, matchKwAt,
    wordCharPy_ascii _ (getD_ascii q h (i - 1)),
    wordCharPy_ascii _ (getD_ascii q h (i + kw.length))]

theorem writePatternSearchPy_ascii (q : List Char) (h : ∀ c ∈ q, c.toNat < 128) :
    writePatternSearchPy q = writePatternSearch q := by
  rw [writePatternSearchPy, writePatternSearch]
  congr 1
  funext i
  congr 1
  funext kw
  exact matchKwAtPy_ascii q h i kw

/-- C9 counterexample: Python's `\b` is Unicode-aware, so in the query
`MATCH (n) RETURN n.SETé` the é — a Python word character — joins with
`SET` into one word, the pattern does not match and the route executes the
query; yet the query does contain `SET` as a whole word under the ASCII
reading of word characters, so the claimed iff fails for it. -/
theorem C9_counterexample :
    cypher_routePy "MATCH (n) RETURN n.SETé" = .executed "MATCH (n) RETURN n.SETé" ∧
    wordCharPy 'é' = true ∧ wordChar 'é' = false ∧
    containsWriteWord ("MATCH (n) RETURN n.SETé").data := by
  refine ⟨by rfl, by rfl, by rfl, ?_⟩
  refine ⟨"MATCH (n) RETURN n.".data, "SET".data, "é".data, by decide, by decide, ?_, ?_⟩
  · exact Or.inr ⟨'.', by decide, by decide⟩
  · exact Or.inr ⟨'é', by decide, by decide⟩

/-- C9 (amended): on ASCII queries the Unicode-aware guard and its ASCII
model agree, and there the claim holds as stated: the `/query/cypher`
endpoint rejects the request with the HTTP 400 error (without reaching the
database) if and only if the query contains one of CREATE, SET, DELETE,
DETACH, MERGE, REMOVE, DROP, ALTER as a whole word in any letter case
anywhere, and queries containing none are passed through for execution.
For non-ASCII queries the Unicode-aware `\b` can diverge from the ASCII
reading of "whole word" (see the counterexample). -/
theorem C9_amended (q : String) (h : ∀ c ∈ q.data, c.toNat < 128) :
    cypher_routePy q = cypher_route q ∧
    (cypher_route q = .rejected400 ↔ containsWriteWord q.data) ∧
    (¬ containsWriteWord q.data → cypher_route q = .executed q) := by
  have hagree : cypher_routePy q = cypher_route q := by
    rw [cypher_routePy, cypher_route, writePatternSearchPy_ascii q.data h]
  refine ⟨hagree, ?_⟩
  have hiff := writePatternSearch_iff q.data
  by_cases hs : writePatternSearch q.data
  · have hroute : cypher_route q = .rejected400 := by simp [cypher_route, hs]
    exact ⟨⟨fun _ => hiff.mp hs, fun _ => hroute⟩, fun hc => absurd (hiff.mp hs) hc⟩
  · have hroute : cypher_route q = .executed q := by simp [cypher_route, hs]
    refine ⟨⟨fun h2 => ?_, fun hc => absurd (hiff.mpr hc) hs⟩, fun _ => hroute⟩
    rw [hroute] at h2
    exact absurd h2 (by simp)

/-- Witness for the amended C9 at a concrete ASCII query containing SET as
a whole word. -/
theorem C9_amended_witness :
    (∀ c ∈ ("MATCH (n) SET n.x = 1" : String).data, c.toNat < 128) ∧
    (cypher_routePy "MATCH (n) SET n.x = 1" = cypher_route "MATCH (n) SET n.x = 1" ∧
      (cypher_route "MATCH (n) SET n.x = 1" = .rejected400 ↔
        containsWriteWord ("MATCH (n) SET n.x = 1").data) ∧
      (¬ containsWriteWord ("MATCH (n) SET n.x = 1").data →
        cypher_route "MATCH (n) SET n.x = 1" = .executed "MATCH (n) SET n.x = 1")) :=
  ⟨by decide, C9_amended "MATCH (n) SET n.x = 1" (by decide)⟩

/-! ## Dict lemmas -/

theorem dictGet_dictInsert_self {α β : Type} [DecidableEq α] (d : List (α × β)) (k : α) (v : β) :
    dictGet (dictInsert d k v) k = some v := by
  by_cases h : d.any (fun p => p.1 = k)
  · simp only [dictInsert, if_pos h]
    induction d with
    | nil => simp at h
    | cons p rest ih =>
      by_cases hp : p.1 = k
      · simp [dictGet, List.find?, hp]
      · have h' : rest.any (fun p => decide (p.1 = k)) = true := by
          simp only [List.any_cons, Bool.or_eq_true, decide_eq_true_eq] at h
          rcases h with h | h
          · exact absurd h hp
          · simpa using h
        have hthis := ih h'
        have hdp : (decide (p.1 = k)) = false := by simpa using hp
        simp only [dictGet] at hthis
        simp only [List.map_cons, if_neg hp, dictGet, List.find?, hdp]
        exact hthis
  · simp only [dictInsert, if_neg h]
    have hfind : d.find? (fun p => p.1 = k) = none := by
      rw [List.find?_eq_none]
      intro p hp
      simp only [Bool.not_eq_true, decide_eq_false_iff_not]
      intro hk
      exact h (List.any_eq_true.mpr ⟨p, hp, by simpa using hk⟩)
    simp [dictGet, List.find?_append, hfind]

/-! ## Claim C10: persist_file dedups on the hash of the stored text -/

/-- C10 (amended): both backends read the bytes as UTF-8 text — a strict
decode through the text layer's newline translation, falling back to raw
replacement decoding on failure — store that text as the record content
with the SHA-256 of its re-encoding as content hash, and dedup on
`(full_path, content_hash)`: two byte contents of the same path with equal
stored texts (`readContentPy`) yield the same UUID. Because the newline
translation happens only on the strict path, equal replacement-decoded
texts do not suffice (see the counterexample). -/
theorem C10_persist_dedup_on_decoded :
    (∀ (st : MemState) (fp n1 s1 n2 s2 : String) (b1 b2 : List Nat)
      (c1 l1 u1 c2 l2 u2 : String),
      readContentPy b1 = readContentPy b2 →
      (mem_persist_file (mem_persist_file st fp n1 s1 b1 c1 l1 u1).1 fp n2 s2 b2 c2 l2 u2).2 =
        (mem_persist_file st fp n1 s1 b1 c1 l1 u1).2) ∧
    (∀ (rows : List PgFileRow) (fp n1 s1 n2 s2 : String) (b1 b2 : List Nat)
      (c1 l1 u1 c2 l2 u2 : String),
      readContentPy b1 = readContentPy b2 →
      (pg_persist_file (pg_persist_file rows fp n1 s1 b1 c1 l1 u1).1 fp n2 s2 b2 c2 l2 u2).2 =
        (pg_persist_file rows fp n1 s1 b1 c1 l1 u1).2) ∧
    (∀ (rows : List PgFileRow) (fp n s : String) (b : List Nat) (c l u : String),
      (pg_persist_file rows fp n s b c l u).1 = rows ∨
      (pg_persist_file rows fp n s b c l u).1 =
        rows ++ [⟨u, n, fp, s, readContentPy b,
          sha256hex (utf8Encode (readContentPy b)), c, l⟩]) := by
  refine ⟨?_, ?_, ?_⟩
  · intro st fp n1 s1 n2 s2 b1 b2 c1 l1 u1 c2 l2 u2 hdec
    simp only [mem_persist_file, hdec]
    rcases hfind : dictGet st.files_by_path_hash (fp, sha256hex (utf8Encode (readContentPy b2)))
      with _ | fid
    · simp only [dictGet_dictInsert_self]
    · simp only [hfind]
  · intro rows fp n1 s1 n2 s2 b1 b2 c1 l1 u1 c2 l2 u2 hdec
    rcases hfind : rows.find? (fun r => r.full_path = fp &&
        r.content_hash = sha256hex (utf8Encode (readContentPy b2))) with _ | r
    · have h1 : pg_persist_file rows fp n1 s1 b1 c1 l1 u1 =
          (rows ++ [(⟨u1, n1, fp, s1, readContentPy b2,
            sha256hex (utf8Encode (readContentPy b2)), c1, l1⟩ : PgFileRow)], u1) := by
        simp only [pg_persist_file, hdec, hfind]
      rw [h1]
      simp only [pg_persist_file, List.find?_append, hfind]
      simp
    · have h1 : pg_persist_file rows fp n1 s1 b1 c1 l1 u1 = (rows, r.id) := by
        simp only [pg_persist_file, hdec, hfind]
      rw [h1]
      simp only [pg_persist_file, hfind]
  · intro rows fp n s b c l u
    simp only [pg_persist_file]
    rcases hfind : rows.find? (fun r => r.full_path = fp &&
        r.content_hash = sha256hex (utf8Encode (readContentPy b))) with _ | r
    · right
      simp [hfind]
    · left
      simp [hfind]

/-! ## Structural lemmas about the batched persistence pipeline -/

theorem createNodes_foldl_spec (ps : List NodeProps) :
    ∀ (st : AgeState) (ids : List Nat),
      ps.foldl
        (fun r p =>
          ({r.1 with astNodes := r.1.astNodes ++ [⟨r.1.nextId, p⟩], nextId := r.1.nextId + 1},
           r.2 ++ [r.1.nextId]))
        (st, ids) =
      ({st with astNodes := st.astNodes ++ createdVertices st.nextId ps,
                nextId := st.nextId + ps.length},
       ids ++ (createdVertices st.nextId ps).map (fun v => v.vid)) := by
  induction ps with
  | nil =>
    intro st ids
    simp [createdVertices]
  | cons p rest ih =>
    intro st ids
    rw [List.foldl_cons, ih]
    simp only [createdVertices, List.map_cons, List.length_cons, Prod.mk.injEq,
      AgeState.mk.injEq, List.append_assoc, List.singleton_append, List.cons_append,
      and_true, true_and]
    refine ⟨⟨by simp, by omega⟩, by simp⟩

theorem createNodes_spec (st : AgeState) (ps : List NodeProps) :
    createNodes st ps =
      ({st with astNodes := st.astNodes ++ createdVertices st.nextId ps,
                nextId := st.nextId + ps.length},
       (createdVertices st.nextId ps).map (fun v => v.vid)) := by
  rw [createNodes, createNodes_foldl_spec]
  simp

theorem mergeFileVersion_exists (st : AgeState) (c fu p l ts a b : String) :
    ∃ fv ∈ (mergeFileVersion st c fu p l ts a b).1.fileVersions,
      fv.commit_id = c ∧ fv.file_uuid = fu ∧ fv.path = p ∧ fv.language = l ∧ fv.ts = ts ∧
      fv.author = a ∧ fv.branch = b := by
  rw [mergeFileVersion]
  rcases hf : st.fileVersions.find?
      (fun f => f.commit_id = c && f.file_uuid = fu && f.path = p) with _ | f
  · simp only [hf]
    refine ⟨⟨st.nextId, c, fu, p, l, ts, a, b⟩, ?_, ?_, ?_, ?_, ?_, ?_, ?_, ?_⟩
    · simp
    all_goals rfl
  · simp only [hf]
    have hpred := List.find?_some hf
    have hmem := List.mem_of_find?_eq_some hf
    simp only [Bool.and_eq_true, decide_eq_true_eq] at hpred
    refine ⟨{f with language := l, ts := ts, author := a, branch := b}, ?_, ?_, ?_, ?_, ?_, ?_,
      ?_, ?_⟩
    · refine List.mem_map.mpr ⟨f, hmem, ?_⟩
      rw [if_pos (by simp [hpred.1.1, hpred.1.2, hpred.2] : (decide (f.commit_id = c) &&
        decide (f.file_uuid = fu) && decide (f.path = p)) = true)]
    · simpa using hpred.1.1
    · simpa using hpred.1.2
    · simpa using hpred.2
    all_goals rfl

theorem persist_none_fileVersions (now : String) (pc : Option String) (fa : FileAst)
    (db : List Nat) (path : String) (st st' : AgeState)
    (h : persist_file_ast_to_age none now pc fa db path st = .ok st') :
    st'.fileVersions =
      (mergeFileVersion st "local" fa.file_uuid path fa.language now "local" "local").1.fileVersions := by
  simp only [persist_file_ast_to_age] at h
  rw [createNodes_spec] at h
  simp only [ne_eq, not_true_eq_false, if_false, ite_self] at h
  rcases hg : guardInsertAll
      ({(mergeFileVersion st "local" fa.file_uuid path fa.language now "local" "local").1 with
        astNodes := _, nextId := _} : AgeState).guardRows _ with e | rows
  all_goals rw [hg] at h
  · simp at h
  · simp only [Except.ok.injEq] at h
    rw [← h]

mutual
theorem memIngestNode_preserves (fu : String) (src : List Nat) :
    ∀ (n : Ast) (st : MemState) (occ : List (Nat × Nat × Nat)),
      (memIngestNode fu src n st occ).1.file_versions = st.file_versions ∧
      (memIngestNode fu src n st occ).1.next_file_version_id = st.next_file_version_id ∧
      (memIngestNode fu src n st occ).1.occurrences = st.occurrences ∧
      (memIngestNode fu src n st occ).1.files = st.files ∧
      (memIngestNode fu src n st occ).1.files_by_path_hash = st.files_by_path_hash
  | .mk t sb eb sp ep cs, st, occ => by
    have hch := memIngestChildren_preserves fu src cs st occ
    simp only [memIngestNode]
    rcases hspan : dictGet (memIngestChildren fu src cs st occ).1.ast_nodes_by_span
        (make_span_key fu t sb eb) with _ | nid
    · rcases hshape : dictGet (memIngestChildren fu src cs st occ).1.ast_nodes_by_shape
          (compute_shape_hash t (pySlice src sb eb) (memIngestChildren fu src cs st occ).2.2.2)
          with _ | nid
      · simp only [hspan, hshape]
        exact hch
      · simp only [hspan, hshape]
        exact hch
    · simp only [hspan]
      exact hch

theorem memIngestChildren_preserves (fu : String) (src : List Nat) :
    ∀ (l : List Ast) (st : MemState) (occ : List (Nat × Nat × Nat)),
      (memIngestChildren fu src l st occ).1.file_versions = st.file_versions ∧
      (memIngestChildren fu src l st occ).1.next_file_version_id = st.next_file_version_id ∧
      (memIngestChildren fu src l st occ).1.occurrences = st.occurrences ∧
      (memIngestChildren fu src l st occ).1.files = st.files ∧
      (memIngestChildren fu src l st occ).1.files_by_path_hash = st.files_by_path_hash
  | [], st, occ => ⟨rfl, rfl, rfl, rfl, rfl⟩
  | c :: rest, st, occ => by
    have h1 := memIngestNode_preserves fu src c st occ
    have h2 := memIngestChildren_preserves fu src rest (memIngestNode fu src c st occ).1
      (memIngestNode fu src c st occ).2.1
    simp only [memIngestChildren]
    exact ⟨h2.1.trans h1.1, (h2.2.1).trans h1.2.1, (h2.2.2.1).trans h1.2.2.1,
      (h2.2.2.2.1).trans h1.2.2.2.1, (h2.2.2.2.2).trans h1.2.2.2.2⟩
end

/-- C7 (amended): when the git helper returns nothing, the FileVersion is
written with commit_id, author and branch set to the literal `"local"`,
while the timestamp is set to the current UTC time in ISO format (the
`now` argument), not to `"local"`; the in-memory backend (which stores no
branch) does the same for its three fields. -/
theorem C7_amended :
    (∀ (now : String) (pc : Option String) (fa : FileAst) (db : List Nat) (path : String)
      (st st' : AgeState),
      persist_file_ast_to_age none now pc fa db path st = .ok st' →
      ∃ fv ∈ st'.fileVersions,
        fv.commit_id = "local" ∧ fv.file_uuid = fa.file_uuid ∧ fv.path = path ∧
        fv.author = "local" ∧ fv.branch = "local" ∧ fv.ts = now) ∧
    (∀ (now : String) (fa : FileAst) (db : List Nat) (path : String) (st : MemState),
      ∃ fv ∈ (mem_persist_file_ast none now fa db path st).file_versions,
        fv.commit_id = "local" ∧ fv.file_uuid = fa.file_uuid ∧ fv.path = path ∧
        fv.author = "local" ∧ fv.timestamp = now) := by
  constructor
  · intro now pc fa db path st st' h
    rw [persist_none_fileVersions now pc fa db path st st' h]
    rcases mergeFileVersion_exists st "local" fa.file_uuid path fa.language now "local" "local"
      with ⟨fv, hmem, h1, h2, h3, _, h5, h6, h7⟩
    exact ⟨fv, hmem, h1, h2, h3, h6, h7, h5⟩
  · intro now fa db path st
    simp only [mem_persist_file_ast]
    have hpres := memIngestNode_preserves fa.file_uuid db fa.ast
      ({st with
        file_versions := st.file_versions ++
          [⟨st.next_file_version_id, "local", fa.file_uuid, path, fa.language, now, "local"⟩],
        next_file_version_id := st.next_file_version_id + 1}) []
    exact ⟨⟨st.next_file_version_id, "local", fa.file_uuid, path, fa.language, now, "local"⟩,
      by rw [hpres.1]; simp, rfl, rfl, rfl, rfl, rfl⟩

/-- C7 counterexample: ingesting outside a git repository writes
`commit_id = author = branch = "local"` but a real ISO timestamp, not the
literal `"local"` for all four. -/
theorem C7_counterexample :
    c7Run.map (fun st => st.fileVersions.map (fun f => (f.commit_id, f.author, f.branch, f.ts))) =
      .ok [("local", "local", "local", "2026-01-01T00:00:00+00:00")] ∧
    ("2026-01-01T00:00:00+00:00" : String) ≠ "local" := by
  exact ⟨by rfl, by decide⟩

/-- Witness for the amended C7 at a concrete input. -/
theorem C7_amended_witness :
    c7Run = .ok c7ResultState ∧
    (∃ fv ∈ c7ResultState.fileVersions,
      fv.commit_id = "local" ∧ fv.file_uuid = faA.file_uuid ∧ fv.path = "a.py" ∧
      fv.author = "local" ∧ fv.branch = "local" ∧ fv.ts = "2026-01-01T00:00:00+00:00") := by
  have hok : c7Run = .ok c7ResultState := by rfl
  exact ⟨hok, C7_amended.1 "2026-01-01T00:00:00+00:00" none faA [] "a.py" AgeState.empty
    c7ResultState hok⟩

/-! ## Decomposition of the persistence pipeline into its stages -/

theorem persist_decompose (g : Option GitCommitInfo) (now : String) (pc : Option String)
    (fa : FileAst) (db : List Nat) (path : String) (st : AgeState) :
    persist_file_ast_to_age g now pc fa db path st =
      match guardInsertAll (persistStages g now pc fa db path st).1.guardRows
          (persistEdgesOf fa db (persistStages g now pc fa db path st).2.1) with
      | .error e => .error e
      | .ok rows =>
        .ok {(persistStages g now pc fa db path st).1 with
              guardRows := rows,
              parentEdges := mergeParentAll (persistStages g now pc fa db path st).1.parentEdges
                (persistEdgesOf fa db (persistStages g now pc fa db path st).2.1),
              occursEdges := mergeOccursAll (persistStages g now pc fa db path st).1.occursEdges
                (persistOccsOf g fa db (persistStages g now pc fa db path st).2.1
                  (persistStages g now pc fa db path st).2.2)} := rfl

theorem mergeFileVersion_astNodes (st : AgeState) (c fu p l ts a b : String) :
    (mergeFileVersion st c fu p l ts a b).1.astNodes = st.astNodes := by
  rw [mergeFileVersion]
  rcases hf : st.fileVersions.find?
      (fun f => f.commit_id = c && f.file_uuid = fu && f.path = p) with _ | f <;> simp [hf]

theorem persistStageFV_astNodes (g : Option GitCommitInfo) (now : String) (fa : FileAst)
    (path : String) (st : AgeState) :
    (persistStageFV g now fa path st).1.astNodes = st.astNodes :=
  mergeFileVersion_astNodes st (fallbackCommit g) fa.file_uuid path fa.language
    (fallbackTs g now) (fallbackAuthor g) (fallbackBranch g)

theorem persistStageLink_astNodes (g : Option GitCommitInfo) (pc : Option String) (path : String)
    (r : AgeState × Nat) : (persistStageLink g pc path r).astNodes = r.1.astNodes := by
  rw [persistStageLink]
  rcases hx : (if fallbackCommit g ≠ "local" then pc else none) with _ | pcv <;>
    simp [hx, linkPrevVersion]

theorem lookupSpans_nil (st : AgeState) (keys : List String) (h : st.astNodes = []) :
    lookupSpans st keys = [] := by
  rw [lookupSpans, h]
  rfl

theorem partitionNodes_nil_newProps (ps : List NodeProps) :
    ∀ i : Nat, (partitionNodes [] i ps).2.1 = ps := by
  induction ps with
  | nil => intro i; rfl
  | cons p rest ih => intro i; simp [partitionNodes, dictGet, ih]

theorem createdVertices_map_props (ps : List NodeProps) :
    ∀ s : Nat, (createdVertices s ps).map (fun v => v.props) = ps := by
  induction ps with
  | nil => intro s; rfl
  | cons p rest ih => intro s; simp [createdVertices, ih]

theorem persist_fromEmpty_astNodes (g : Option GitCommitInfo) (now : String) (pc : Option String)
    (fa : FileAst) (db : List Nat) (path : String) (st' : AgeState)
    (h : persist_file_ast_to_age g now pc fa db path AgeState.empty = .ok st') :
    st'.astNodes =
      createdVertices
        (persistStageLink g pc path (persistStageFV g now fa path AgeState.empty)).nextId
        (collect_ast_data fa.ast fa.file_uuid (fa.source_bytes.getD db)).nodes := by
  have hzero : (persistStageLink g pc path (persistStageFV g now fa path AgeState.empty)).astNodes
      = [] := by
    rw [persistStageLink_astNodes, persistStageFV_astNodes]
    rfl
  have hstage : (persistStages g now pc fa db path AgeState.empty).1.astNodes =
      createdVertices
        (persistStageLink g pc path (persistStageFV g now fa path AgeState.empty)).nextId
        (collect_ast_data fa.ast fa.file_uuid (fa.source_bytes.getD db)).nodes := by
    simp only [persistStages, persistStageNodes]
    rw [lookupSpans_nil _ _ hzero, createNodes_spec]
    simp only [partitionNodes_nil_newProps]
    simp [hzero]
  rw [persist_decompose] at h
  rcases hg : guardInsertAll (persistStages g now pc fa db path AgeState.empty).1.guardRows
      (persistEdgesOf fa db (persistStages g now pc fa db path AgeState.empty).2.1) with e | rows
  · rw [hg] at h
    simp at h
  · rw [hg] at h
    simp only [Except.ok.injEq] at h
    rw [← h]
    simpa using hstage

mutual
theorem shapeHashSpec_factor (src : List Nat) :
    ∀ a : Ast, shapeHashSpec src a = hashOfShape (shapeOf src a)
  | .mk t sb eb sp ep cs => by
    simp only [shapeHashSpec, shapeOf, hashOfShape, shapeShapes_factor src cs]

theorem shapeShapes_factor (src : List Nat) :
    ∀ l : List Ast, shapeShapes src l = hashOfShapeList (shapeOfList src l)
  | [] => rfl
  | c :: rest => by
    simp only [shapeShapes, shapeOfList, hashOfShapeList, shapeHashSpec_factor src c,
      shapeShapes_factor src rest]
end

theorem shapeHash_congr (src : List Nat) (a b : Ast) (h : shapeOf src a = shapeOf src b) :
    shapeHashSpec src a = shapeHashSpec src b := by
  rw [shapeHashSpec_factor, shapeHashSpec_factor, h]

theorem specNodesList_mem (fu : String) (src : List Nat) (l : List Ast) :
    ∀ c ∈ l, ∀ p ∈ specNodes fu src c, p ∈ specNodesList fu src l := by
  induction l with
  | nil => intro c hc; simp at hc
  | cons d rest ih =>
    intro c hc p hp
    simp only [specNodesList]
    rcases List.mem_cons.mp hc with hcd | hcr
    · subst hcd
      exact List.mem_append_left _ hp
    · exact List.mem_append_right _ (ih c hcr p hp)

theorem specNodes_root_mem (fu : String) (src : List Nat) (a : Ast) :
    ∃ p ∈ specNodes fu src a,
      p.span_key = make_span_key fu a.nodeType a.startByte a.endByte ∧
      p.shape_hash = shapeHashSpec src a := by
  rcases a with ⟨t, sb, eb, sp, ep, cs⟩
  refine ⟨⟨fu, t, sb, eb, sp.row, sp.column, ep.row, ep.column, make_span_key fu t sb eb,
    shapeHashSpec src (.mk t sb eb sp ep cs)⟩, ?_, rfl, rfl⟩
  simp [specNodes]

theorem specNodes_child_mem (fu : String) (src : List Nat) (a c : Ast) (hc : c ∈ a.childList)
    (p : NodeProps) (hp : p ∈ specNodes fu src c) : p ∈ specNodes fu src a := by
  rcases a with ⟨t, sb, eb, sp, ep, cs⟩
  simp only [Ast.childList] at hc
  simp only [specNodes]
  exact List.mem_append_left _ (specNodesList_mem fu src cs c hc p hp)

/-! ## Replay lemmas for the idempotence of the persistence pipeline -/

theorem dictGet_dictInsert_ne {α β : Type} [DecidableEq α] (d : List (α × β)) (k k2 : α)
    (v2 : β) (hne : k ≠ k2) : dictGet (dictInsert d k2 v2) k = dictGet d k := by
  rw [dictInsert]
  by_cases hy : d.any (fun p => p.1 = k2)
  · rw [if_pos hy]
    clear hy
    induction d with
    | nil => rfl
    | cons p rest ih =>
      by_cases hp : p.1 = k2
      · have h1 : (decide ((if p.1 = k2 then (k2, v2) else p).1 = k)) = false := by
          simp [hp, Ne.symm hne]
        have h2 : (decide (p.1 = k)) = false := by
          simp [hp, Ne.symm hne]
        simp only [dictGet, List.map_cons, List.find?_cons, h1, h2] at ih ⊢
        exact ih
      · have hsame : (if p.1 = k2 then (k2, v2) else p) = p := if_neg hp
        rcases hk : decide (p.1 = k) with _ | _
        · simp only [dictGet, List.map_cons, List.find?_cons, hsame, hk] at ih ⊢
          exact ih
        · simp only [dictGet, List.map_cons, List.find?_cons, hsame, hk]
  · rw [if_neg hy]
    rw [dictGet, dictGet, List.find?_append]
    have h1 : List.find? (fun p => decide (p.1 = k)) [(k2, v2)] = none := by
      simp [Ne.symm hne]
    rw [h1]
    cases List.find? (fun p => decide (p.1 = k)) d <;> rfl

theorem dictGet_foldl_pres {α β : Type} [DecidableEq α] (k : α) :
    ∀ (l : List (α × β)) (d : List (α × β)), (∀ q ∈ l, q.1 ≠ k) →
      dictGet (l.foldl (fun d q => dictInsert d q.1 q.2) d) k = dictGet d k := by
  intro l
  induction l with
  | nil => intro d _; rfl
  | cons q rest ih =>
    intro d h
    rw [List.foldl_cons, ih _ (fun r hr => h r (by simp [hr])),
      dictGet_dictInsert_ne d k q.1 q.2 (Ne.symm (h q (by simp)))]

theorem dictGet_foldl_self {α β : Type} [DecidableEq α] :
    ∀ (l : List (α × β)), (l.map Prod.fst).Nodup →
      ∀ p ∈ l, ∀ d : List (α × β),
        dictGet (l.foldl (fun d q => dictInsert d q.1 q.2) d) p.1 = some p.2 := by
  intro l
  induction l with
  | nil => simp
  | cons q rest ih =>
    intro hnd p hp d
    simp only [List.map_cons, List.nodup_cons] at hnd
    rw [List.foldl_cons]
    rcases List.mem_cons.mp hp with rfl | hp
    · rw [dictGet_foldl_pres p.1 rest _
        (fun r hr e => hnd.1 (e ▸ List.mem_map_of_mem Prod.fst hr))]
      exact dictGet_dictInsert_self d p.1 p.2
    · exact ih hnd.2 p hp (dictInsert d q.1 q.2)

theorem resolve_zip {α β : Type} [DecidableEq α] (ks : List α) (vs : List β)
    (hlen : ks.length = vs.length) (hnd : ks.Nodup) :
    ks.map (fun k => dictGet ((ks.zip vs).foldl (fun d q => dictInsert d q.1 q.2) []) k) =
      vs.map some := by
  apply List.ext_getElem
  · simp [hlen]
  · intro j h1 h2
    simp only [List.length_map] at h1 h2
    have hj : j < (ks.zip vs).length := by
      rw [List.length_zip]
      omega
    have hzip : (ks[j], vs[j]) ∈ ks.zip vs := by
      rw [← List.getElem_zip (i := j)]
      exact List.getElem_mem hj
    have hfst : ((ks.zip vs).map Prod.fst).Nodup := by
      rw [List.map_fst_zip ks vs (by omega)]
      exact hnd
    simp only [List.getElem_map]
    exact dictGet_foldl_self (ks.zip vs) hfst (ks[j], vs[j]) hzip []

theorem createdVertices_pairs (ps : List NodeProps) :
    ∀ s : Nat, (createdVertices s ps).map (fun v => (v.props.span_key, v.vid)) =
      (ps.map (fun p => p.span_key)).zip (List.range' s ps.length) := by
  induction ps with
  | nil => intro s; rfl
  | cons p rest ih =>
    intro s
    simp only [createdVertices, List.map_cons, List.length_cons, List.range'_succ,
      List.zip_cons_cons, ih (s + 1)]

theorem createdVertices_map_vid (ps : List NodeProps) :
    ∀ s : Nat, (createdVertices s ps).map (fun v => v.vid) = List.range' s ps.length := by
  induction ps with
  | nil => intro s; rfl
  | cons p rest ih =>
    intro s
    simp only [createdVertices, List.map_cons, List.length_cons, List.range'_succ, ih (s + 1)]

theorem lookupSpans_resolve (st1 : AgeState) (nodes : List NodeProps) (s : Nat)
    (hast : st1.astNodes = createdVertices s nodes)
    (hnd : (nodes.map (fun p => p.span_key)).Nodup) :
    (nodes.map (fun p => p.span_key)).map
        (fun k => dictGet (lookupSpans st1 (nodes.map (fun p => p.span_key))) k) =
      (List.range' s nodes.length).map some := by
  rw [lookupSpans, hast]
  have hfilter : (createdVertices s nodes).filter
      (fun v => (nodes.map (fun p => p.span_key)).contains v.props.span_key) =
      createdVertices s nodes := by
    rw [List.filter_eq_self]
    intro v hv
    have hmem : v.props ∈ nodes := by
      have h1 := createdVertices_map_props nodes s
      rw [← h1]
      exact List.mem_map_of_mem _ hv
    exact List.elem_eq_true_of_mem (List.mem_map_of_mem _ hmem)
  rw [hfilter]
  have hfold : (createdVertices s nodes).foldl
      (fun d v => dictInsert d v.props.span_key v.vid) ([] : List (String × Nat)) =
      ((nodes.map (fun p => p.span_key)).zip (List.range' s nodes.length)).foldl
        (fun d q => dictInsert d q.1 q.2) [] := by
    rw [← createdVertices_pairs nodes s, List.foldl_map]
  rw [hfold]
  exact resolve_zip _ _ (by simp) hnd

theorem partitionNodes_resolved (d : List (String × Nat)) :
    ∀ (ps : List NodeProps) (vs : List Nat) (i : Nat),
      ps.map (fun p => dictGet d p.span_key) = vs.map some →
      partitionNodes d i ps = ([], [], (List.range' i ps.length).zip vs) := by
  intro ps
  induction ps with
  | nil =>
    intro vs i h
    cases vs with
    | nil => rfl
    | cons v vst => simp at h
  | cons p rest ih =>
    intro vs i h
    cases vs with
    | nil => simp at h
    | cons v vst =>
      simp only [List.map_cons, List.cons.injEq] at h
      simp only [partitionNodes, ih vst (i + 1) h.2, h.1, List.length_cons, List.range'_succ,
        List.zip_cons_cons]

theorem partitionNodes_nil_full (ps : List NodeProps) :
    ∀ i : Nat, partitionNodes [] i ps = (List.range' i ps.length, ps, []) := by
  induction ps with
  | nil => intro i; rfl
  | cons p rest ih =>
    intro i
    simp [partitionNodes, dictGet, ih (i + 1), List.range'_succ]

theorem lookupIdx_zip_range (n : Nat) :
    ∀ (i b x : Nat), lookupIdx ((List.range' i n).zip (List.range' b n)) x =
      if i ≤ x ∧ x < i + n then b + (x - i) else 0 := by
  induction n with
  | zero =>
    intro i b x
    rw [if_neg (by omega)]
    rfl
  | succ m ih =>
    intro i b x
    rw [List.range'_succ, List.range'_succ, List.zip_cons_cons]
    by_cases hx : x = i
    · subst hx
      rw [if_pos (by omega)]
      have hfind : List.find? (fun p => decide (p.1 = x))
          ((x, b) :: (List.range' (x + 1) m).zip (List.range' (b + 1) m)) = some (x, b) := by
        simp [List.find?]
      simp [lookupIdx, hfind]
    · have hd : (decide (i = x)) = false := by
        simp [Ne.symm hx]
      simp only [lookupIdx, List.find?_cons, hd]
      have := ih (i + 1) (b + 1) x
      simp only [lookupIdx] at this
      rw [this]
      by_cases hr : i ≤ x ∧ x < i + (m + 1)
      · rw [if_pos (by omega), if_pos hr]
        omega
      · rw [if_neg (by omega), if_neg hr]

theorem guardInsertRow_ok_subset {rows : List (Nat × Nat × Nat)} {t : Nat × Nat × Nat}
    {rows2 : List (Nat × Nat × Nat)} (h : guardInsertRow rows t = .ok rows2) :
    ∀ r ∈ rows, r ∈ rows2 := by
  rw [guardInsertRow] at h
  by_cases h1 : rows.any (fun r => r.1 = t.1 && r.2.1 = t.2.1)
  · rw [if_pos h1] at h
    simp only [Except.ok.injEq] at h
    subst h
    exact fun r hr => hr
  · rw [if_neg h1] at h
    by_cases h2 : rows.any (fun r => r.1 = t.1 && r.2.2 = t.2.2)
    · rw [if_pos h2] at h
      cases h
    · rw [if_neg h2] at h
      simp only [Except.ok.injEq] at h
      subst h
      exact fun r hr => List.mem_append_left _ hr

theorem guardInsertRow_ok_mem {rows : List (Nat × Nat × Nat)} {t : Nat × Nat × Nat}
    {rows2 : List (Nat × Nat × Nat)} (h : guardInsertRow rows t = .ok rows2) :
    ∃ r ∈ rows2, r.1 = t.1 ∧ r.2.1 = t.2.1 := by
  rw [guardInsertRow] at h
  by_cases h1 : rows.any (fun r => r.1 = t.1 && r.2.1 = t.2.1)
  · rw [if_pos h1] at h
    simp only [Except.ok.injEq] at h
    subst h
    rcases List.any_eq_true.mp h1 with ⟨r, hr, hp⟩
    simp only [Bool.and_eq_true, decide_eq_true_eq] at hp
    exact ⟨r, hr, hp.1, hp.2⟩
  · rw [if_neg h1] at h
    by_cases h2 : rows.any (fun r => r.1 = t.1 && r.2.2 = t.2.2)
    · rw [if_pos h2] at h
      cases h
    · rw [if_neg h2] at h
      simp only [Except.ok.injEq] at h
      subst h
      exact ⟨t, by simp, rfl, rfl⟩

theorem guardInsertAll_ok_subset :
    ∀ (ts rows rows2 : List (Nat × Nat × Nat)), guardInsertAll rows ts = .ok rows2 →
      ∀ r ∈ rows, r ∈ rows2 := by
  intro ts
  induction ts with
  | nil =>
    intro rows rows2 h
    simp only [guardInsertAll, List.foldlM_nil] at h
    cases h
    exact fun r hr => hr
  | cons t ts ih =>
    intro rows rows2 h
    rw [guardInsertAll, List.foldlM_cons] at h
    rcases h1 : guardInsertRow rows t with e | r1
    · rw [h1] at h
      cases h
    · rw [h1] at h
      replace h : guardInsertAll r1 ts = .ok rows2 := h
      exact fun r hr => ih r1 rows2 h r (guardInsertRow_ok_subset h1 r hr)

theorem guardInsertAll_ok_mem :
    ∀ (ts rows rows2 : List (Nat × Nat × Nat)), guardInsertAll rows ts = .ok rows2 →
      ∀ t ∈ ts, ∃ r ∈ rows2, r.1 = t.1 ∧ r.2.1 = t.2.1 := by
  intro ts
  induction ts with
  | nil => simp
  | cons t ts ih =>
    intro rows rows2 h u hu
    rw [guardInsertAll, List.foldlM_cons] at h
    rcases h1 : guardInsertRow rows t with e | r1
    · rw [h1] at h
      cases h
    · rw [h1] at h
      replace h : guardInsertAll r1 ts = .ok rows2 := h
      rcases List.mem_cons.mp hu with rfl | hu
      · rcases guardInsertRow_ok_mem h1 with ⟨r, hr, he⟩
        exact ⟨r, guardInsertAll_ok_subset ts r1 rows2 h r hr, he⟩
      · exact ih r1 rows2 h u hu

theorem guardInsertAll_replay :
    ∀ (ts rows : List (Nat × Nat × Nat)),
      (∀ t ∈ ts, ∃ r ∈ rows, r.1 = t.1 ∧ r.2.1 = t.2.1) →
      guardInsertAll rows ts = .ok rows := by
  intro ts
  induction ts with
  | nil => intro rows _; rfl
  | cons t ts ih =>
    intro rows h
    have hrow : guardInsertRow rows t = .ok rows := by
      rcases h t (by simp) with ⟨r, hr, h1, h2⟩
      rw [guardInsertRow, if_pos (List.any_eq_true.mpr ⟨r, hr, by simp [h1, h2]⟩)]
    rw [guardInsertAll, List.foldlM_cons, hrow]
    show guardInsertAll rows ts = .ok rows
    exact ih rows (fun u hu => h u (by simp [hu]))

theorem foldIns_mono {γ δ : Type} [BEq δ] [LawfulBEq δ] (g : γ → δ) :
    ∀ (l : List γ) (E : List δ) (x : δ), x ∈ E →
      x ∈ l.foldl (fun es f => if es.contains (g f) then es else es ++ [g f]) E := by
  intro l
  induction l with
  | nil => intro E x hx; exact hx
  | cons f l ih =>
    intro E x hx
    rw [List.foldl_cons]
    apply ih
    by_cases hc : E.contains (g f)
    · rw [if_pos hc]; exact hx
    · rw [if_neg hc]; exact List.mem_append_left _ hx

theorem foldIns_self {γ δ : Type} [BEq δ] [LawfulBEq δ] (g : γ → δ) :
    ∀ (l : List γ) (E : List δ), ∀ f ∈ l,
      g f ∈ l.foldl (fun es f => if es.contains (g f) then es else es ++ [g f]) E := by
  intro l
  induction l with
  | nil => simp
  | cons f0 l ih =>
    intro E f hf
    rw [List.foldl_cons]
    rcases List.mem_cons.mp hf with rfl | hf
    · apply foldIns_mono
      by_cases hc : E.contains (g f)
      · rw [if_pos hc]
        exact List.mem_of_elem_eq_true hc
      · rw [if_neg hc]
        simp
    · exact ih _ f hf

theorem foldIns_replay {γ δ : Type} [BEq δ] [LawfulBEq δ] (g : γ → δ) :
    ∀ (l : List γ) (E : List δ), (∀ f ∈ l, g f ∈ E) →
      l.foldl (fun es f => if es.contains (g f) then es else es ++ [g f]) E = E := by
  intro l
  induction l with
  | nil => intro E _; rfl
  | cons f0 l ih =>
    intro E h
    rw [List.foldl_cons, if_pos (List.elem_eq_true_of_mem (h f0 (by simp)))]
    exact ih E (fun f hf => h f (by simp [hf]))

theorem mergeOccursAll_eq_foldIns (E : List AgeOccurs) (os : List AgeOccurs) :
    mergeOccursAll E os =
      os.foldl (fun es o => if es.contains (id o) then es else es ++ [id o]) E := rfl

theorem mergeOccursAll_mem_self (os : List AgeOccurs) (E : List AgeOccurs) :
    ∀ o ∈ os, o ∈ mergeOccursAll E os := by
  intro o ho
  rw [mergeOccursAll_eq_foldIns]
  exact foldIns_self id os E o ho

theorem mergeOccursAll_replay (os : List AgeOccurs) (E : List AgeOccurs)
    (h : ∀ o ∈ os, o ∈ E) : mergeOccursAll E os = E := by
  rw [mergeOccursAll_eq_foldIns]
  exact foldIns_replay id os E h

theorem mergeParentAll_append_disjoint :
    ∀ (ts E : List (Nat × Nat × Nat)),
      (∀ t ∈ ts, ∀ e ∈ E, ¬(e.1 = t.1 ∧ e.2.1 = t.2.1)) →
      (ts.map (fun t => (t.1, t.2.1))).Nodup →
      mergeParentAll E ts = E ++ ts := by
  intro ts
  induction ts with
  | nil => intro E _ _; simp [mergeParentAll]
  | cons t ts ih =>
    intro E hdisj hnd
    simp only [List.map_cons, List.nodup_cons] at hnd
    have hstep : mergeParentEdge E t = E ++ [t] := by
      rw [mergeParentEdge, if_neg (by
        intro hany
        rcases List.any_eq_true.mp hany with ⟨e, he, hc⟩
        simp only [Bool.and_eq_true, decide_eq_true_eq] at hc
        exact hdisj t (by simp) e he hc)]
    rw [mergeParentAll, List.foldl_cons]
    have := ih (E ++ [t]) ?_ hnd.2
    · rw [mergeParentAll] at this
      rw [hstep, this, List.append_assoc]
      rfl
    · intro u hu e he
      rcases List.mem_append.mp he with he | he
      · exact hdisj u (by simp [hu]) e he
      · rcases List.mem_singleton.mp he with rfl
        intro hc
        exact hnd.1 (by
          refine List.mem_map.mpr ⟨u, hu, ?_⟩
          exact Prod.ext hc.1.symm hc.2.symm)
  
theorem mergeParentEdge_self (E : List (Nat × Nat × Nat)) (t : Nat × Nat × Nat)
    (hmem : ∃ e ∈ E, e.1 = t.1 ∧ e.2.1 = t.2.1)
    (hpay : ∀ e ∈ E, e.1 = t.1 ∧ e.2.1 = t.2.1 → e.2.2 = t.2.2) :
    mergeParentEdge E t = E := by
  rcases hmem with ⟨e0, he0, h1, h2⟩
  rw [mergeParentEdge, if_pos (List.any_eq_true.mpr ⟨e0, he0, by simp [h1, h2]⟩)]
  have hpt : ∀ e ∈ E, (if e.1 = t.1 && e.2.1 = t.2.1 then (e.1, e.2.1, t.2.2) else e) = e := by
    intro e he
    by_cases hm : (e.1 = t.1 && e.2.1 = t.2.1) = true
    · rw [if_pos hm]
      simp only [Bool.and_eq_true, decide_eq_true_eq] at hm
      rw [← hpay e he ⟨hm.1, hm.2⟩]
    · rw [if_neg hm]
  rw [List.map_congr_left hpt]
  simp

theorem mergeParentAll_replay :
    ∀ (ts E : List (Nat × Nat × Nat)),
      (∀ t ∈ ts, (∃ e ∈ E, e.1 = t.1 ∧ e.2.1 = t.2.1) ∧
        (∀ e ∈ E, e.1 = t.1 ∧ e.2.1 = t.2.1 → e.2.2 = t.2.2)) →
      mergeParentAll E ts = E := by
  intro ts
  induction ts with
  | nil => intro E _; rfl
  | cons t ts ih =>
    intro E h
    rw [mergeParentAll, List.foldl_cons,
      mergeParentEdge_self E t (h t (by simp)).1 (h t (by simp)).2]
    exact ih E (fun u hu => h u (by simp [hu]))

theorem mergeFileVersion_self (st1 : AgeState) (vid0 : Nat) (C FU PATH L TS A B : String)
    (hfv : st1.fileVersions = [⟨vid0, C, FU, PATH, L, TS, A, B⟩]) :
    mergeFileVersion st1 C FU PATH L TS A B = (st1, vid0) := by
  have hfind : st1.fileVersions.find?
      (fun f => f.commit_id = C && f.file_uuid = FU && f.path = PATH) =
      some ⟨vid0, C, FU, PATH, L, TS, A, B⟩ := by
    rw [hfv]
    simp [List.find?]
  rw [mergeFileVersion, hfind]
  have hmap : st1.fileVersions.map (fun g =>
      if g.commit_id = C && g.file_uuid = FU && g.path = PATH then
        {g with language := L, ts := TS, author := A, branch := B}
      else g) = st1.fileVersions := by
    rw [hfv]
    simp
  rw [hmap]

mutual
theorem specEdges_childIdx_nodup (base : Nat) :
    ∀ t : Ast, ((specEdges base t).map (fun e => e.2.1)).Nodup
  | .mk t sb eb sp ep cs => by
    have h := specEdgesList_childIdx_nodup base cs
    simp only [specEdges, List.map_append, List.map_map]
    have hm : ((fun e => e.2.1) ∘ fun q => ((base + treeSizeList cs : Nat), q.2, q.1)) =
        Prod.snd (α := Nat) (β := Nat) := by
      funext q
      rfl
    rw [hm, List.enum_map_snd]
    exact h

theorem specEdgesList_childIdx_nodup (base : Nat) :
    ∀ l : List Ast,
      (((specEdgesList base l).map (fun e => e.2.1)) ++ childRootIdx base l).Nodup
  | [] => by simp [specEdgesList, childRootIdx]
  | c :: rest => by
    have hA := specEdges_childIdx_nodup base c
    have hBR := specEdgesList_childIdx_nodup (base + treeSize c) rest
    have hboundsA : ∀ x ∈ (specEdges base c).map (fun e => e.2.1),
        base ≤ x ∧ x < base + treeSize c - 1 := by
      intro x hx
      rcases List.mem_map.mp hx with ⟨e, he, rfl⟩
      have := specEdges_bounds base c e he
      omega
    have hboundsB : ∀ x ∈ (specEdgesList (base + treeSize c) rest).map (fun e => e.2.1),
        base + treeSize c ≤ x := by
      intro x hx
      rcases List.mem_map.mp hx with ⟨e, he, rfl⟩
      have := specEdgesList_bounds (base + treeSize c) rest e he
      omega
    have hboundsR : ∀ x ∈ childRootIdx (base + treeSize c) rest, base + treeSize c ≤ x :=
      fun x hx => (childRootIdx_bounds _ rest x hx).1
    have hpos := treeSize_pos c
    simp only [specEdgesList, childRootIdx, List.map_append]
    rw [List.append_assoc, List.nodup_append]
    refine ⟨hA, ?_, ?_⟩
    · refine List.nodup_middle.mpr (List.nodup_cons.mpr ⟨?_, hBR⟩)
      intro hmem
      rcases List.mem_append.mp hmem with hm | hm
      · have := hboundsB _ hm
        omega
      · have := hboundsR _ hm
        omega
    · intro x hxA hxO
      have hA2 := hboundsA x hxA
      rcases List.mem_append.mp hxO with hm | hm
      · have := hboundsB x hm
        omega
      · rcases List.mem_cons.mp hm with rfl | hm
        · omega
        · have := hboundsR x hm
          omega
end

theorem collectEdges_childIdx_nodup (node : Ast) (fu : String) (src : List Nat) :
    ((collect_ast_data node fu src).edges.map (fun e => e.2.1)).Nodup := by
  rw [collect_ast_data_spec]
  exact specEdges_childIdx_nodup 0 node

theorem collectEdges_bounds (node : Ast) (fu : String) (src : List Nat) :
    ∀ e ∈ (collect_ast_data node fu src).edges,
      e.2.1 < (collect_ast_data node fu src).nodes.length ∧
      e.1 < (collect_ast_data node fu src).nodes.length := by
  intro e he
  rw [collect_ast_data_spec] at he
  have hb := specEdges_bounds 0 node e he
  have hlen : (collect_ast_data node fu src).nodes.length = treeSize node := by
    rw [collect_ast_data_spec]
    exact specNodes_length fu src node
  rw [hlen]
  omega

theorem persistStageFV_empty (g : Option GitCommitInfo) (now : String) (fa : FileAst)
    (path : String) :
    persistStageFV g now fa path AgeState.empty =
      (⟨[], [⟨1, fallbackCommit g, fa.file_uuid, path, fa.language, fallbackTs g now,
        fallbackAuthor g, fallbackBranch g⟩], [], [], [], [], 2⟩, 1) := rfl

theorem persist_fromEmpty_parts (g : Option GitCommitInfo) (now : String) (pc : Option String)
    (fa : FileAst) (db : List Nat) (path : String) (st1 : AgeState)
    (h : persist_file_ast_to_age g now pc fa db path AgeState.empty = .ok st1) :
    st1.fileVersions = [⟨1, fallbackCommit g, fa.file_uuid, path, fa.language,
      fallbackTs g now, fallbackAuthor g, fallbackBranch g⟩] ∧
    st1.astNodes = createdVertices 2
      (collect_ast_data fa.ast fa.file_uuid (fa.source_bytes.getD db)).nodes ∧
    st1.nextId =
      2 + (collect_ast_data fa.ast fa.file_uuid (fa.source_bytes.getD db)).nodes.length ∧
    guardInsertAll []
      (persistEdgesOf fa db
        ((List.range' 0
            (collect_ast_data fa.ast fa.file_uuid (fa.source_bytes.getD db)).nodes.length).zip
          (List.range' 2
            (collect_ast_data fa.ast fa.file_uuid (fa.source_bytes.getD db)).nodes.length))) =
      .ok st1.guardRows ∧
    st1.parentEdges = mergeParentAll []
      (persistEdgesOf fa db
        ((List.range' 0
            (collect_ast_data fa.ast fa.file_uuid (fa.source_bytes.getD db)).nodes.length).zip
          (List.range' 2
            (collect_ast_data fa.ast fa.file_uuid (fa.source_bytes.getD db)).nodes.length))) ∧
    st1.occursEdges = mergeOccursAll []
      (persistOccsOf g fa db
        ((List.range' 0
            (collect_ast_data fa.ast fa.file_uuid (fa.source_bytes.getD db)).nodes.length).zip
          (List.range' 2
            (collect_ast_data fa.ast fa.file_uuid (fa.source_bytes.getD db)).nodes.length)) 1) ∧
    st1.nextVersionEdges =
      (match (if fallbackCommit g ≠ "local" then pc else none) with
      | some pcv =>
        (st1.fileVersions.filter (fun f => f.commit_id = pcv && f.path = path)).foldl
          (fun es f => if es.contains (f.vid, 1) then es else es ++ [(f.vid, 1)]) []
      | none => []) := by
  rw [persist_decompose] at h
  rcases hpc : (if fallbackCommit g ≠ "local" then pc else none) with _ | pcv
  · have hStages : persistStages g now pc fa db path AgeState.empty =
        (⟨createdVertices 2
            (collect_ast_data fa.ast fa.file_uuid (fa.source_bytes.getD db)).nodes,
          [⟨1, fallbackCommit g, fa.file_uuid, path, fa.language, fallbackTs g now,
            fallbackAuthor g, fallbackBranch g⟩], [], [], [], [],
          2 + (collect_ast_data fa.ast fa.file_uuid (fa.source_bytes.getD db)).nodes.length⟩,
         (List.range' 0
            (collect_ast_data fa.ast fa.file_uuid (fa.source_bytes.getD db)).nodes.length).zip
          (List.range' 2
            (collect_ast_data fa.ast fa.file_uuid (fa.source_bytes.getD db)).nodes.length),
         1) := by
      simp only [persistStages, persistStageLink, persistStageFV_empty, hpc]
      simp only [persistStageNodes]
      rw [lookupSpans_nil _ _ rfl, partitionNodes_nil_full, createNodes_spec]
      simp [createdVertices_map_vid]
    rw [hStages] at h
    simp only [] at h
    rcases hg : guardInsertAll []
        (persistEdgesOf fa db
          ((List.range' 0
              (collect_ast_data fa.ast fa.file_uuid (fa.source_bytes.getD db)).nodes.length).zip
            (List.range' 2
              (collect_ast_data fa.ast fa.file_uuid (fa.source_bytes.getD db)).nodes.length)))
        with e | rows
    · rw [hg] at h
      simp at h
    · rw [hg] at h
      simp only [Except.ok.injEq] at h
      subst h
      refine ⟨rfl, rfl, rfl, ?_, rfl, rfl, ?_⟩
      · rfl
      · simp only [hpc]
  · have hStages : persistStages g now pc fa db path AgeState.empty =
        (⟨createdVertices 2
            (collect_ast_data fa.ast fa.file_uuid (fa.source_bytes.getD db)).nodes,
          [⟨1, fallbackCommit g, fa.file_uuid, path, fa.language, fallbackTs g now,
            fallbackAuthor g, fallbackBranch g⟩], [], [], [],
          ((([(⟨1, fallbackCommit g, fa.file_uuid, path, fa.language, fallbackTs g now,
              fallbackAuthor g, fallbackBranch g⟩ : AgeFileVersion)]).filter
              (fun f => f.commit_id = pcv && f.path = path)).foldl
            (fun es f => if es.contains (f.vid, 1) then es else es ++ [(f.vid, 1)]) []),
          2 + (collect_ast_data fa.ast fa.file_uuid (fa.source_bytes.getD db)).nodes.length⟩,
         (List.range' 0
            (collect_ast_data fa.ast fa.file_uuid (fa.source_bytes.getD db)).nodes.length).zip
          (List.range' 2
            (collect_ast_data fa.ast fa.file_uuid (fa.source_bytes.getD db)).nodes.length),
         1) := by
      simp only [persistStages, persistStageLink, persistStageFV_empty, hpc, linkPrevVersion]
      simp only [persistStageNodes]
      rw [lookupSpans_nil _ _ rfl, partitionNodes_nil_full, createNodes_spec]
      simp [createdVertices_map_vid]
    rw [hStages] at h
    simp only [] at h
    rcases hg : guardInsertAll []
        (persistEdgesOf fa db
          ((List.range' 0
              (collect_ast_data fa.ast fa.file_uuid (fa.source_bytes.getD db)).nodes.length).zip
            (List.range' 2
              (collect_ast_data fa.ast fa.file_uuid (fa.source_bytes.getD db)).nodes.length)))
        with e | rows
    · rw [hg] at h
      simp at h
    · rw [hg] at h
      simp only [Except.ok.injEq] at h
      subst h
      refine ⟨rfl, rfl, rfl, ?_, rfl, rfl, ?_⟩
      · rfl
      · simp only [hpc]

theorem persistEdges_key_nodup (fa : FileAst) (db : List Nat) :
    ((persistEdgesOf fa db
        ((List.range' 0
            (collect_ast_data fa.ast fa.file_uuid (fa.source_bytes.getD db)).nodes.length).zip
          (List.range' 2
            (collect_ast_data fa.ast fa.file_uuid (fa.source_bytes.getD db)).nodes.length))).map
      (fun t => (t.1, t.2.1))).Nodup := by
  rw [persistEdgesOf, List.map_map]
  apply List.Nodup.of_map Prod.snd
  rw [List.map_map]
  have hcong : ∀ e ∈ (collect_ast_data fa.ast fa.file_uuid (fa.source_bytes.getD db)).edges,
      (Prod.snd ∘ (fun t : Nat × Nat × Nat => (t.1, t.2.1)) ∘
        (fun e : Nat × Nat × Nat =>
          (lookupIdx ((List.range' 0
              (collect_ast_data fa.ast fa.file_uuid (fa.source_bytes.getD db)).nodes.length).zip
            (List.range' 2
              (collect_ast_data fa.ast fa.file_uuid (fa.source_bytes.getD db)).nodes.length)) e.1,
           lookupIdx ((List.range' 0
              (collect_ast_data fa.ast fa.file_uuid (fa.source_bytes.getD db)).nodes.length).zip
            (List.range' 2
              (collect_ast_data fa.ast fa.file_uuid (fa.source_bytes.getD db)).nodes.length)) e.2.1,
           e.2.2))) e =
        ((fun c : Nat => 2 + c) ∘ (fun e : Nat × Nat × Nat => e.2.1)) e := by
    intro e he
    have hb := (collectEdges_bounds fa.ast fa.file_uuid (fa.source_bytes.getD db) e he).1
    simp only [Function.comp_apply]
    rw [lookupIdx_zip_range _ 0 2 e.2.1, if_pos (by omega)]
    omega
  rw [List.map_congr_left hcong, ← List.map_map]
  apply List.Nodup.map
  · intro a b hab
    simp only [] at hab
    omega
  · exact collectEdges_childIdx_nodup fa.ast fa.file_uuid (fa.source_bytes.getD db)

/-! ## Claims C1, C2, C3, C5 -/

/-- C1 counterexample: ingesting the same one-node subtree for a second
file uuid (span_key miss, shape_hash hit on the vertex from the first
ingest) makes the batched postgres pipeline create a second vertex instead
of adopting the existing one: both vertices carry the same shape hash under
distinct span keys. -/
theorem C1_counterexample :
    c1Run.map (fun st => st.astNodes.map (fun v => v.props.span_key)) =
      .ok ["u0:t:0:1", "u1:t:0:1"] ∧
    c1Run.map (fun st => st.astNodes.map (fun v => v.props.shape_hash)) =
      .ok [compute_shape_hash "t" [120] [], compute_shape_hash "t" [120] []] ∧
    ("u1:t:0:1" : String) ≠ "u0:t:0:1" :=
  ⟨by rfl, by rfl, by decide⟩

/-- C1 (amended): the in-memory backend implements the structural
fallback — when, after the children are ingested, the node's span_key has
no entry but its shape_hash resolves to an existing vertex id, that id is
adopted and no new vertex is created; the batched postgres persistence
phase resolves by span_key only and performs no such fallback. -/
theorem C1_amended (fu : String) (src : List Nat) (t : String) (sb eb : Nat)
    (sp ep : Position) (cs : List Ast) (st : MemState) (occ : List (Nat × Nat × Nat)) (nid : Nat)
    (hspan : dictGet (memIngestChildren fu src cs st occ).1.ast_nodes_by_span
      (make_span_key fu t sb eb) = none)
    (hshape : dictGet (memIngestChildren fu src cs st occ).1.ast_nodes_by_shape
      (compute_shape_hash t (pySlice src sb eb)
        (memIngestChildren fu src cs st occ).2.2.2) = some nid) :
    (memIngestNode fu src (.mk t sb eb sp ep cs) st occ).2.2.1 = nid ∧
    (memIngestNode fu src (.mk t sb eb sp ep cs) st occ).1.ast_nodes =
      (memIngestChildren fu src cs st occ).1.ast_nodes ∧
    (memIngestNode fu src (.mk t sb eb sp ep cs) st occ).1.next_node_id =
      (memIngestChildren fu src cs st occ).1.next_node_id := by
  refine ⟨?_, ?_, ?_⟩ <;> simp [memIngestNode, hspan, hshape]

set_option maxRecDepth 100000 in
/-- Witness for the amended C1 at a concrete input. -/
theorem C1_amended_witness :
    (dictGet (memIngestChildren "u1" [120] [] c1ShapeOnlyState []).1.ast_nodes_by_span
      (make_span_key "u1" "t" 0 1) = none) ∧
    (dictGet (memIngestChildren "u1" [120] [] c1ShapeOnlyState []).1.ast_nodes_by_shape
      (compute_shape_hash "t" (pySlice [120] 0 1)
        (memIngestChildren "u1" [120] [] c1ShapeOnlyState []).2.2.2) = some 5) ∧
    ((memIngestNode "u1" [120] (.mk "t" 0 1 ⟨0, 0⟩ ⟨0, 1⟩ []) c1ShapeOnlyState []).2.2.1 = 5 ∧
      (memIngestNode "u1" [120] (.mk "t" 0 1 ⟨0, 0⟩ ⟨0, 1⟩ []) c1ShapeOnlyState []).1.ast_nodes =
        (memIngestChildren "u1" [120] [] c1ShapeOnlyState []).1.ast_nodes ∧
      (memIngestNode "u1" [120] (.mk "t" 0 1 ⟨0, 0⟩ ⟨0, 1⟩ []) c1ShapeOnlyState
          []).1.next_node_id =
        (memIngestChildren "u1" [120] [] c1ShapeOnlyState []).1.next_node_id) :=
  ⟨by rfl, by rfl,
    C1_amended "u1" [120] "t" 0 1 ⟨0, 0⟩ ⟨0, 1⟩ [] c1ShapeOnlyState [] 5 (by rfl) (by rfl)⟩

/-- C3: the batched postgres pipeline, fed a tree whose root and child
share one (type, start_byte, end_byte), successfully creates two AstNode
vertices carrying the same span_key — the span-uniqueness invariant the
spec requires after every successful ingest is violated, because the
collect phase never deduplicates span_keys inside one batch. -/
theorem C3_code_exhibit :
    c3Run.map (fun st => st.astNodes.map (fun v => v.props.span_key)) =
      .ok ["u:t:0:1", "u:t:0:1"] ∧
    c3Run.map (fun st =>
      (st.astNodes.filter (fun v => v.props.span_key = "u:t:0:1")).length) = .ok 2 :=
  ⟨by rfl, by rfl⟩

set_option maxRecDepth 400000 in
/-- C5 counterexample: the in-memory backend collapses the two identical
siblings of `twinTree` (3 nodes) into a single AstNode via the shape
fallback: only 2 AstNodes exist, and no vertex carries the second
sibling's span_key `u:t:2:3` — not one AstNode per span_key. -/
theorem C5_counterexample :
    c5MemState.ast_nodes.map (fun p => (p.1, p.2.span_key)) =
      [(1, "u:t:0:1"), (2, "u:r:0:3")] ∧
    treeSize twinTree = 3 ∧
    c5MemState.ast_nodes.length = 2 ∧
    (c5MemState.ast_nodes.map (fun p => p.2.span_key)).contains "u:t:2:3" = false :=
  ⟨by rfl, by rfl, by rfl, by rfl⟩

/-- C5 (amended): the batched postgres pipeline, ingesting any file into
the empty graph, creates exactly one vertex per collected node (property
dicts in collector order, tree-size many); every child subtree of the root
is represented by a vertex carrying its own span_key and its recursive
shape hash; structurally identical subtrees (equal type / source slice /
child structure) get equal shape hashes; and when the collected span_keys
are pairwise distinct (as disjoint sibling spans give) the vertices carry
pairwise distinct span_keys. -/
theorem C5_amended (g : Option GitCommitInfo) (now : String) (pc : Option String)
    (fa : FileAst) (db : List Nat) (path : String) (st' : AgeState)
    (hok : persist_file_ast_to_age g now pc fa db path AgeState.empty = .ok st') :
    st'.astNodes.map (fun v => v.props) =
      (collect_ast_data fa.ast fa.file_uuid (fa.source_bytes.getD db)).nodes ∧
    st'.astNodes.length = treeSize fa.ast ∧
    (∀ c ∈ fa.ast.childList, ∃ v ∈ st'.astNodes,
      v.props.span_key = make_span_key fa.file_uuid c.nodeType c.startByte c.endByte ∧
      v.props.shape_hash = shapeHashSpec (fa.source_bytes.getD db) c) ∧
    (∀ c1 ∈ fa.ast.childList, ∀ c2 ∈ fa.ast.childList,
      shapeOf (fa.source_bytes.getD db) c1 = shapeOf (fa.source_bytes.getD db) c2 →
      shapeHashSpec (fa.source_bytes.getD db) c1 = shapeHashSpec (fa.source_bytes.getD db) c2) ∧
    (((collect_ast_data fa.ast fa.file_uuid (fa.source_bytes.getD db)).nodes.map
        (fun p => p.span_key)).Nodup →
      (st'.astNodes.map (fun v => v.props.span_key)).Nodup) := by
  have hmap : st'.astNodes.map (fun v => v.props) =
      (collect_ast_data fa.ast fa.file_uuid (fa.source_bytes.getD db)).nodes := by
    rw [persist_fromEmpty_astNodes g now pc fa db path st' hok, createdVertices_map_props]
  have hsk : st'.astNodes.map (fun v => v.props.span_key) =
      (collect_ast_data fa.ast fa.file_uuid (fa.source_bytes.getD db)).nodes.map
        (fun p => p.span_key) := by
    have h2 := congrArg (List.map (fun p : NodeProps => p.span_key)) hmap
    simpa [List.map_map, Function.comp] using h2
  refine ⟨hmap, ?_, ?_, ?_, ?_⟩
  · have hlen := congrArg List.length hmap
    simp only [List.length_map] at hlen
    rw [hlen, collect_ast_data_spec]
    exact specNodes_length fa.file_uuid (fa.source_bytes.getD db) fa.ast
  · intro c hc
    rcases specNodes_root_mem fa.file_uuid (fa.source_bytes.getD db) c with ⟨p, hp, h1, h2⟩
    have hpn : p ∈ (collect_ast_data fa.ast fa.file_uuid (fa.source_bytes.getD db)).nodes := by
      rw [collect_ast_data_spec]
      exact specNodes_child_mem fa.file_uuid (fa.source_bytes.getD db) fa.ast c hc p hp
    rw [← hmap] at hpn
    rcases List.mem_map.mp hpn with ⟨v, hv, hvp⟩
    exact ⟨v, hv, by rw [hvp]; exact h1, by rw [hvp]; exact h2⟩
  · intro c1 _ c2 _ hsh
    exact shapeHash_congr (fa.source_bytes.getD db) c1 c2 hsh
  · intro hnd
    rw [hsk]
    exact hnd

/-- Witness for the amended C5 at a concrete input: the twin-sibling file
ingested once into the empty graph. -/
theorem C5_amended_witness :
    (persist_file_ast_to_age none "t0" none faTwin [] "w.py" AgeState.empty = .ok c5PgState) ∧
    c5PgState.astNodes.map (fun v => v.props) =
      (collect_ast_data faTwin.ast faTwin.file_uuid (faTwin.source_bytes.getD [])).nodes ∧
    c5PgState.astNodes.length = treeSize faTwin.ast := by
  have hok : persist_file_ast_to_age none "t0" none faTwin [] "w.py" AgeState.empty =
      .ok c5PgState := by rfl
  exact ⟨hok, (C5_amended none "t0" none faTwin [] "w.py" c5PgState hok).1,
    (C5_amended none "t0" none faTwin [] "w.py" c5PgState hok).2.1⟩

set_option maxRecDepth 400000 in
/-- C2 counterexample: re-ingesting the same (path, bytes) in the
in-memory backend appends a second FileVersion row and a second occurrence
row — the graph grows on the second ingest (AstNodes do not). -/
theorem C2_counterexample :
    c2MemOnce.file_versions.length = 1 ∧ c2MemTwice.file_versions.length = 2 ∧
    c2MemOnce.occurrences.length = 1 ∧ c2MemTwice.occurrences.length = 2 ∧
    c2MemOnce.ast_nodes.length = 1 ∧ c2MemTwice.ast_nodes.length = 1 :=
  ⟨by rfl, by rfl, by rfl, by rfl, by rfl, by rfl⟩

/-! ## The cursor codec round trip and error classification (claim C8) -/

theorem b64Loop_quad (u0 u1 u2 u3 : Char) (L : List Char) (v0 v1 v2 v3 : Nat)
    (h0 : b64Val u0 = some v0) (h1 : b64Val u1 = some v1) (h2 : b64Val u2 = some v2)
    (h3 : b64Val u3 = some v3) :
    b64Loop (u0 :: u1 :: u2 :: u3 :: L) 0 0 0 =
      (b64Loop L 0 0 0).map (fun bs =>
        (v0 * 4 + v1 / 16) :: (v1 % 16 * 16 + v2 / 4) :: (v2 % 4 * 64 + v3) :: bs) := by
  have hveq : b64Val '=' = none := by decide
  have hu0 : u0 ≠ '=' := fun e => by rw [e, hveq] at h0; cases h0
  have hu1 : u1 ≠ '=' := fun e => by rw [e, hveq] at h1; cases h1
  have hu2 : u2 ≠ '=' := fun e => by rw [e, hveq] at h2; cases h2
  have hu3 : u3 ≠ '=' := fun e => by rw [e, hveq] at h3; cases h3
  simp only [b64Loop, h0, h1, h2, h3, hu0, hu1, hu2, hu3, if_neg, ite_false,
    Option.map_map]
  cases b64Loop L 0 0 0 <;> simp [Function.comp]

theorem b64Val_translate : ∀ v < 64, b64Val (b64UrlTranslate (b64Char v)) = some v := by decide

theorem b64UrlTranslate_pad : b64UrlTranslate '=' = '=' := by decide

theorem b64Loop_pad2 (u0 u1 : Char) (v0 v1 : Nat)
    (h0 : b64Val u0 = some v0) (h1 : b64Val u1 = some v1) :
    b64Loop [u0, u1, '=', '='] 0 0 0 = some [v0 * 4 + v1 / 16] := by
  have hveq : b64Val '=' = none := by decide
  have hu0 : u0 ≠ '=' := fun e => by rw [e, hveq] at h0; cases h0
  have hu1 : u1 ≠ '=' := fun e => by rw [e, hveq] at h1; cases h1
  simp [b64Loop, h0, h1, hu0, hu1]

theorem b64Loop_pad1 (u0 u1 u2 : Char) (v0 v1 v2 : Nat)
    (h0 : b64Val u0 = some v0) (h1 : b64Val u1 = some v1) (h2 : b64Val u2 = some v2) :
    b64Loop [u0, u1, u2, '='] 0 0 0 = some [v0 * 4 + v1 / 16, v1 % 16 * 16 + v2 / 4] := by
  have hveq : b64Val '=' = none := by decide
  have hu0 : u0 ≠ '=' := fun e => by rw [e, hveq] at h0; cases h0
  have hu1 : u1 ≠ '=' := fun e => by rw [e, hveq] at h1; cases h1
  have hu2 : u2 ≠ '=' := fun e => by rw [e, hveq] at h2; cases h2
  simp [b64Loop, h0, h1, h2, hu0, hu1, hu2]

theorem b64_roundtrip : ∀ (bs : List Nat), (∀ b ∈ bs, b < 256) →
    b64DecodeUrlsafe (b64EncodeList bs) = some bs
  | [], _ => rfl
  | [b0], h => by
    have hb0 : b0 < 256 := h b0 (by simp)
    have e0 := b64Val_translate (b0 / 4) (by omega)
    have e1 := b64Val_translate (b0 % 4 * 16) (by omega)
    rw [b64DecodeUrlsafe]
    have hclean : ((b64EncodeList [b0]).map b64UrlTranslate).filter
        (fun c => (b64Val c).isSome || c = '=') =
        [b64UrlTranslate (b64Char (b0 / 4)), b64UrlTranslate (b64Char (b0 % 4 * 16)), '=', '='] := by
      simp [b64EncodeList, List.filter_cons, e0, e1, b64UrlTranslate_pad]
    rw [hclean, b64Loop_pad2 _ _ _ _ e0 e1]
    have harith : b0 / 4 * 4 + b0 % 4 * 16 / 16 = b0 := by omega
    rw [harith]
  | [b0, b1], h => by
    have hb0 : b0 < 256 := h b0 (by simp)
    have hb1 : b1 < 256 := h b1 (by simp)
    have e0 := b64Val_translate (b0 / 4) (by omega)
    have e1 := b64Val_translate (b0 % 4 * 16 + b1 / 16) (by omega)
    have e2 := b64Val_translate (b1 % 16 * 4) (by omega)
    rw [b64DecodeUrlsafe]
    have hclean : ((b64EncodeList [b0, b1]).map b64UrlTranslate).filter
        (fun c => (b64Val c).isSome || c = '=') =
        [b64UrlTranslate (b64Char (b0 / 4)), b64UrlTranslate (b64Char (b0 % 4 * 16 + b1 / 16)),
          b64UrlTranslate (b64Char (b1 % 16 * 4)), '='] := by
      simp [b64EncodeList, List.filter_cons, e0, e1, e2, b64UrlTranslate_pad]
    rw [hclean, b64Loop_pad1 _ _ _ _ _ _ e0 e1 e2]
    have ha1 : b0 / 4 * 4 + (b0 % 4 * 16 + b1 / 16) / 16 = b0 := by omega
    have ha2 : (b0 % 4 * 16 + b1 / 16) % 16 * 16 + b1 % 16 * 4 / 4 = b1 := by omega
    rw [ha1, ha2]
  | b0 :: b1 :: b2 :: rest, h => by
    have hb0 : b0 < 256 := h b0 (by simp)
    have hb1 : b1 < 256 := h b1 (by simp)
    have hb2 : b2 < 256 := h b2 (by simp)
    have ih := b64_roundtrip rest (fun b hb => h b (by simp [hb]))
    have e0 := b64Val_translate (b0 / 4) (by omega)
    have e1 := b64Val_translate (b0 % 4 * 16 + b1 / 16) (by omega)
    have e2 := b64Val_translate (b1 % 16 * 4 + b2 / 64) (by omega)
    have e3 := b64Val_translate (b2 % 64) (by omega)
    rw [b64DecodeUrlsafe] at ih ⊢
    have hclean : ((b64EncodeList (b0 :: b1 :: b2 :: rest)).map b64UrlTranslate).filter
        (fun c => (b64Val c).isSome || c = '=') =
        b64UrlTranslate (b64Char (b0 / 4)) ::
          b64UrlTranslate (b64Char (b0 % 4 * 16 + b1 / 16)) ::
          b64UrlTranslate (b64Char (b1 % 16 * 4 + b2 / 64)) ::
          b64UrlTranslate (b64Char (b2 % 64)) ::
          ((b64EncodeList rest).map b64UrlTranslate).filter
            (fun c => (b64Val c).isSome || c = '=') := by
      simp [b64EncodeList, List.filter_cons, e0, e1, e2, e3]
    rw [hclean, b64Loop_quad _ _ _ _ _ _ _ _ _ e0 e1 e2 e3, ih]
    have ha1 : b0 / 4 * 4 + (b0 % 4 * 16 + b1 / 16) / 16 = b0 := by omega
    have ha2 : (b0 % 4 * 16 + b1 / 16) % 16 * 16 + (b1 % 16 * 4 + b2 / 64) / 4 = b1 := by omega
    have ha3 : (b1 % 16 * 4 + b2 / 64) % 4 * 64 + b2 % 64 = b2 := by omega
    simp [ha1, ha2, ha3]

theorem hexVal_hexDigit : ∀ d < 16, hexVal (hexDigit d) = some d := by decide

theorem parseHex4_hex4 (n : Nat) (hn : n < 65536) (r : List Char) :
    parseHex4 (hex4 n ++ r) = some (n, r) := by
  have h0 := hexVal_hexDigit (n / 4096 % 16) (by omega)
  have h1 := hexVal_hexDigit (n / 256 % 16) (by omega)
  have h2 := hexVal_hexDigit (n / 16 % 16) (by omega)
  have h3 := hexVal_hexDigit (n % 16) (by omega)
  simp only [hex4, List.cons_append, List.nil_append, parseHex4, h0, h1, h2, h3]
  have : n / 4096 % 16 * 4096 + n / 256 % 16 * 256 + n / 16 % 16 * 16 + n % 16 = n := by omega
  rw [this]

theorem parseJsonString_plain (fuel : Nat) (c : Char) (rest : List Char)
    (h1 : c ≠ '"') (h2 : c ≠ Char.ofNat 92) (h3 : 0x20 ≤ c.toNat) :
    parseJsonString (fuel + 1) (c :: rest) =
      (parseJsonString fuel rest).map (fun p => (c :: p.1, p.2)) := by
  have h4 : ¬ c.toNat < 0x20 := by omega
  simp [parseJsonString, h1, h2, h4]

theorem parseJsonString_u (fuel : Nat) (rest : List Char) :
    parseJsonString (fuel + 1) ('\\' :: 'u' :: rest) =
      (match parseHex4 rest with
      | none => none
      | some (v, rest1) =>
        if 0xD800 ≤ v && v ≤ 0xDBFF then
          match rest1 with
          | '\\' :: 'u' :: rest2 =>
            (match parseHex4 rest2 with
            | some (w, rest3) =>
              if 0xDC00 ≤ w && w ≤ 0xDFFF then
                (parseJsonString fuel rest3).map
                  (fun p => (Char.ofNat (0x10000 + (v - 0xD800) * 0x400 + (w - 0xDC00)) :: p.1,
                    p.2))
              else (parseJsonString fuel rest1).map (fun p => (replChar :: p.1, p.2))
            | none => (parseJsonString fuel rest1).map (fun p => (replChar :: p.1, p.2)))
          | _ => (parseJsonString fuel rest1).map (fun p => (replChar :: p.1, p.2))
        else if 0xDC00 ≤ v && v ≤ 0xDFFF then
          (parseJsonString fuel rest1).map (fun p => (replChar :: p.1, p.2))
        else (parseJsonString fuel rest1).map (fun p => (Char.ofNat v :: p.1, p.2))) := by
  rfl

theorem parseJsonString_escChar (c : Char) (fuel : Nat) (tail : List Char) :
    parseJsonString (fuel + 1) (escChar c ++ tail) =
      (parseJsonString fuel tail).map (fun p => (c :: p.1, p.2)) := by
  have hval : c.toNat < 0xd800 ∨ (0xdfff < c.toNat ∧ c.toNat < 0x110000) := c.valid
  have hofnat : Char.ofNat c.toNat = c := Char.ofNat_toNat c
  by_cases hq : c = '"'
  · subst hq
    simp [escChar, parseJsonString]
  · by_cases hb : c = Char.ofNat 92
    · subst hb
      simp [escChar, parseJsonString]
    · by_cases h8 : c.toNat = 8
      · have hc : c = Char.ofNat 8 := by rw [← hofnat, h8]
        subst hc
        simp [escChar, parseJsonString]
      · by_cases h9 : c.toNat = 9
        · have hc : c = Char.ofNat 9 := by rw [← hofnat, h9]
          subst hc
          simp [escChar, parseJsonString]
        · by_cases h10 : c.toNat = 10
          · have hc : c = Char.ofNat 10 := by rw [← hofnat, h10]
            subst hc
            simp [escChar, parseJsonString]
          · by_cases h12 : c.toNat = 12
            · have hc : c = Char.ofNat 12 := by rw [← hofnat, h12]
              subst hc
              simp [escChar, parseJsonString]
            · by_cases h13 : c.toNat = 13
              · have hc : c = Char.ofNat 13 := by rw [← hofnat, h13]
                subst hc
                simp [escChar, parseJsonString]
              · by_cases hpr : 0x20 ≤ c.toNat ∧ c.toNat ≤ 0x7e
                · have hesc : escChar c = [c] := by
                    have hr : (0x20 ≤ c.toNat && c.toNat ≤ 0x7e) = true := by
                      simp only [Bool.and_eq_true, decide_eq_true_eq]
                      omega
                    simp [escChar, hq, hb, h8, h9, h10, h12, h13, hr]
                  rw [hesc, List.cons_append, List.nil_append,
                    parseJsonString_plain fuel c tail hq hb (by omega)]
                · by_cases hbmp : c.toNat < 0x10000
                  · have hesc : escChar c = '\\' :: 'u' :: hex4 c.toNat := by
                      have hr : (0x20 ≤ c.toNat && c.toNat ≤ 0x7e) = false := by
                        simp only [Bool.and_eq_false_iff, decide_eq_false_iff_not]
                        omega
                      simp [escChar, hq, hb, h8, h9, h10, h12, h13, hr, hbmp]
                    rw [hesc]
                    simp only [List.cons_append]
                    rw [parseJsonString_u, parseHex4_hex4 c.toNat (by omega) tail]
                    have hs1 : (0xD800 ≤ c.toNat && c.toNat ≤ 0xDBFF) = false := by
                      simp only [Bool.and_eq_false_iff, decide_eq_false_iff_not]
                      omega
                    have hs2 : (0xDC00 ≤ c.toNat && c.toNat ≤ 0xDFFF) = false := by
                      simp only [Bool.and_eq_false_iff, decide_eq_false_iff_not]
                      omega
                    simp [hs1, hs2, hofnat]
                  · have hesc : escChar c =
                        ('\\' :: 'u' :: hex4 (0xD800 + (c.toNat - 0x10000) / 0x400)) ++
                          ('\\' :: 'u' :: hex4 (0xDC00 + (c.toNat - 0x10000) % 0x400)) := by
                      have hr : (0x20 ≤ c.toNat && c.toNat ≤ 0x7e) = false := by
                        simp only [Bool.and_eq_false_iff, decide_eq_false_iff_not]
                        omega
                      simp [escChar, hq, hb, h8, h9, h10, h12, h13, hr, hbmp]
                    rw [hesc]
                    simp only [List.cons_append, List.append_assoc]
                    have hhex1 := parseHex4_hex4 (0xD800 + (c.toNat - 0x10000) / 0x400) (by omega)
                      ('\\' :: 'u' :: (hex4 (0xDC00 + (c.toNat - 0x10000) % 0x400) ++ tail))
                    have hhex2 := parseHex4_hex4 (0xDC00 + (c.toNat - 0x10000) % 0x400) (by omega)
                      tail
                    have hs1 : (0xD800 ≤ 0xD800 + (c.toNat - 0x10000) / 0x400 &&
                        0xD800 + (c.toNat - 0x10000) / 0x400 ≤ 0xDBFF) = true := by
                      simp only [Bool.and_eq_true, decide_eq_true_eq]
                      omega
                    have hs2 : (0xDC00 ≤ 0xDC00 + (c.toNat - 0x10000) % 0x400 &&
                        0xDC00 + (c.toNat - 0x10000) % 0x400 ≤ 0xDFFF) = true := by
                      simp only [Bool.and_eq_true, decide_eq_true_eq]
                      omega
                    have harith : 0x10000 +
                        (0xD800 + (c.toNat - 0x10000) / 0x400 - 0xD800) * 0x400 +
                        (0xDC00 + (c.toNat - 0x10000) % 0x400 - 0xDC00) = c.toNat := by
                      omega
                    have harith2 : 0x10000 + (c.toNat - 0x10000) / 0x400 * 0x400 +
                        (c.toNat - 0x10000) % 0x400 = c.toNat := by
                      omega
                    have hc1 : 55296 + (c.toNat - 65536) / 1024 ≤ 56319 := by omega
                    have hc2 : 56320 + (c.toNat - 65536) % 1024 ≤ 57343 := by omega
                    rw [parseJsonString_u, hhex1]
                    simp [hs1, hs2, hhex2, harith, harith2, hofnat, hc1, hc2]

theorem parseJsonString_escList (s : List Char) :
    ∀ (fuel : Nat), s.length < fuel →
      ∀ tail : List Char, parseJsonString fuel (escList s ++ '"' :: tail) = some (s, tail) := by
  induction s with
  | nil =>
    intro fuel hf tail
    match fuel, hf with
    | f + 1, _ => simp [escList, parseJsonString]
  | cons c s ih =>
    intro fuel hf tail
    cases fuel with
    | zero => exact absurd hf (by omega)
    | succ f =>
      have hstep := parseJsonString_escChar c f (escList s ++ '"' :: tail)
      have hlen : s.length < f := by
        simp only [List.length_cons] at hf
        omega
      simp only [escList, List.flatMap_cons, List.append_assoc]
      rw [show (escChar c ++ (s.flatMap escChar ++ '"' :: tail)) =
        escChar c ++ (escList s ++ '"' :: tail) from rfl, hstep, ih f hlen tail]
      rfl

theorem escChar_length_pos (c : Char) : 1 ≤ (escChar c).length := by
  simp only [escChar]
  repeat' split
  all_goals simp

theorem escList_length_ge (s : List Char) : s.length ≤ (escList s).length := by
  induction s with
  | nil => simp [escList]
  | cons c s ih =>
    have := escChar_length_pos c
    simp only [escList, List.flatMap_cons, List.length_append, List.length_cons] at *
    omega

theorem parseJsonValue_quote (fuel : Nat) (r : List Char) :
    parseJsonValue (fuel + 1) ('"' :: r) =
      (parseJsonString fuel r).map (fun p => (JsonValue.jstr p.1, p.2)) := rfl

theorem parseJsonValue_brace (fuel : Nat) (r : List Char) :
    parseJsonValue (fuel + 1) (Char.ofNat 123 :: r) =
      (parseJsonObjRest fuel r).map (fun p => (JsonValue.jobj p.1, p.2)) := rfl

theorem parseJsonMember_quote (fuel : Nat) (r : List Char) :
    parseJsonMember (fuel + 1) ('"' :: r) =
      (match parseJsonString fuel r with
      | none => none
      | some (k, r1) =>
        match jsonWs r1 with
        | ':' :: r2 =>
          (match parseJsonValue fuel r2 with
          | none => none
          | some (v, r3) => some ((k, v), r3))
        | _ => none) := rfl

theorem parseJsonMember_kv (k : Char) (hk1 : ¬ k = '"') (hk2 : ¬ k = Char.ofNat 92)
    (hk3 : 0x20 ≤ k.toNat)
    (v tail : List Char) (f : Nat) (hf : v.length + 3 ≤ f) :
    parseJsonMember f ('"' :: k :: '"' :: ':' :: '"' :: (escList v ++ '"' :: tail)) =
      some (([k], JsonValue.jstr v), tail) := by
  obtain ⟨m, hm⟩ := Nat.exists_eq_add_of_le hf
  have hfe : f = v.length + m + 3 := by omega
  subst hfe
  have hws1 : jsonWs ('"' :: k :: '"' :: ':' :: '"' :: (escList v ++ '"' :: tail)) =
      '"' :: k :: '"' :: ':' :: '"' :: (escList v ++ '"' :: tail) := by
    simp [jsonWs]
  have hkey : parseJsonString (v.length + m + 2)
      (k :: '"' :: ':' :: '"' :: (escList v ++ '"' :: tail)) =
      some ([k], ':' :: '"' :: (escList v ++ '"' :: tail)) := by
    rw [show v.length + m + 2 = (v.length + m + 1) + 1 from rfl,
      parseJsonString_plain _ k _ hk1 hk2 hk3,
      show v.length + m + 1 = (v.length + m) + 1 from rfl]
    simp [parseJsonString]
  have hws2 : jsonWs (':' :: '"' :: (escList v ++ '"' :: tail)) =
      ':' :: '"' :: (escList v ++ '"' :: tail) := by
    simp [jsonWs]
  have hws3 : jsonWs ('"' :: (escList v ++ '"' :: tail)) =
      '"' :: (escList v ++ '"' :: tail) := by
    simp [jsonWs]
  have hvalp : parseJsonValue (v.length + m + 2) ('"' :: (escList v ++ '"' :: tail)) =
      some (JsonValue.jstr v, tail) := by
    rw [show v.length + m + 2 = (v.length + m + 1) + 1 from rfl, parseJsonValue_quote,
      parseJsonString_escList v (v.length + m + 1) (by omega) tail]
    rfl
  rw [show v.length + m + 3 = (v.length + m + 2) + 1 from rfl, parseJsonMember_quote, hkey]
  simp only [hws2, hvalp]

theorem parseJsonObjTail_close (fuel : Nat) :
    parseJsonObjTail (fuel + 1) [Char.ofNat 125] = some ([], []) := rfl

theorem parseJsonObjTail_comma (fuel : Nat) (r : List Char) :
    parseJsonObjTail (fuel + 1) (',' :: r) =
      (match parseJsonMember fuel r with
      | none => none
      | some (kv, r1) =>
        match parseJsonObjTail fuel r1 with
        | none => none
        | some (kvs, r2) => some (kv :: kvs, r2)) := rfl

theorem parseJsonObjRest_quote (fuel : Nat) (r : List Char) :
    parseJsonObjRest (fuel + 1) ('"' :: r) =
      (match parseJsonMember fuel ('"' :: r) with
      | none => none
      | some (kv, r1) =>
        match parseJsonObjTail fuel r1 with
        | none => none
        | some (kvs, r2) => some (kv :: kvs, r2)) := rfl

theorem parseJsonValue_dumps (s i : List Char) (f : Nat)
    (hf : s.length + i.length + 8 ≤ f) :
    parseJsonValue f (jsonDumpsCursor s i) =
      some (JsonValue.jobj [(['s'], JsonValue.jstr s), (['i'], JsonValue.jstr i)], []) := by
  obtain ⟨m, hm⟩ := Nat.exists_eq_add_of_le hf
  have hfe : f = s.length + i.length + m + 8 := by omega
  subst hfe
  have harg : jsonDumpsCursor s i =
      Char.ofNat 123 :: '"' :: 's' :: '"' :: ':' :: '"' ::
        (escList s ++ '"' :: ',' :: '"' :: 'i' :: '"' :: ':' :: '"' ::
          (escList i ++ '"' :: [Char.ofNat 125])) := by
    simp [jsonDumpsCursor, List.append_assoc]
  have hm1 := parseJsonMember_kv 's' (by decide) (by decide) (by decide) s
    (',' :: '"' :: 'i' :: '"' :: ':' :: '"' :: (escList i ++ '"' :: [Char.ofNat 125]))
    (s.length + i.length + m + 6) (by omega)
  have hm2 := parseJsonMember_kv 'i' (by decide) (by decide) (by decide) i
    [Char.ofNat 125] (s.length + i.length + m + 5) (by omega)
  rw [harg,
    show s.length + i.length + m + 8 = (s.length + i.length + m + 7) + 1 from rfl,
    parseJsonValue_brace,
    show s.length + i.length + m + 7 = (s.length + i.length + m + 6) + 1 from rfl,
    parseJsonObjRest_quote, hm1]
  simp only []
  rw [show s.length + i.length + m + 6 = (s.length + i.length + m + 5) + 1 from rfl,
    parseJsonObjTail_comma, hm2]
  simp only []
  rw [show s.length + i.length + m + 5 = (s.length + i.length + m + 4) + 1 from rfl,
    parseJsonObjTail_close]
  rfl

theorem jsonLoads_dumps (s i : List Char) :
    jsonLoads (jsonDumpsCursor s i) =
      some (JsonValue.jobj [(['s'], JsonValue.jstr s), (['i'], JsonValue.jstr i)]) := by
  have h1 := escList_length_ge s
  have h2 := escList_length_ge i
  have hl : (jsonDumpsCursor s i).length = 15 + (escList s).length + (escList i).length := by
    simp [jsonDumpsCursor]
    omega
  have hlen : s.length + i.length + 8 ≤ 2 * (jsonDumpsCursor s i).length + 8 := by omega
  rw [jsonLoads, parseJsonValue_dumps s i _ hlen]
  rfl

theorem utf8EncodeChar_lt (c : Char) : ∀ b ∈ utf8EncodeChar c, b < 256 := by
  have hval : c.toNat < 0xd800 ∨ (0xdfff < c.toNat ∧ c.toNat < 0x110000) := c.valid
  intro b hb
  simp only [utf8EncodeChar] at hb
  rcases Nat.lt_or_ge c.toNat 0x80 with h1 | h1
  · rw [if_pos h1] at hb
    simp at hb
    omega
  · rw [if_neg (by omega)] at hb
    rcases Nat.lt_or_ge c.toNat 0x800 with h2 | h2
    · rw [if_pos h2] at hb
      simp at hb
      rcases hb with hb | hb <;> omega
    · rw [if_neg (by omega)] at hb
      rcases Nat.lt_or_ge c.toNat 0x10000 with h3 | h3
      · rw [if_pos h3] at hb
        simp at hb
        rcases hb with hb | hb | hb <;> omega
      · rw [if_neg (by omega)] at hb
        simp at hb
        rcases hb with hb | hb | hb | hb <;> omega

theorem utf8EncodeList_lt (cs : List Char) : ∀ b ∈ utf8EncodeList cs, b < 256 := by
  intro b hb
  simp only [utf8EncodeList, List.mem_flatMap] at hb
  rcases hb with ⟨c, _, hbc⟩
  exact utf8EncodeChar_lt c b hbc

theorem cursor_roundtrip (s i : String) : decode_cursor (encode_cursor s i) = .ok s i := by
  have hb64 := b64_roundtrip (utf8EncodeList (jsonDumpsCursor s.data i.data))
    (utf8EncodeList_lt (jsonDumpsCursor s.data i.data))
  have hutf8 := utf8_decode_encode (jsonDumpsCursor s.data i.data)
  have hjson := jsonLoads_dumps s.data i.data
  rw [encode_cursor, decode_cursor]
  simp only [hb64, hutf8, hjson]
  rfl

theorem cursor_classify (cursor : String) :
    (b64DecodeUrlsafe cursor.data = none → decode_cursor cursor = .invalidCursor) ∧
    (∀ bytes, b64DecodeUrlsafe cursor.data = some bytes →
      utf8DecodeStrictList bytes = none → decode_cursor cursor = .invalidCursor) ∧
    (∀ bytes text, b64DecodeUrlsafe cursor.data = some bytes →
      utf8DecodeStrictList bytes = some text → jsonLoads text = none →
      decode_cursor cursor = .invalidCursor) ∧
    (∀ bytes text fields, b64DecodeUrlsafe cursor.data = some bytes →
      utf8DecodeStrictList bytes = some text →
      jsonLoads text = some (JsonValue.jobj fields) →
      (objLookup fields ['s'] = none ∨ objLookup fields ['i'] = none) →
      decode_cursor cursor = .invalidCursor) ∧
    (∀ bytes text v, b64DecodeUrlsafe cursor.data = some bytes →
      utf8DecodeStrictList bytes = some text → jsonLoads text = some v →
      v.isObj = false → decode_cursor cursor = .typeErr) := by
  refine ⟨?_, ?_, ?_, ?_, ?_⟩
  · intro hb
    simp only [decode_cursor, hb]
  · intro bytes hb hu
    simp only [decode_cursor, hb, hu]
  · intro bytes text hb hu hj
    simp only [decode_cursor, hb, hu, hj]
  · intro bytes text fields hb hu hj hk
    rcases hk with hk | hk
    · simp only [decode_cursor, hb, hu, hj, hk]
    · simp only [decode_cursor, hb, hu, hj]
      rcases hs : objLookup fields ['s'] with _ | vs
      · rfl
      · simp only [hs, hk]
  · intro bytes text v hb hu hj hv
    cases v <;> simp_all [decode_cursor, JsonValue.isObj]

/-- C8 counterexample: the cursor `NQ==` (URL-safe base64 of the payload
`5`, which is valid JSON of a non-dict) makes `decode_cursor` subscript an
int — an uncaught TypeError, not the InvalidCursorError the spec promises
for every malformed cursor. The same happens for `=NQ==`: the legacy
base64 loop ignores the misplaced leading `=`, so it too decodes to the
payload `5`. -/
theorem C8_counterexample :
    decode_cursor "NQ==" = .typeErr ∧ decode_cursor "=NQ==" = .typeErr ∧
    CursorResult.typeErr ≠ CursorResult.invalidCursor :=
  ⟨by rfl, by rfl, by decide⟩

/-- C8 (amended): `decode_cursor (encode_cursor s i) = (s, i)` for all
strings; a cursor failing base64 decoding, UTF-8 decoding or JSON parsing,
or whose JSON object payload lacks the `s` or `i` key, raises the
invalid-cursor error; but a cursor whose payload is valid JSON of a
non-object escapes with an uncaught TypeError instead. -/
theorem C8_amended :
    (∀ s i : String, decode_cursor (encode_cursor s i) = .ok s i) ∧
    (∀ cursor : String,
      (b64DecodeUrlsafe cursor.data = none → decode_cursor cursor = .invalidCursor) ∧
      (∀ bytes, b64DecodeUrlsafe cursor.data = some bytes →
        utf8DecodeStrictList bytes = none → decode_cursor cursor = .invalidCursor) ∧
      (∀ bytes text, b64DecodeUrlsafe cursor.data = some bytes →
        utf8DecodeStrictList bytes = some text → jsonLoads text = none →
        decode_cursor cursor = .invalidCursor) ∧
      (∀ bytes text fields, b64DecodeUrlsafe cursor.data = some bytes →
        utf8DecodeStrictList bytes = some text →
        jsonLoads text = some (JsonValue.jobj fields) →
        (objLookup fields ['s'] = none ∨ objLookup fields ['i'] = none) →
        decode_cursor cursor = .invalidCursor) ∧
      (∀ bytes text v, b64DecodeUrlsafe cursor.data = some bytes →
        utf8DecodeStrictList bytes = some text → jsonLoads text = some v →
        v.isObj = false → decode_cursor cursor = .typeErr)) :=
  ⟨fun s i => cursor_roundtrip s i, fun cursor => cursor_classify cursor⟩

/-- Witness for the amended C8 at concrete inputs: one round trip, the
TypeError classification of the cursor `NQ==`, and the invalid-cursor
classification of the cursor `NQ=`, whose incomplete padding makes
`binascii` fail. -/
theorem C8_amended_witness :
    decode_cursor (encode_cursor "abc" "42") = .ok "abc" "42" ∧
    (b64DecodeUrlsafe ("NQ==" : String).data = some [53] ∧
      utf8DecodeStrictList [53] = some ['5'] ∧
      jsonLoads ['5'] = some (JsonValue.jnum ['5']) ∧
      (JsonValue.jnum ['5']).isObj = false ∧
      decode_cursor "NQ==" = .typeErr) ∧
    (b64DecodeUrlsafe ("NQ=" : String).data = none ∧
      decode_cursor "NQ=" = .invalidCursor) :=
  ⟨C8_amended.1 "abc" "42",
    ⟨by rfl, by rfl, by rfl, by rfl,
      (C8_amended.2 "NQ==").2.2.2.2 [53] ['5'] (JsonValue.jnum ['5']) (by rfl) (by rfl) (by rfl)
        (by rfl)⟩,
    ⟨by rfl, (C8_amended.2 "NQ=").1 (by rfl)⟩⟩

/-- C2 (amended): the batched postgres persistence phase is idempotent —
re-ingesting the same (path, bytes, file_uuid) with the same git metadata
into the state produced by a first ingest into the empty graph returns
exactly that state (no AstNode, FileVersion, guard row, PARENT_OF,
OCCURS_IN or NEXT_VERSION growth), provided the collected span_keys are
pairwise distinct; by induction this extends to any number of repetitions.
The in-memory backend (see the counterexample) instead appends a fresh
FileVersion and fresh occurrences on each re-ingest. -/
theorem C2_amended (g : Option GitCommitInfo) (now : String) (pc : Option String)
    (fa : FileAst) (db : List Nat) (path : String) (st1 : AgeState)
    (hok : persist_file_ast_to_age g now pc fa db path AgeState.empty = .ok st1)
    (hnd : ((collect_ast_data fa.ast fa.file_uuid (fa.source_bytes.getD db)).nodes.map
      (fun p => p.span_key)).Nodup) :
    persist_file_ast_to_age g now pc fa db path st1 = .ok st1 := by
  obtain ⟨hfv, hast, hnid, hguard, hpar, hocc, hnve⟩ :=
    persist_fromEmpty_parts g now pc fa db path st1 hok
  rw [persist_decompose]
  have hFV2 : persistStageFV g now fa path st1 = (st1, 1) := by
    rw [persistStageFV]
    exact mergeFileVersion_self st1 1 _ _ _ _ _ _ _ hfv
  have hLink2 : persistStageLink g pc path (st1, 1) = st1 := by
    rw [persistStageLink]
    rcases hpc : (if fallbackCommit g ≠ "local" then pc else none) with _ | pcv
    · rfl
    · simp only [hpc] at hnve
      simp only [linkPrevVersion]
      have hrepl : (st1.fileVersions.filter
          (fun f => f.commit_id = pcv && f.path = path)).foldl
          (fun es f => if es.contains (f.vid, 1) then es else es ++ [(f.vid, 1)])
          st1.nextVersionEdges = st1.nextVersionEdges := by
        apply foldIns_replay (fun f : AgeFileVersion => (f.vid, 1))
        intro f hf
        rw [hnve]
        exact foldIns_self (fun f : AgeFileVersion => (f.vid, 1)) _ [] f hf
      rw [hrepl]
  have hres2 : (collect_ast_data fa.ast fa.file_uuid (fa.source_bytes.getD db)).nodes.map
      (fun p => dictGet (lookupSpans st1
        ((collect_ast_data fa.ast fa.file_uuid (fa.source_bytes.getD db)).nodes.map
          (fun p => p.span_key))) p.span_key) =
      (List.range' 2
        (collect_ast_data fa.ast fa.file_uuid (fa.source_bytes.getD db)).nodes.length).map
        some := by
    have hresolve := lookupSpans_resolve st1
      (collect_ast_data fa.ast fa.file_uuid (fa.source_bytes.getD db)).nodes 2 hast hnd
    rw [List.map_map] at hresolve
    exact hresolve
  have hPart := partitionNodes_resolved
    (lookupSpans st1
      ((collect_ast_data fa.ast fa.file_uuid (fa.source_bytes.getD db)).nodes.map
        (fun p => p.span_key)))
    (collect_ast_data fa.ast fa.file_uuid (fa.source_bytes.getD db)).nodes
    (List.range' 2 (collect_ast_data fa.ast fa.file_uuid (fa.source_bytes.getD db)).nodes.length)
    0 hres2
  have hNodes2 : persistStageNodes fa db st1 =
      (st1,
        (List.range' 0
          (collect_ast_data fa.ast fa.file_uuid (fa.source_bytes.getD db)).nodes.length).zip
        (List.range' 2
          (collect_ast_data fa.ast fa.file_uuid (fa.source_bytes.getD db)).nodes.length)) := by
    simp only [persistStageNodes]
    rw [hPart, createNodes_spec]
    simp [createdVertices]
  have hStages2 : persistStages g now pc fa db path st1 =
      (st1,
        (List.range' 0
          (collect_ast_data fa.ast fa.file_uuid (fa.source_bytes.getD db)).nodes.length).zip
        (List.range' 2
          (collect_ast_data fa.ast fa.file_uuid (fa.source_bytes.getD db)).nodes.length),
       1) := by
    simp only [persistStages, hFV2, hLink2, hNodes2]
  rw [hStages2]
  simp only []
  rw [guardInsertAll_replay _ _ (guardInsertAll_ok_mem _ _ _ hguard)]
  have hkeyNodup := persistEdges_key_nodup fa db
  have hedge : st1.parentEdges = persistEdgesOf fa db
      ((List.range' 0
          (collect_ast_data fa.ast fa.file_uuid (fa.source_bytes.getD db)).nodes.length).zip
        (List.range' 2
          (collect_ast_data fa.ast fa.file_uuid (fa.source_bytes.getD db)).nodes.length)) := by
    rw [hpar, mergeParentAll_append_disjoint _ [] (by simp) hkeyNodup, List.nil_append]
  have hparEq : mergeParentAll st1.parentEdges
      (persistEdgesOf fa db
        ((List.range' 0
            (collect_ast_data fa.ast fa.file_uuid (fa.source_bytes.getD db)).nodes.length).zip
          (List.range' 2
            (collect_ast_data fa.ast fa.file_uuid (fa.source_bytes.getD db)).nodes.length))) =
      st1.parentEdges := by
    rw [hedge]
    apply mergeParentAll_replay
    intro t ht
    refine ⟨⟨t, ht, rfl, rfl⟩, ?_⟩
    intro e he hk
    have : e = t := List.inj_on_of_nodup_map hkeyNodup he ht (Prod.ext hk.1 hk.2)
    rw [this]
  have hoccEq : mergeOccursAll st1.occursEdges
      (persistOccsOf g fa db
        ((List.range' 0
            (collect_ast_data fa.ast fa.file_uuid (fa.source_bytes.getD db)).nodes.length).zip
          (List.range' 2
            (collect_ast_data fa.ast fa.file_uuid (fa.source_bytes.getD db)).nodes.length)) 1) =
      st1.occursEdges := by
    apply mergeOccursAll_replay
    intro o ho
    rw [hocc]
    exact mergeOccursAll_mem_self _ [] o ho
  rw [hparEq, hoccEq]

/-- Witness for the amended C2 at a concrete input: re-ingesting the leaf
file leaves the one-ingest state unchanged. -/
theorem C2_amended_witness :
    (persist_file_ast_to_age none "t0" none faA [] "a.py" AgeState.empty = .ok c2PgState) ∧
    ((collect_ast_data faA.ast faA.file_uuid (faA.source_bytes.getD [])).nodes.map
      (fun p => p.span_key)).Nodup ∧
    persist_file_ast_to_age none "t0" none faA [] "a.py" c2PgState = .ok c2PgState := by
  have hok : persist_file_ast_to_age none "t0" none faA [] "a.py" AgeState.empty =
      .ok c2PgState := by rfl
  have hnd : ((collect_ast_data faA.ast faA.file_uuid (faA.source_bytes.getD [])).nodes.map
      (fun p => p.span_key)).Nodup := by decide
  exact ⟨hok, hnd, C2_amended none "t0" none faA [] "a.py" c2PgState hok hnd⟩

/-- Witness for C10 at a concrete input: the bytes `0xFF` and `0xFE` are
distinct but both replacement-decode to U+FFFD, so the second persist
returns the first record's UUID. -/
theorem C10_witness :
    readContentPy [255] = readContentPy [254] ∧
    (mem_persist_file (mem_persist_file MemState.empty "/f.py" "f.py" ".py" [255]
        "t0" "t0" "uuid-1").1 "/f.py" "f.py" ".py" [254] "t1" "t1" "uuid-2").2 =
      (mem_persist_file MemState.empty "/f.py" "f.py" ".py" [255] "t0" "t0" "uuid-1").2 := by
  refine ⟨by rfl, C10_persist_dedup_on_decoded.1 MemState.empty "/f.py" "f.py" ".py" "f.py" ".py"
    [255] [254] "t0" "t0" "uuid-1" "t1" "t1" "uuid-2" (by rfl)⟩

set_option maxRecDepth 400000 in
/-- C10 counterexample: `read_text` translates newlines only on the strict
path. The bytes `EF BF BD 0D` (U+FFFD then CR, valid UTF-8) and `FF 0D`
(an invalid byte then CR) have equal replacement-decoded texts, yet the
first is stored as `U+FFFD LF` and the second as `U+FFFD CR` — different
hashes, so the second persist of the same path misses the dedup lookup and
returns its fresh UUID instead of the first record's. -/
theorem C10_counterexample :
    utf8DecodeReplaceList [239, 191, 189, 13] = utf8DecodeReplaceList [255, 13] ∧
    readContentPy [239, 191, 189, 13] ≠ readContentPy [255, 13] ∧
    (mem_persist_file (mem_persist_file MemState.empty "/f.py" "f.py" ".py"
        [239, 191, 189, 13] "t0" "t0" "uuid-1").1 "/f.py" "f.py" ".py"
        [255, 13] "t1" "t1" "uuid-2").2 = "uuid-2" ∧
    ("uuid-2" : String) ≠ ("uuid-1" : String) :=
  ⟨by rfl, by decide, by rfl, by decide⟩

end CodexGraph
